import Mathlib

/-!
# adash: the event-log state machine of `src/adash.c`

A shallow embedding of the time logger.  A `Char` stands for one byte: C
strings are lists of characters (the bytes before the terminating NUL), files
are lists of characters, and the file system is part of an explicit `State`
that every operation maps to a new `State`.  The terminal (drawing,
`flash_msg`, `napms`) has no effect on that state and is left out; what the
user types and what the clock returns are passed in through `Env`.

Conventions of the model:
* `fopen` for reading succeeds exactly when the file exists; `fopen` for
  writing or appending always succeeds; `rename` and `unlink` succeed exactly
  when the file they name exists;
* paths fit in `PATH_MAX`, so `DATA_DIR/<id>.log` is determined by `<id>`;
* the character classes are those of the C locale;
* `int` is 32 bits wide and wraps around, `time_t` values are integers;
* static arrays start as zero; the array `projects` on the stack of
  `list_view` starts with arbitrary bytes, and the bytes of it that
  `build_project_list` does not write are a parameter of the model.
-/

namespace Adash

/-- A C string: the bytes before the terminating NUL. -/
abbrev CStr := List Char

/-- The constant `MAX_COMMENTS`. -/
def MAX_COMMENTS : Nat := 1024

/-- The constant `MAX_LINE`. -/
def MAX_LINE : Nat := 1024

/-- The constant `MAX_PROJECTS`. -/
def MAX_PROJECTS : Nat := 512

/-- The struct `Comment`: `timestamp[32]` and `message[MAX_LINE]`. -/
structure Comment where
  timestamp : CStr
  message : CStr
deriving DecidableEq

/-- The UI modes `MODE_DATA`, `MODE_LIST`, `MODE_QUIT`. -/
inductive Mode where
  | MODE_DATA
  | MODE_LIST
  | MODE_QUIT
deriving DecidableEq

/-- The files and the globals of the program.  `data id` is the content of
`DATA_DIR/<id>.log`, `archived id` that of `ARCHIVE_DIR/<id>.log`, `lock` that
of `STATE_DIR/checkedin`, `running` that of `STATE_DIR/running`; `none` is an
absent file.  `comments` holds the first `comment_count` entries of the global
array, so `comment_count` is its length. -/
structure State where
  data : CStr → Option (List Char)
  archived : CStr → Option (List Char)
  lock : Option (List Char)
  running : Option (List Char)
  active_id : CStr
  comments : List Comment
  index_pos : Int
  mode : Mode

/-- What the outside world supplies during one key press: the text that
`now_iso` formats from the clock, the characters typed at a `getnstr` prompt
and the key pressed at a `getch` confirmation. -/
structure Env where
  now : CStr
  typed : List Char
  ans : Char

/-! ## libc -/

/-- The C-locale `isspace`: space, `\t`, `\n`, `\v`, `\f`, `\r`. -/
def isspace (c : Char) : Bool :=
  c = ' ' || c = '\t' || c = '\n' || c.toNat = 11 || c.toNat = 12 || c = '\r'

/-- The C-locale `iscntrl`: bytes `0x00`-`0x1F` and `0x7F`. -/
def iscntrl (c : Char) : Bool :=
  decide (c.toNat < 32) || c.toNat = 127

/-- A buffer read as a C string: it ends at the first NUL byte. -/
def cstr (buf : List Char) : CStr :=
  buf.takeWhile (fun c => c != '\x00')

/-- The bytes one `fgets` call consumes when the buffer has room for `room`
of them: it stops after a newline, when the room is used up, or at end of
file.  Returns the bytes read and the rest of the file. -/
def fgets_take : Nat → List Char → List Char × List Char
  | 0, cs => ([], cs)
  | _ + 1, [] => ([], [])
  | room + 1, c :: cs =>
    if c = '\n' then ([c], cs)
    else (c :: (fgets_take room cs).1, (fgets_take room cs).2)

/-- The call `fgets(buf, n, f)`: `none` at end of file, otherwise the line
now in `buf` (as a C string) and the rest of the file. -/
def fgets (n : Nat) (file : List Char) : Option (CStr × List Char) :=
  match file with
  | [] => none
  | _ :: _ => some (cstr (fgets_take (n - 1) file).1, (fgets_take (n - 1) file).2)

/-- The lines that `while (fgets(line, n, f))` sees, in order.  Every call
consumes at least one byte, so `fuel` equal to the file length is enough. -/
def read_lines_fuel (n : Nat) : Nat → List Char → List CStr
  | 0, _ => []
  | fuel + 1, file =>
    match fgets n file with
    | none => []
    | some (line, rest) => line :: read_lines_fuel n fuel rest

/-- The lines that `while (fgets(line, n, f))` sees for a whole file. -/
def read_lines (n : Nat) (file : List Char) : List CStr :=
  read_lines_fuel n file.length file

/-- The call `strtok(s, delim)` followed by the state it leaves for
`strtok(NULL, ...)`: leading delimiters are skipped; `none` when nothing
is left; otherwise the token and the text after the delimiter that ended
it. -/
def strtok (delim : List Char) (s : CStr) : Option (CStr × CStr) :=
  match s.dropWhile (fun c => delim.contains c) with
  | [] => none
  | c :: cs =>
    some ((c :: cs).takeWhile (fun d => !delim.contains d),
          ((c :: cs).dropWhile (fun d => !delim.contains d)).drop 1)

/-- The text `strtok(NULL, ...)` continues from after a call: the end of the
string when the call found no token. -/
def strtok_rest (r : Option (CStr × CStr)) : CStr :=
  match r with
  | none => []
  | some (_, rest) => rest

/-- The test `strstr(hay, needle) != NULL`. -/
def strstr (hay needle : CStr) : Bool :=
  match hay with
  | [] => needle.isEmpty
  | c :: cs => needle.isPrefixOf (c :: cs) || strstr cs needle

/-- The result of `strncpy(dst, src, n)` into a field whose byte `n` is never
written and stays NUL: the first `n` bytes of `src`. -/
def strncpy (src : CStr) (n : Nat) : CStr :=
  src.take n

/-- The input `getnstr(buf, n)` returns: at most `n` of the typed
characters. -/
def getnstr (n : Nat) (typed : List Char) : CStr :=
  cstr (typed.take n)

/-! ## Helpers of adash.c -/

/-- The function `trim`.  The pointer `s` that skips the leading white space
is local, so the buffer keeps its leading white space; the NUL is written at
`e`, which walks back over trailing white space but never past `s`. -/
def trim (s : CStr) : CStr :=
  s.takeWhile isspace ++ (s.dropWhile isspace).rdropWhile isspace

/-- The function `lock_read` with a zero-initialised buffer of `n` bytes (as
every caller passes): the buffer afterwards. -/
def lock_read (n : Nat) (w : State) : CStr :=
  match w.lock with
  | none => []
  | some file =>
    match fgets n file with
    | none => []
    | some (buf, _) => trim buf

/-- The function `lock_write`; `none` is the NULL pointer. -/
def lock_write (id : Option CStr) (w : State) : State :=
  match id with
  | none => { w with lock := none }
  | some s => if s = [] then { w with lock := none } else { w with lock := some (s ++ ['\n']) }

/-- The function `has_checkin`. -/
def has_checkin (w : State) : Bool :=
  lock_read 128 w != []

/-- The function `is_the_checked_in_project`. -/
def is_the_checked_in_project (w : State) : Bool :=
  w.active_id != [] && lock_read 128 w == w.active_id

/-- The function `save_active_project`; `none` is the NULL pointer. -/
def save_active_project (id : Option CStr) (w : State) : State :=
  match id with
  | none => { w with running := none }
  | some s => if s = [] then { w with running := none } else { w with running := some (s ++ ['\n']) }

/-- The function `valid_id`. -/
def valid_id (s : CStr) : Bool :=
  match s with
  | [] => false
  | _ :: _ => s.all (fun c => !(c = '/' || c = '\x00') && !iscntrl c)

/-- The content of the log of project `id`, an absent file read as empty. -/
def log_content (w : State) (id : CStr) : List Char :=
  (w.data id).getD []

/-- The state after `fopen(path, "a")` on the log of `id`: an absent file is
created empty. -/
def open_append (id : CStr) (w : State) : State :=
  { w with data := fun k => if k = id then some (log_content w id) else w.data k }

/-- The state after text is appended to the log of `id`. -/
def append_log (id : CStr) (text : List Char) (w : State) : State :=
  { w with data := fun k => if k = id then some (log_content w id ++ text) else w.data k }

/-- The line `fprintf(f, "%s\t%s\t%s\n", now_iso(), action, comment)`. -/
def log_line (now action payload : CStr) : List Char :=
  now ++ ['\t'] ++ action ++ ['\t'] ++ payload ++ ['\n']

/-- The function `write_log`; `now` is the text returned by `now_iso()` and
`none` is the NULL comment. -/
def write_log (now action : CStr) (comment : Option CStr) (w : State) : State :=
  if w.active_id = [] then w
  else
    let w1 := open_append w.active_id w
    let locked := lock_read 128 w1
    let line := log_line now action (comment.getD [])
    if action = "checkin".toList then
      if locked ≠ [] ∧ locked ≠ w.active_id then w1
      else append_log w.active_id line (lock_write (some w.active_id) w1)
    else if action = "checkout".toList ∨ action = "finish".toList ∨
        action = "cancel".toList then
      append_log w.active_id line (lock_write none w1)
    else if action = "comment".toList then
      if locked ≠ w.active_id then w1
      else append_log w.active_id line w1
    else append_log w.active_id line w1

/-- The loop of `load_comments` over the lines of the log; `acc` holds
`comments[0 .. comment_count)`. -/
def load_comments_loop : List CStr → List Comment → List Comment
  | [], acc => acc
  | line :: rest, acc =>
    if !strstr line "\tcomment\t".toList then load_comments_loop rest acc
    else
      let r1 := strtok ['\t'] line
      let r2 := strtok ['\t'] (strtok_rest r1)
      let r3 := strtok ['\n'] (strtok_rest r2)
      match r1, r3 with
      | some (ts, _), some (msg, _) =>
        if acc.length < MAX_COMMENTS then
          load_comments_loop rest (acc ++ [⟨strncpy ts 31, strncpy msg (MAX_LINE - 1)⟩])
        else load_comments_loop rest acc
      | _, _ => load_comments_loop rest acc

/-- The function `load_comments`. -/
def load_comments (w : State) : State :=
  if w.active_id = [] then { w with comments := [] }
  else
    match w.data w.active_id with
    | none => { w with comments := [] }
    | some file =>
      let cs := load_comments_loop (read_lines MAX_LINE file) []
      { w with comments := cs, index_pos := if cs.length = 0 then 0 else (cs.length : Int) - 1 }

/-- The loop of `delete_comment`: the text written to the temporary file. -/
def delete_comment_loop (ts msg : CStr) : List CStr → List Char
  | [] => []
  | line :: rest =>
    if !strstr line "\tcomment\t".toList then line ++ delete_comment_loop ts msg rest
    else
      let r1 := strtok ['\t'] line
      let r2 := strtok ['\t'] (strtok_rest r1)
      let r3 := strtok ['\n'] (strtok_rest r2)
      match r1, r3 with
      | some (lts, _), some (lmsg, _) =>
        if lts = ts ∧ lmsg = msg then delete_comment_loop ts msg rest
        else line ++ delete_comment_loop ts msg rest
      | _, _ => line ++ delete_comment_loop ts msg rest

/-- The function `delete_comment`. -/
def delete_comment (w : State) : State :=
  if w.active_id = [] ∨ w.comments.length = 0 ∨ w.index_pos < 0 ∨
      w.index_pos ≥ (w.comments.length : Int) then w
  else
    match w.comments.get? w.index_pos.toNat with
    | none => w
    | some c =>
      match w.data w.active_id with
      | none => w
      | some file =>
        { w with data := fun k =>
            if k = w.active_id then
              some (delete_comment_loop c.timestamp c.message (read_lines MAX_LINE file))
            else w.data k }

/-- The function `add_comment`. -/
def add_comment (env : Env) (w : State) : State :=
  let msg := trim (getnstr (MAX_LINE - 1) env.typed)
  load_comments (if msg = [] then w else write_log env.now "comment".toList (some msg) w)

/-- The ncurses key code `KEY_BACKSPACE`. -/
def KEY_BACKSPACE : Char := Char.ofNat 263

/-- The function `data_view_handle`. -/
def data_view_handle (env : Env) (key : Char) (w : State) : State :=
  if key = 'j' then
    if w.index_pos < (w.comments.length : Int) - 1 then { w with index_pos := w.index_pos + 1 }
    else w
  else if key = 'k' then
    if w.index_pos > 0 then { w with index_pos := w.index_pos - 1 } else w
  else if key = 'c' then
    if is_the_checked_in_project w then load_comments (add_comment env w) else w
  else if key = 'i' then
    if has_checkin w then w
    else load_comments (write_log env.now "checkin".toList none w)
  else if key = 'o' then
    if is_the_checked_in_project w then
      load_comments (write_log env.now "checkout".toList none w)
    else w
  else if key = 'f' then
    if is_the_checked_in_project w then
      load_comments (write_log env.now "finish".toList none w)
    else w
  else if key = 'x' then
    if is_the_checked_in_project w then
      load_comments (write_log env.now "cancel".toList none w)
    else w
  else if key = 'd' then
    if is_the_checked_in_project w then
      if w.active_id ≠ [] ∧ w.comments.length ≠ 0 then
        if env.ans = 'y' ∨ env.ans = 'Y' then
          let w1 := delete_comment w
          load_comments (if w1.index_pos > 0 then { w1 with index_pos := w1.index_pos - 1 } else w1)
        else w
      else w
    else w
  else if key = 'l' then w
  else if key = 'p' ∨ key = KEY_BACKSPACE ∨ key = Char.ofNat 127 ∨ key = Char.ofNat 8 then
    { save_active_project none w with mode := Mode.MODE_LIST }
  else w

/-! ## Time accumulation -/

/-- The struct `tm` of `<time.h>`. -/
structure Tm where
  tm_sec : Int
  tm_min : Int
  tm_hour : Int
  tm_mday : Int
  tm_mon : Int
  tm_year : Int
  tm_isdst : Int

/-- The calendar functions of libc that `parse_iso_ts` calls, taken as
parameters: `strptime s fmt` is the broken-down time it stores when `s`
matches `fmt` and `none` when it returns NULL; `mktime` and `timegm` give
seconds since the epoch; `gnu_source` tells whether the build defines
`_GNU_SOURCE`. -/
structure Libc where
  strptime : CStr → CStr → Option Tm
  mktime : Tm → Int
  timegm : Tm → Int
  gnu_source : Bool

/-- The function `parse_iso_ts`; `-1` is `(time_t)-1`. -/
def parse_iso_ts (L : Libc) (s : CStr) : Int :=
  match L.strptime s "%Y-%m-%dT%H:%M:%SZ".toList with
  | some t => if L.gnu_source then L.timegm t else L.mktime { t with tm_isdst := 0 }
  | none =>
    match L.strptime s "%Y-%m-%dT%H:%M:%S".toList with
    | some t => L.mktime { t with tm_isdst := -1 }
    | none => -1

/-- The conversion of an integer to `int`: its value modulo `2^32`, taken in
`[-2^31, 2^31)`. -/
def to_int (x : Int) : Int :=
  (x + 2147483648) % 4294967296 - 2147483648

/-- The body of the loop of `compute_total_minutes` from the test of `t_sec`
on, for a line whose second token is `act` and whose first token parsed to
`t_sec`: the new values of `checkin_time` and `total_minutes`.  The quotient
`/ 60` of C truncates toward zero. -/
def minutes_step (act : CStr) (t_sec : Int) (checkin_time total_minutes : Int) : Int × Int :=
  if t_sec = -1 then (checkin_time, total_minutes)
  else if act = "checkin".toList then (t_sec, total_minutes)
  else if act = "checkout".toList ∧ checkin_time ≠ 0 then
    (0, to_int (total_minutes + to_int ((t_sec - checkin_time).tdiv 60)))
  else (checkin_time, total_minutes)

/-- The loop of `compute_total_minutes` over the lines of the log. -/
def compute_total_minutes_loop (L : Libc) : List CStr → Int → Int → Int
  | [], _, total_minutes => total_minutes
  | line :: rest, checkin_time, total_minutes =>
    let r1 := strtok ['\t'] line
    let r2 := strtok ['\t'] (strtok_rest r1)
    match r1, r2 with
    | some (ts, _), some (act, _) =>
      compute_total_minutes_loop L rest
        (minutes_step act (parse_iso_ts L ts) checkin_time total_minutes).1
        (minutes_step act (parse_iso_ts L ts) checkin_time total_minutes).2
    | _, _ => compute_total_minutes_loop L rest checkin_time total_minutes

/-- The function `compute_total_minutes`. -/
def compute_total_minutes (L : Libc) (w : State) : Int :=
  if w.active_id = [] then 0
  else
    match w.data w.active_id with
    | none => 0
    | some file => compute_total_minutes_loop L (read_lines MAX_LINE file) 0 0

/-- The kinds of event of a log. -/
inductive Kind where
  | Created
  | CheckIn
  | CheckOut
  | Finish
  | Cancel
  | Comment
deriving DecidableEq

/-- The lower-case token that stands for a kind in a log line. -/
def Kind.token : Kind → CStr
  | Kind.Created => "created".toList
  | Kind.CheckIn => "checkin".toList
  | Kind.CheckOut => "checkout".toList
  | Kind.Finish => "finish".toList
  | Kind.Cancel => "cancel".toList
  | Kind.Comment => "comment".toList

/-- A log event with its parsed time stamp: the kind named by the second
token of the line and the `t_sec` that `parse_iso_ts` gave for the first. -/
structure Event where
  kind : Kind
  time : Int
deriving DecidableEq

/-- The loop of `compute_total_minutes` run on a sequence of events: every
event goes through `minutes_step` with the token of its kind and its parsed
time. -/
def total_minutes_events : List Event → Int → Int → Int
  | [], _, total_minutes => total_minutes
  | e :: rest, checkin_time, total_minutes =>
    total_minutes_events rest
      (minutes_step e.kind.token e.time checkin_time total_minutes).1
      (minutes_step e.kind.token e.time checkin_time total_minutes).2

/-- The tokens of a line that the loop of `compute_total_minutes` acts on: the
second token and the parsed first token, `none` for a line it skips because a
token is missing. -/
def line_tokens (L : Libc) (line : CStr) : Option (CStr × Int) :=
  match strtok ['\t'] line, strtok ['\t'] (strtok_rest (strtok ['\t'] line)) with
  | some (ts, _), some (act, _) => some (act, parse_iso_ts L ts)
  | _, _ => none

/-- The scan of the specification, section 4.3, in the words of the claim:
`pending` starts as none; a CheckIn sets it; a CheckOut with `pending` set
adds the difference divided by 60, truncated toward zero, and clears
`pending`; everything else changes nothing. -/
def spec_scan : List Event → Option Int → Int → Int
  | [], _, total => total
  | e :: rest, pending, total =>
    match e.kind, pending with
    | Kind.CheckIn, _ => spec_scan rest (some e.time) total
    | Kind.CheckOut, some p => spec_scan rest none (total + (e.time - p).tdiv 60)
    | Kind.CheckOut, none => spec_scan rest none total
    | _, _ => spec_scan rest pending total

/-- The total minutes of the specification for a sequence of events. -/
def spec_total_minutes (events : List Event) : Int :=
  spec_scan events none 0

/-- The texts `now_iso` can return: `strftime` writes the digits of the date
and time and the characters `-`, `T`, `:`, `Z` of the format
`%Y-%m-%dT%H:%M:%SZ` into `buf[32]`. -/
def is_now_iso (s : CStr) : Bool :=
  s != [] && decide (s.length ≤ 31) &&
    s.all (fun c => c.isDigit || c = '-' || c = 'T' || c = ':' || c = 'Z')

/-- A log line as `write_log` writes it: the time-stamp text, the kind and
the payload. -/
structure Row where
  ts : CStr
  kind : Kind
  payload : CStr

/-- The bytes of the line of a row. -/
def Row.line (r : Row) : List Char :=
  log_line r.ts r.kind.token r.payload

/-- A row whose line is read back in one piece with its three fields: the
time stamp is not empty and free of tabs, no field holds a newline or a NUL,
and the line fits in one read of `MAX_LINE - 1` bytes. -/
def Row.well_formed (r : Row) : Prop :=
  r.ts ≠ [] ∧ '\t' ∉ r.ts ∧ '\n' ∉ r.ts ∧ '\x00' ∉ r.ts ∧
    '\n' ∉ r.payload ∧ '\x00' ∉ r.payload ∧ r.line.length < MAX_LINE

/-- The log file made of the lines of the rows. -/
def render_log : List Row → List Char
  | [] => []
  | r :: rest => r.line ++ render_log rest

/-- The event of a row: its kind and its parsed time stamp. -/
def Row.event (L : Libc) (r : Row) : Event :=
  ⟨r.kind, parse_iso_ts L r.ts⟩

/-! ## The project list -/

/-- The struct `ProjectInfo` as its users read it: the C strings that start
at the fields `id[128]`, `last_action[32]`, `timestamp[32]` and
`preview[64]`. -/
structure ProjectInfo where
  id : CStr
  last_action : CStr
  timestamp : CStr
  preview : CStr
deriving DecidableEq

/-- The filter `FLT_ALL` of the list view. -/
def FLT_ALL : Nat := 0

/-- The filter `FLT_FINISH` of the list view. -/
def FLT_FINISH : Nat := 1

/-- The filter `FLT_CANCEL` of the list view. -/
def FLT_CANCEL : Nat := 2

/-- The filter `FLT_STARTED` of the list view. -/
def FLT_STARTED : Nat := 3

/-- The sign of `strcmp(a, b)`: the bytes are compared as unsigned values
and a string that ends first is the smaller one. -/
def strcmp : CStr → CStr → Int
  | [], [] => 0
  | [], _ :: _ => -1
  | _ :: _, [] => 1
  | x :: xs, y :: ys =>
    if x.toNat < y.toNat then -1
    else if y.toNat < x.toNat then 1
    else strcmp xs ys

/-- The function `compare_projects`. -/
def compare_projects (a b : ProjectInfo) : Int :=
  strcmp b.timestamp a.timestamp

/-- The function `is_status_match`. -/
def is_status_match (status filter : CStr) : Bool :=
  if filter = "all".toList then true
  else if filter = "created".toList then status = "created".toList
  else status = filter

/-- The offset `strrchr(s, c) - s`, `none` for a NULL result. -/
def strrchr_offset (c : Char) : CStr → Option Nat
  | [] => none
  | x :: xs =>
    match strrchr_offset c xs with
    | some i => some (i + 1)
    | none => if x = c then some 0 else none

/-- The id that `build_project_list` takes from a directory entry: the name
must contain `.log`, the id is the part before the last dot, cut to 127
bytes, and must pass `valid_id`; `none` for an entry that is passed over. -/
def entry_id (d_name : CStr) : Option CStr :=
  if !strstr d_name ".log".toList then none
  else
    match strrchr_offset '.' d_name with
    | none => none
    | some len =>
      if valid_id (d_name.take (if len ≥ 128 then 127 else len)) then
        some (d_name.take (if len ≥ 128 then 127 else len))
      else none

/-- The bytes that `strncpy(dst, src, n)` writes to `dst[0 .. n)`: the first
`n` bytes of `src`, followed by NUL bytes when `src` is shorter than `n`.  It
writes no byte after them, so a source of `n` bytes or more leaves no NUL. -/
def strncpy_bytes (src : CStr) (n : Nat) : List Char :=
  src.take n ++ List.replicate (n - src.length) '\x00'

/-- The bytes that `build_project_list` has written to an entry `out[cnt]`:
the string in `id`, which the function terminates itself, and for each of the
fields `last_action`, `timestamp` and `preview` the bytes written from the
start of the field. -/
structure ProjectBytes where
  id : CStr
  last_action : List Char
  timestamp : List Char
  preview : List Char
deriving DecidableEq

/-- The bytes in and after an entry `out[cnt]` that `build_project_list`
never writes, as the array of the caller holds them (`list_view` passes an
array on its stack that it does not initialise): the bytes `last_action[31]`
and `timestamp[31]`, and the memory from `preview[63]` on. -/
structure Junk where
  last_action_31 : Char
  timestamp_31 : Char
  after : List Char
deriving DecidableEq

/-- The loop of `build_project_list` over the lines of one log: `strncpy`
writes the last status line to `last_action[0 .. 31)` and
`timestamp[0 .. 31)` and the last comment to `preview[0 .. 63)`, without a
terminator. -/
def project_scan : List CStr → ProjectBytes → ProjectBytes
  | [], p => p
  | line :: rest, p =>
    let r1 := strtok ['\t'] line
    let r2 := strtok ['\t'] (strtok_rest r1)
    match r1, r2 with
    | some (ts, _), some (act, _) =>
      if act = "comment".toList then
        match strtok ['\n'] (strtok_rest r2) with
        | some (msg, _) => project_scan rest { p with preview := strncpy_bytes msg 63 }
        | none => project_scan rest p
      else if act = "checkin".toList ∨ act = "checkout".toList ∨ act = "created".toList ∨
          act = "finish".toList ∨ act = "cancel".toList then
        project_scan rest
          { p with last_action := strncpy_bytes act 31, timestamp := strncpy_bytes ts 31 }
      else project_scan rest p
    | _, _ => project_scan rest p

/-- The bytes of an entry of `build_project_list` for the project `id`
before a log is read: `strcpy` writes `created` and the zero time stamp with
their terminators, and `preview[0]` is set to NUL. -/
def default_entry (id : CStr) : ProjectBytes :=
  ⟨id, "created".toList ++ ['\x00'], "0000-00-00T00:00:00".toList ++ ['\x00'], ['\x00']⟩

/-- The strings that the users of an entry read from it.  A string runs from
the start of its field to the first NUL; when the written bytes of the field
hold none, all 31 or 63 of them are written and the string runs on through
the byte that ends the field, the fields after it and the memory after the
entry.  The memory after the entry is taken as it is in `j`. -/
def read_entry (j : Junk) (b : ProjectBytes) : ProjectInfo :=
  { id := b.id
    last_action := cstr (b.last_action ++ j.last_action_31 ::
      (b.timestamp ++ j.timestamp_31 :: (b.preview ++ j.after)))
    timestamp := cstr (b.timestamp ++ j.timestamp_31 :: (b.preview ++ j.after))
    preview := cstr (b.preview ++ j.after) }

/-- The entry that `build_project_list` derives for the project `id` in an
array element with the unwritten bytes `j`: the default state when the log
cannot be opened, else the result of the scan. -/
def project_entry (j : Junk) (w : State) (id : CStr) : ProjectInfo :=
  match w.data id with
  | none => read_entry j (default_entry id)
  | some file => read_entry j (project_scan (read_lines MAX_LINE file) (default_entry id))

/-- The `readdir` loop of `build_project_list`: `out` holds the entries
collected so far, and the loop stops when `MAX_PROJECTS` are collected.  The
entry `out[cnt]` has the unwritten bytes `junk cnt`. -/
def collect_projects (junk : Nat → Junk) (w : State) :
    List CStr → List ProjectInfo → List ProjectInfo
  | [], out => out
  | d_name :: rest, out =>
    match entry_id d_name with
    | none => collect_projects junk w rest out
    | some id =>
      if out.length + 1 ≥ MAX_PROJECTS then out ++ [project_entry (junk out.length) w id]
      else collect_projects junk w rest (out ++ [project_entry (junk out.length) w id])

/-- The last loop of `build_project_list`: the indexes, counted from `i`, of
the entries that match the wanted status. -/
def visible_loop (want : CStr) : List ProjectInfo → Nat → List Nat
  | [], _ => []
  | p :: rest, i =>
    if is_status_match p.last_action want then i :: visible_loop want rest (i + 1)
    else visible_loop want rest (i + 1)

/-- The status text `want` that `build_project_list` selects for a filter. -/
def wanted_status (sel_filter : Nat) : CStr :=
  if sel_filter = FLT_FINISH then "finish".toList
  else if sel_filter = FLT_CANCEL then "cancel".toList
  else if sel_filter = FLT_STARTED then "created".toList
  else "all".toList

/-- The function `build_project_list`: the array `out` and the array `vis`
of visible indexes.  The names that `readdir` returns for `DATA_DIR` come in
`dirents`, in its order, `qsort` of libc is a parameter, and `junk` holds the
bytes of the array of the caller that the function does not write. -/
def build_project_list
    (qsort : (ProjectInfo → ProjectInfo → Int) → List ProjectInfo → List ProjectInfo)
    (junk : Nat → Junk) (dirents : List CStr) (sel_filter : Nat) (w : State) :
    List ProjectInfo × List Nat :=
  let out := qsort compare_projects (collect_projects junk w dirents [])
  (out, visible_loop (wanted_status sel_filter) out 0)

/-- The function `create_new_project`. -/
def create_new_project (env : Env) (w : State) : State :=
  if has_checkin w then w
  else
    let id := trim (getnstr 127 env.typed)
    if id = [] then w
    else if !valid_id id then w
    else
      let w1 := save_active_project (some id) { w with active_id := strncpy id 127 }
      { load_comments (write_log env.now "created".toList none w1) with mode := Mode.MODE_DATA }

/-! ## Lines of a log as the readers take them -/

/-- The pieces into which `while (fgets(line, n, f))` cuts a file, with all
their bytes. -/
def raw_lines_fuel (n : Nat) : Nat → List Char → List (List Char)
  | 0, _ => []
  | fuel + 1, file =>
    match file with
    | [] => []
    | _ :: _ => (fgets_take (n - 1) file).1 :: raw_lines_fuel n fuel (fgets_take (n - 1) file).2

/-- The pieces into which `while (fgets(line, n, f))` cuts a whole file. -/
def raw_lines (n : Nat) (file : List Char) : List (List Char) :=
  raw_lines_fuel n file.length file

/-- The test whether a line has two tokens between tabs, which
`build_project_list` and `compute_total_minutes` need to act on it. -/
def two_tokens (line : CStr) : Bool :=
  (strtok ['\t'] line).isSome && (strtok ['\t'] (strtok_rest (strtok ['\t'] line))).isSome

/-- The time stamp and the message that `load_comments` and `delete_comment`
read from a line: the line must hold `\tcomment\t`, the time stamp is its
first token between tabs and the message is what follows the second token, up
to the newline. -/
def comment_fields (line : CStr) : Option (CStr × CStr) :=
  if strstr line "\tcomment\t".toList then
    match strtok ['\t'] line,
      strtok ['\n'] (strtok_rest (strtok ['\t'] (strtok_rest (strtok ['\t'] line)))) with
    | some (ts, _), some (msg, _) => some (ts, msg)
    | _, _ => none
  else none

/-- The comment that `load_comments` stores for the fields of a line: the
time stamp cut to 31 bytes and the message cut to `MAX_LINE - 1` bytes. -/
def stored_comment (f : CStr × CStr) : Comment :=
  ⟨strncpy f.1 31, strncpy f.2 (MAX_LINE - 1)⟩

/-- A row as the data model describes it: only a comment carries a payload. -/
def Row.plain (r : Row) : Prop :=
  r.kind ≠ Kind.Comment → r.payload = []

/-- The test whether a row is a comment with a payload that is not empty. -/
def Row.is_comment (r : Row) : Bool :=
  decide (r.kind = Kind.Comment) && decide (r.payload ≠ [])

/-- The test whether a token is one of the five status kinds `checkin`,
`checkout`, `created`, `finish`, `cancel`. -/
def is_status_token (act : CStr) : Bool :=
  decide (act = "checkin".toList ∨ act = "checkout".toList ∨ act = "created".toList ∨
    act = "finish".toList ∨ act = "cancel".toList)

/-- The kind and the time stamp of a status line: a line with two tokens
between tabs whose second token is one of the five status kinds. -/
def status_fields (line : CStr) : Option (CStr × CStr) :=
  match strtok ['\t'] line, strtok ['\t'] (strtok_rest (strtok ['\t'] line)) with
  | some (ts, _), some (act, _) => if is_status_token act then some (act, ts) else none
  | _, _ => none

/-- The message of a comment line as `build_project_list` reads it: a line
with two tokens between tabs whose second token is `comment`, followed by a
message that is not empty. -/
def preview_field (line : CStr) : Option CStr :=
  match strtok ['\t'] line, strtok ['\t'] (strtok_rest (strtok ['\t'] line)) with
  | some _, some (act, rest) =>
    if act = "comment".toList then (strtok ['\n'] rest).map Prod.fst else none
  | _, _ => none

/-- A piece that `fgets` reads while more of the file follows: it uses up the
room of the buffer without a newline, or it ends in its only newline. -/
def piece_full (room : Nat) (c : List Char) : Prop :=
  (c.length = room ∧ '\n' ∉ c) ∨ (∃ l, c = l ++ ['\n'] ∧ '\n' ∉ l ∧ l.length < room)

/-- A piece that `fgets` reads up to the end of the file: it is not empty,
fits the room and holds no newline. -/
def piece_last (room : Nat) (c : List Char) : Prop :=
  c ≠ [] ∧ c.length ≤ room ∧ '\n' ∉ c

/-- The shape of the pieces of a file: every piece is full, except that the
last one may end with the file. -/
def pieces_ok (room : Nat) : List (List Char) → Prop
  | [] => True
  | c :: rest => (piece_full room c ∨ (rest = [] ∧ piece_last room c)) ∧ pieces_ok room rest

/-! ## The list view and the loop of `main` -/

/-- The ncurses key code `KEY_ENTER`. -/
def KEY_ENTER : Char := Char.ofNat 343

/-- The call `rename(src, dst)` of the list view, which moves the log of `id`
from `DATA_DIR` to `ARCHIVE_DIR` and replaces a log of that name there; it
fails and changes nothing when `DATA_DIR` holds no log of `id`. -/
def rename_to_archive (id : CStr) (w : State) : State :=
  match w.data id with
  | none => w
  | some file =>
    { w with
      data := fun k => if k = id then none else w.data k
      archived := fun k => if k = id then some file else w.archived k }

/-- The call `unlink(src)` of the list view on the log of `id` in
`DATA_DIR`. -/
def unlink_log (id : CStr) (w : State) : State :=
  { w with data := fun k => if k = id then none else w.data k }

/-- The entry `projects[vis[sel]]` that the list view acts on when `vis_cnt`
is not zero.  The arrays are those of the last `build_project_list` call; the
loop calls it again after every key that changes a file, and keeps `sel` below
`vis_cnt`. -/
def selected_project
    (qsort : (ProjectInfo → ProjectInfo → Int) → List ProjectInfo → List ProjectInfo)
    (junk : Nat → Junk) (dirents : List CStr) (sel_filter sel : Nat) (w : State) :
    Option ProjectInfo :=
  match (build_project_list qsort junk dirents sel_filter w).2.get? sel with
  | none => none
  | some i => (build_project_list qsort junk dirents sel_filter w).1.get? i

/-- One pass of the loop of `list_view` for the key `key`, with the filter
`sel_filter` and the cursor `sel` of the loop; `junk` holds the bytes of the
array `projects` that `build_project_list` does not write.  The keys that
move the cursor or change the filter leave the state as it is. -/
def list_view_key
    (qsort : (ProjectInfo → ProjectInfo → Int) → List ProjectInfo → List ProjectInfo)
    (junk : Nat → Junk) (dirents : List CStr) (env : Env) (sel_filter sel : Nat) (key : Char)
    (w : State) : State :=
  if key = 'q' then { w with mode := Mode.MODE_QUIT }
  else if key = 'n' then create_new_project env w
  else if key = 'A' then
    match selected_project qsort junk dirents sel_filter sel w with
    | none => w
    | some p =>
      if env.ans = 'y' ∨ env.ans = 'Y' then
        let w1 := rename_to_archive p.id w
        let w2 := if lock_read 128 w1 = p.id then lock_write none w1 else w1
        if w2.active_id = p.id then save_active_project none w2 else w2
      else w
  else if key = 'x' then
    match selected_project qsort junk dirents sel_filter sel w with
    | none => w
    | some p =>
      if env.ans = 'y' ∨ env.ans = 'Y' then
        let w1 := unlink_log p.id w
        let w2 := if lock_read 128 w1 = p.id then lock_write none w1 else w1
        if w2.active_id = p.id then save_active_project none w2 else w2
      else w
  else if key = '\n' ∨ key = KEY_ENTER then
    match selected_project qsort junk dirents sel_filter sel w with
    | none => w
    | some p =>
      let w1 := { w with active_id := strncpy p.id 127 }
      { load_comments (save_active_project (some w1.active_id) w1) with mode := Mode.MODE_DATA }
  else w

/-- One pass of the loop of `main` for the key `key` while the data view is
shown (`mode == MODE_DATA`): `q` leaves the loop, `n` creates a project unless
a project is checked in, `p` sets `mode` to `MODE_LIST` before `list_view` is
called, and every other key goes to `data_view_handle`.  In the other modes the
key is handed to `list_view`. -/
def main_key (env : Env) (key : Char) (w : State) : State :=
  if key = 'q' then w
  else if w.mode = Mode.MODE_DATA then
    if key = 'n' then
      if has_checkin w then w else create_new_project env w
    else if key = 'p' then { w with mode := Mode.MODE_LIST }
    else data_view_handle env key w
  else w

/-- The names that `readdir` returns for `DATA_DIR` in the state `w`: `.`,
`..` and the names `<id>.log` of logs that exist. -/
def dir_listing (w : State) (dirents : List CStr) : Prop :=
  ∀ d ∈ dirents, d = ".".toList ∨ d = "..".toList ∨
    ∃ id, w.data id ≠ none ∧ d = id ++ ".log".toList

/-- The id that `create_new_project` takes from the typed text has no white
space at its start or at its end. -/
def typed_id_ok (env : Env) : Prop :=
  (∀ c, (trim (getnstr 127 env.typed)).head? = some c → isspace c = false) ∧
  (∀ c, (trim (getnstr 127 env.typed)).getLast? = some c → isspace c = false)

/-- The comment that `add_comment` takes from the typed text holds no tab and
no newline.  It has at most `MAX_LINE - 1` bytes, the size of the input. -/
def typed_comment_ok (env : Env) : Prop :=
  '\t' ∉ trim (getnstr (MAX_LINE - 1) env.typed) ∧
  '\n' ∉ trim (getnstr (MAX_LINE - 1) env.typed)

/-- The states that the keys of the user interface lead to from a state
without logs, without a lock and without an open project: the keys of the
list view (`n` create, `A` archive, `x` delete, Enter open, and the others),
entering the list view, and the keys of the data view (`n` create, `i`
check-in, `o` check-out, `f` finish, `x` cancel, `c` add comment, `d` delete
comment, and the others).  The clock text is one that `now_iso` can return,
and the array of the list view may hold any bytes where `build_project_list`
does not write.  The keys of the list view are allowed in every state, so the
states that the program reaches are among these. -/
inductive Reachable
    (qsort : (ProjectInfo → ProjectInfo → Int) → List ProjectInfo → List ProjectInfo) :
    State → Prop where
  | start (w : State) : (∀ id, w.data id = none) → w.lock = none → w.active_id = [] →
      Reachable qsort w
  | list_enter (w : State) : Reachable qsort w → Reachable qsort (save_active_project none w)
  | list_key (junk : Nat → Junk) (dirents : List CStr) (env : Env) (sel_filter sel : Nat)
      (key : Char) (w : State) :
      Reachable qsort w → dir_listing w dirents → is_now_iso env.now = true →
      (key = 'n' → typed_id_ok env) →
      Reachable qsort (list_view_key qsort junk dirents env sel_filter sel key w)
  | data_key (env : Env) (key : Char) (w : State) :
      Reachable qsort w → is_now_iso env.now = true →
      (key = 'n' → typed_id_ok env) → (key = 'c' → typed_comment_ok env) →
      Reachable qsort (main_key env key w)

/-- The lock and the derived statuses agree: the lock holder, if there is
one, has a log in `DATA_DIR` and the derived status `checkin`, and every
project with a log in `DATA_DIR` and the derived status `checkin` is the lock
holder.  The derived status is that of `build_project_list`, whatever the
bytes `j` of the array are that it does not write. -/
def consistent (w : State) : Prop :=
  (lock_read 128 w ≠ [] →
    w.data (lock_read 128 w) ≠ none ∧
    ∀ j, (project_entry j w (lock_read 128 w)).last_action = "checkin".toList) ∧
  (∀ j id, w.data id ≠ none → (project_entry j w id).last_action = "checkin".toList →
    lock_read 128 w ≠ [] ∧ id = lock_read 128 w)

/-! ## The shape of the logs that the program writes -/

/-- The pieces of a log in which every piece ends in a newline or is followed
by a piece without `\tcomment\t`, which `delete_comment` never removes. -/
def closed_pieces : List (List Char) → Prop
  | [] => True
  | p :: rest =>
    (p.getLast? = some '\n' ∨ ∃ q tail, rest = q :: tail ∧ strstr q "\tcomment\t".toList = false) ∧
    closed_pieces rest

/-- A log without NUL bytes in which no line is both a status line and a
line with `\tcomment\t`, and whose pieces are closed. -/
def log_ok (file : List Char) : Prop :=
  '\x00' ∉ file ∧
  (∀ l ∈ raw_lines MAX_LINE file, strstr l "\tcomment\t".toList = true → status_fields l = none) ∧
  closed_pieces (raw_lines MAX_LINE file)

/-- An id that `lock_read` gives back after `lock_write`: it passes
`valid_id`, fits `active_id[128]` and does not end in white space. -/
def good_id (id : CStr) : Prop :=
  valid_id id = true ∧ id.length ≤ 127 ∧ ∀ c, id.getLast? = some c → isspace c = false

/-- The status that the scan of `build_project_list` derives from the content
of a log. -/
def status_of (file : List Char) : CStr :=
  match ((read_lines MAX_LINE file).filterMap status_fields).getLast? with
  | some f => f.1
  | none => "created".toList

/-- The invariant of the reachable states: the logs belong to good ids and
have the shape `log_ok`, the open project has a good id, the lock file holds
the id of a project whose log has the status `checkin`, and a log with the
status `checkin` belongs to the project named in the lock file. -/
def Good (w : State) : Prop :=
  (∀ id file, w.data id = some file → good_id id ∧ log_ok file) ∧
  (w.active_id = [] ∨ good_id w.active_id) ∧
  (∀ l, w.lock = some l → ∃ h file, l = h ++ ['\n'] ∧ w.data h = some file ∧
    status_of file = "checkin".toList) ∧
  (∀ id file, w.data id = some file → status_of file = "checkin".toList →
    w.lock = some (id ++ ['\n']))

/-! ## Concrete states used as test inputs -/

/-- A file system with the single log `name` holding `text`, the lock file
holding `lock`, and `active` open in the data view. -/
def sample_state (name : CStr) (text : List Char) (lock : Option (List Char))
    (active : CStr) : State :=
  { data := fun k => if k = name then some text else none
    archived := fun _ => none
    lock := lock
    running := some (active ++ ['\n'])
    active_id := active
    comments := []
    index_pos := 0
    mode := Mode.MODE_DATA }

/-- A clock reading and no typed text. -/
def sample_env : Env :=
  { now := "2025-06-01T10:00:00Z".toList, typed := [], ans := 'n' }

/-- A clock reading and a typed text. -/
def typed_env (text : List Char) : Env :=
  { now := "2025-06-01T10:00:00Z".toList, typed := text, ans := 'y' }

/-- A log that holds `MAX_COMMENTS` comment lines. -/
def full_log : List Char :=
  render_log (List.replicate MAX_COMMENTS
    ⟨"2025-06-01T09:00:00Z".toList, Kind.Comment, "m".toList⟩)

/-- The log that holds `MAX_COMMENTS` comment lines followed by the comment
`hello`. -/
def over_full_log : List Char :=
  full_log ++ "2025-06-01T10:00:00Z\tcomment\thello\n".toList

/-- A sorting function with the contract of `qsort`, used for test inputs. -/
def sample_qsort (cmp : ProjectInfo → ProjectInfo → Int) (l : List ProjectInfo) :
    List ProjectInfo :=
  l.insertionSort (fun a b => cmp a b ≤ 0)

/-- A data directory with three logs: `alpha` finished at 09:30, `beta`
checked in at 09:40 and `gamma` finished at 09:50. -/
def sample_dir : State :=
  { data := fun k =>
      if k = "alpha".toList then
        some ("2025-06-01T09:00:00Z\tcreated\t\n".toList ++
          "2025-06-01T09:30:00Z\tfinish\t\n".toList)
      else if k = "beta".toList then
        some ("2025-06-01T09:10:00Z\tcreated\t\n".toList ++
          "2025-06-01T09:40:00Z\tcheckin\t\n".toList)
      else if k = "gamma".toList then
        some ("2025-06-01T09:20:00Z\tcreated\t\n".toList ++
          "2025-06-01T09:50:00Z\tfinish\t\n".toList)
      else none
    archived := fun _ => none
    lock := some "beta\n".toList
    running := none
    active_id := []
    comments := []
    index_pos := 0
    mode := Mode.MODE_LIST }

/-- The names that `readdir` returns for `sample_dir`. -/
def sample_dirents : List CStr :=
  [".".toList, "..".toList, "alpha.log".toList, "beta.log".toList, "gamma.log".toList]

/-- An array element whose unwritten bytes are zero. -/
def zero_junk : Junk :=
  { last_action_31 := '\x00', timestamp_31 := '\x00', after := [] }

/-- An array element whose unwritten bytes hold `X`, and `YZ` and a NUL from
`preview[63]` on. -/
def used_junk : Junk :=
  { last_action_31 := 'X', timestamp_31 := 'X', after := ['Y', 'Z', '\x00'] }

/-- An array whose unwritten bytes are zero. -/
def sample_junk : Nat → Junk :=
  fun _ => zero_junk

/-- A state without logs, without a lock file and without an open project,
as `main` finds it in a fresh base directory. -/
def empty_state : State :=
  { data := fun _ => none
    archived := fun _ => none
    lock := none
    running := none
    active_id := []
    comments := []
    index_pos := 0
    mode := Mode.MODE_LIST }

/-- The state after the key `n` of the list view created `proj1` in the empty
state. -/
def created_state : State :=
  list_view_key sample_qsort sample_junk [".".toList, "..".toList] (typed_env "proj1".toList)
    0 0 'n' empty_state

/-- The state after the Enter key of the list view opened `proj1`. -/
def opened_state : State :=
  list_view_key sample_qsort sample_junk [".".toList, "..".toList, "proj1.log".toList]
    (typed_env []) 0 0 '\n' created_state

/-- The state after the key `i` of the data view checked `proj1` in. -/
def checked_in_state : State :=
  main_key (typed_env []) 'i' opened_state

/-! ## Basic facts -/

theorem log_content_open_append (id k : CStr) (w : State) :
    log_content (open_append id w) k = log_content w k := by
  by_cases h : k = id
  · subst h; simp [log_content, open_append]
  · simp [log_content, open_append, h]

theorem lock_read_open_append (n : Nat) (id : CStr) (w : State) :
    lock_read n (open_append id w) = lock_read n w := rfl

theorem lock_read_append_log (n : Nat) (id : CStr) (t : List Char) (w : State) :
    lock_read n (append_log id t w) = lock_read n w := rfl

theorem load_comments_data (w : State) : (load_comments w).data = w.data := by
  unfold load_comments
  split
  · rfl
  · split <;> rfl

theorem load_comments_lock (w : State) : (load_comments w).lock = w.lock := by
  unfold load_comments
  split
  · rfl
  · split <;> rfl

theorem load_comments_active_id (w : State) :
    (load_comments w).active_id = w.active_id := by
  unfold load_comments
  split
  · rfl
  · split <;> rfl

theorem lock_read_load_comments (n : Nat) (w : State) :
    lock_read n (load_comments w) = lock_read n w := by
  unfold lock_read
  rw [load_comments_lock]

theorem is_checked_in_iff (w : State) :
    is_the_checked_in_project w = true ↔ w.active_id ≠ [] ∧ lock_read 128 w = w.active_id := by
  unfold is_the_checked_in_project
  simp

/-- What `write_log` does for `checkout`, `finish` and `cancel`. -/
theorem write_log_release (now action : CStr) (w : State) (hid : w.active_id ≠ [])
    (hact : action = "checkout".toList ∨ action = "finish".toList ∨ action = "cancel".toList) :
    write_log now action none w =
      append_log w.active_id (log_line now action [])
        (lock_write none (open_append w.active_id w)) := by
  unfold write_log
  rw [if_neg hid]
  have hne : action ≠ "checkin".toList := by
    rcases hact with h | h | h <;> rw [h] <;> decide
  simp only [if_neg hne, if_pos hact, Option.getD_none]

/-! ## C1: a check-in while another project holds the lock -/

/-- C1: when the lock holder is `A` and `write_log` is called with action
`checkin` while a different project `B` is active, the check-in is refused:
the content of every log is what it was (nothing is appended to the log of
`B`), the lock file is not written, and `lock_read` still returns `A`. -/
theorem write_log_checkin_held_by_other (now A B : CStr) (w : State)
    (hA : A ≠ []) (hAB : A ≠ B) (hlock : lock_read 128 w = A) (hact : w.active_id = B) :
    (∀ id, log_content (write_log now "checkin".toList none w) id = log_content w id) ∧
    (write_log now "checkin".toList none w).lock = w.lock ∧
    lock_read 128 (write_log now "checkin".toList none w) = A := by
  by_cases hB : w.active_id = []
  · simp [write_log, hB, hlock]
  · have hl : lock_read 128 (open_append w.active_id w) = A := by
      rw [lock_read_open_append, hlock]
    have hw : write_log now "checkin".toList none w = open_append w.active_id w := by
      unfold write_log
      rw [if_neg hB]
      simp only [if_true, hl]
      rw [if_pos ⟨hA, by rw [hact]; exact hAB⟩]
    rw [hw]
    exact ⟨fun id => log_content_open_append _ _ _, rfl, hl⟩

/-- C1 at a concrete input: `projA` holds the lock and `projB` is active. -/
theorem write_log_checkin_held_by_other_witness :
    (∀ id, log_content (write_log sample_env.now "checkin".toList none
        (sample_state "projB".toList [] (some "projA\n".toList) "projB".toList)) id =
      log_content (sample_state "projB".toList [] (some "projA\n".toList) "projB".toList) id) ∧
    (write_log sample_env.now "checkin".toList none
        (sample_state "projB".toList [] (some "projA\n".toList) "projB".toList)).lock =
      some "projA\n".toList ∧
    lock_read 128 (write_log sample_env.now "checkin".toList none
        (sample_state "projB".toList [] (some "projA\n".toList) "projB".toList)) =
      "projA".toList :=
  write_log_checkin_held_by_other sample_env.now "projA".toList "projB".toList
    (sample_state "projB".toList [] (some "projA\n".toList) "projB".toList)
    (by decide) (by decide) (by decide) rfl

/-! ## C2: the guard of the data view -/

/-- C2: when the lock holder is not the open project (the lock is empty or
held by a different id), each of the keys `o` (check-out), `f` (finish), `x`
(cancel), `c` (add comment) and `d` (delete comment) of `data_view_handle`
leaves the whole state as it was: no log gains or loses a line and the lock
is unchanged. -/
theorem data_view_handle_not_checked_in (env : Env) (key : Char) (w : State)
    (hkey : key = 'o' ∨ key = 'f' ∨ key = 'x' ∨ key = 'c' ∨ key = 'd')
    (hlock : lock_read 128 w ≠ w.active_id) :
    data_view_handle env key w = w := by
  have hno : is_the_checked_in_project w = false := by
    cases h : is_the_checked_in_project w
    · rfl
    · exact absurd ((is_checked_in_iff w).1 h).2 hlock
  rcases hkey with h | h | h | h | h <;> subst h <;>
    simp [data_view_handle, hno]

/-- C2 at a concrete input: the lock is empty and `proj1` presses `o`. -/
theorem data_view_handle_not_checked_in_witness :
    data_view_handle sample_env 'o'
        (sample_state "proj1".toList [] none "proj1".toList) =
      sample_state "proj1".toList [] none "proj1".toList :=
  data_view_handle_not_checked_in sample_env 'o'
    (sample_state "proj1".toList [] none "proj1".toList) (Or.inl rfl) (by decide)

/-- The effect of the keys `o`, `f`, `x` pressed by the lock holder. -/
theorem release_keys_effect (env : Env) (key : Char) (action : CStr) (w : State)
    (hkey : (key = 'o' ∧ action = "checkout".toList) ∨
      (key = 'f' ∧ action = "finish".toList) ∨ (key = 'x' ∧ action = "cancel".toList))
    (hid : w.active_id ≠ []) (hlock : lock_read 128 w = w.active_id) :
    (data_view_handle env key w).lock = none ∧
    lock_read 128 (data_view_handle env key w) = [] ∧
    (data_view_handle env key w).data w.active_id =
      some (log_content w w.active_id ++ (env.now ++ ['\t'] ++ action ++ ['\t', '\n'])) ∧
    ∀ id, id ≠ w.active_id → (data_view_handle env key w).data id = w.data id := by
  have hyes : is_the_checked_in_project w = true := (is_checked_in_iff w).2 ⟨hid, hlock⟩
  have hact : action = "checkout".toList ∨ action = "finish".toList ∨
      action = "cancel".toList := by
    rcases hkey with h | h | h
    · exact Or.inl h.2
    · exact Or.inr (Or.inl h.2)
    · exact Or.inr (Or.inr h.2)
  have hdv : data_view_handle env key w = load_comments (write_log env.now action none w) := by
    rcases hkey with ⟨hk, ha⟩ | ⟨hk, ha⟩ | ⟨hk, ha⟩ <;> subst hk <;> subst ha <;>
      simp [data_view_handle, hyes]
  rw [hdv, write_log_release env.now action w hid hact]
  refine ⟨?_, ?_, ?_, ?_⟩
  · rw [load_comments_lock]; rfl
  · rw [lock_read_load_comments]; rfl
  · rw [load_comments_data]
    simp [append_log, lock_write, open_append, log_content, log_line]
  · intro id hne
    rw [load_comments_data]
    simp [append_log, lock_write, open_append, hne]

/-! ## C3: check-out, finish and cancel by the lock holder -/

/-- C3: when the open project holds the lock, each of the keys `o`, `f`, `x`
of `data_view_handle` removes the lock file (so `lock_read` returns the
empty string), appends exactly the one line `<now>\t<kind>\t\n` with the
kind `checkout`, `finish`, `cancel` of the key to the end of that project's
log, whose earlier content is kept, and leaves every other log as it was. -/
theorem data_view_handle_release (env : Env) (key : Char) (action : CStr) (w : State)
    (hkey : (key = 'o' ∧ action = "checkout".toList) ∨
      (key = 'f' ∧ action = "finish".toList) ∨ (key = 'x' ∧ action = "cancel".toList))
    (hid : w.active_id ≠ []) (hlock : lock_read 128 w = w.active_id) :
    (data_view_handle env key w).lock = none ∧
    lock_read 128 (data_view_handle env key w) = [] ∧
    (data_view_handle env key w).data w.active_id =
      some (log_content w w.active_id ++ (env.now ++ ['\t'] ++ action ++ ['\t', '\n'])) ∧
    ∀ id, id ≠ w.active_id → (data_view_handle env key w).data id = w.data id :=
  release_keys_effect env key action w hkey hid hlock

/-- C3 at a concrete input: `proj1` holds the lock and presses `o`. -/
theorem data_view_handle_release_witness :
    (data_view_handle sample_env 'o' (sample_state "proj1".toList
        "2025-06-01T09:00:00Z\tcheckin\t\n".toList (some "proj1\n".toList)
        "proj1".toList)).data "proj1".toList =
      some ("2025-06-01T09:00:00Z\tcheckin\t\n".toList ++
        "2025-06-01T10:00:00Z\tcheckout\t\n".toList) :=
  (data_view_handle_release sample_env 'o' "checkout".toList
    (sample_state "proj1".toList "2025-06-01T09:00:00Z\tcheckin\t\n".toList
      (some "proj1\n".toList) "proj1".toList)
    (Or.inl ⟨rfl, rfl⟩) (by decide) (by decide)).2.2.1

/-! ## Facts about `fgets`, `cstr` and `trim` -/

theorem fgets_take_line (r : List Char) :
    ∀ (l : List Char) (room : Nat), '\n' ∉ l → l.length < room →
      fgets_take room (l ++ '\n' :: r) = (l ++ ['\n'], r) := by
  intro l
  induction l with
  | nil =>
    intro room _ hlen
    obtain ⟨k, rfl⟩ : ∃ k, room = k + 1 := ⟨room - 1, by simp at hlen; omega⟩
    simp [fgets_take]
  | cons c cs ih =>
    intro room hnl hlen
    obtain ⟨k, rfl⟩ : ∃ k, room = k + 1 := ⟨room - 1, by simp at hlen; omega⟩
    have hc : c ≠ '\n' := fun h => hnl (by simp [h])
    have hcs : '\n' ∉ cs := fun h => hnl (by simp [h])
    have hk : cs.length < k := by simp at hlen; omega
    simp [fgets_take, hc, ih k hcs hk]

theorem fgets_take_full (r : List Char) :
    ∀ (l : List Char), '\n' ∉ l → fgets_take l.length (l ++ r) = (l, r) := by
  intro l
  induction l with
  | nil => intro _; simp [fgets_take]
  | cons c cs ih =>
    intro hnl
    have hc : c ≠ '\n' := fun h => hnl (by simp [h])
    have hcs : '\n' ∉ cs := fun h => hnl (by simp [h])
    simp [fgets_take, hc, ih hcs]

theorem cstr_eq_self (l : List Char) (h : '\x00' ∉ l) : cstr l = l := by
  unfold cstr
  rw [List.takeWhile_eq_self_iff]
  intro c hc
  have : c ≠ '\x00' := fun e => h (e ▸ hc)
  simpa using this

theorem trim_cons_space (c : Char) (s : CStr) (hc : isspace c = true) :
    trim (c :: s) = c :: trim s := by
  simp [trim, hc]

theorem trim_cons_nonspace (c : Char) (s : CStr) (hc : isspace c = false) :
    trim (c :: s) = (c :: s).rdropWhile isspace := by
  simp [trim, hc]

theorem rdropWhile_append_all (p : Char → Bool) (l : List Char) :
    ∀ ws : List Char, (∀ c ∈ ws, p c = true) → (l ++ ws).rdropWhile p = l.rdropWhile p := by
  intro ws
  induction ws using List.reverseRecOn with
  | nil => intro _; simp
  | append_singleton ws x ih =>
    intro h
    rw [← List.append_assoc, List.rdropWhile_concat_pos _ _ _ (h x (by simp))]
    exact ih (fun c hc => h c (by simp [hc]))

theorem rdropWhile_last_neg (p : Char → Bool) (l : List Char) (x : Char)
    (hl : l.getLast? = some x) (hx : p x = false) : l.rdropWhile p = l := by
  obtain ⟨init, rfl⟩ : ∃ init, l = init ++ [x] := by
    rcases List.eq_nil_or_concat l with h | ⟨init, y, h⟩
    · subst h; simp at hl
    · subst h
      simp at hl
      exact ⟨init, by rw [hl, List.concat_eq_append]⟩
  rw [List.rdropWhile_concat_neg]
  simp [hx]

/-- The function `trim` removes trailing white space after text that ends in
a byte that is not white space. -/
theorem trim_append_space (x : Char) (hx : isspace x = false) :
    ∀ (l ws : List Char), l.getLast? = some x → (∀ c ∈ ws, isspace c = true) →
      trim (l ++ ws) = l := by
  intro l
  induction l with
  | nil => intro ws hl; simp at hl
  | cons c cs ih =>
    intro ws hl hws
    cases hc : isspace c
    · rw [List.cons_append, trim_cons_nonspace _ _ hc, ← List.cons_append,
        rdropWhile_append_all _ _ _ hws]
      exact rdropWhile_last_neg _ _ x hl hx
    · have hcs : cs.getLast? = some x := by
        cases cs with
        | nil =>
          simp at hl
          rw [hl] at hc
          rw [hc] at hx
          cases hx
        | cons d ds => simpa [List.getLast?_cons_cons] using hl
      rw [List.cons_append, trim_cons_space _ _ hc, ih ws hcs hws]

theorem valid_id_mem (id : CStr) (h : valid_id id = true) :
    id ≠ [] ∧ '\n' ∉ id ∧ '\x00' ∉ id := by
  cases id with
  | nil => simp [valid_id] at h
  | cons a as =>
    refine ⟨by simp, ?_, ?_⟩
    · intro hm
      simp only [valid_id, List.all_eq_true] at h
      have := h _ hm
      revert this
      decide
    · intro hm
      simp only [valid_id, List.all_eq_true] at h
      have := h _ hm
      revert this
      decide

/-- What `lock_read` returns after `lock_write` stored an id that fits the
buffer and does not end in white space. -/
theorem lock_read_after_write (id : CStr) (x : Char) (w : State)
    (hnl : '\n' ∉ id) (hnul : '\x00' ∉ id) (hlen : id.length ≤ 127)
    (hlast : id.getLast? = some x) (hx : isspace x = false)
    (hw : w.lock = some (id ++ ['\n'])) : lock_read 128 w = id := by
  have hne : id ≠ [] := by
    intro h; subst h; simp at hlast
  obtain ⟨a, as, rfl⟩ : ∃ a as, id = a :: as := by
    cases id with
    | nil => exact absurd rfl hne
    | cons a as => exact ⟨a, as, rfl⟩
  unfold lock_read
  rw [hw]
  simp only [List.cons_append, fgets]
  rw [← List.cons_append]
  rcases Nat.lt_or_ge (a :: as).length 127 with hlt | hge
  · rw [fgets_take_line [] (a :: as) (128 - 1) hnl (by simpa using hlt)]
    simp only
    have hnul2 : '\x00' ∉ a :: as ++ ['\n'] := by
      simp only [List.mem_append, List.mem_singleton]
      rintro (h | h)
      · exact hnul h
      · exact absurd h (by decide)
    rw [cstr_eq_self _ hnul2]
    exact trim_append_space x hx _ _ hlast (by simp [isspace])
  · have h127 : (a :: as).length = 127 := le_antisymm hlen hge
    have h := fgets_take_full ['\n'] (a :: as) hnl
    rw [h127] at h
    rw [show 128 - 1 = 127 from rfl, h]
    simp only
    rw [cstr_eq_self _ hnul]
    have := trim_append_space x hx (a :: as) [] hlast (by simp)
    simpa using this

/-- What `write_log` does for `checkin` when the lock is empty or held by the
active project. -/
theorem write_log_checkin_granted (now : CStr) (w : State) (hid : w.active_id ≠ [])
    (hlock : lock_read 128 w = [] ∨ lock_read 128 w = w.active_id) :
    write_log now "checkin".toList none w =
      append_log w.active_id (log_line now "checkin".toList [])
        (lock_write (some w.active_id) (open_append w.active_id w)) := by
  unfold write_log
  rw [if_neg hid]
  have hno : ¬(lock_read 128 (open_append w.active_id w) ≠ [] ∧
      lock_read 128 (open_append w.active_id w) ≠ w.active_id) := by
    rw [lock_read_open_append]
    rintro ⟨h1, h2⟩
    rcases hlock with h | h
    · exact h1 h
    · exact h2 h
  simp only [if_true, if_neg hno, Option.getD_none]

theorem write_log_checkin_granted_data (now : CStr) (w : State) (hid : w.active_id ≠ [])
    (hlock : lock_read 128 w = [] ∨ lock_read 128 w = w.active_id) :
    (write_log now "checkin".toList none w).data w.active_id =
      some (log_content w w.active_id ++ (now ++ ['\t'] ++ "checkin".toList ++ ['\t', '\n'])) ∧
    (write_log now "checkin".toList none w).lock = some (w.active_id ++ ['\n']) ∧
    (write_log now "checkin".toList none w).active_id = w.active_id := by
  rw [write_log_checkin_granted now w hid hlock]
  refine ⟨?_, ?_, ?_⟩
  · simp [append_log, lock_write, open_append, log_content, log_line, hid]
  · simp [append_log, lock_write, open_append, hid]
  · simp [append_log, lock_write, open_append, hid]

/-! ## C4: a second check-in of the lock holder -/

/-- C4, as stated, fails: with `proj1` holding the lock and open in the data
view, the check-in key `i` is refused and appends nothing to the log of
`proj1`. -/
theorem checkin_reentry_refused :
    lock_read 128 (sample_state "proj1".toList "2025-06-01T09:00:00Z\tcheckin\t\n".toList
        (some "proj1\n".toList) "proj1".toList) = "proj1".toList ∧
    (data_view_handle sample_env 'i' (sample_state "proj1".toList
        "2025-06-01T09:00:00Z\tcheckin\t\n".toList (some "proj1\n".toList)
        "proj1".toList)).data "proj1".toList =
      some "2025-06-01T09:00:00Z\tcheckin\t\n".toList := by
  decide

/-- C4 as amended: when the open project already holds the lock, the check-in
key `i` of `data_view_handle` is refused and leaves the state as it was; only
a direct call of `write_log` with action `checkin` is not rejected: it appends
the line `<now>\tcheckin\t\n` to the log of that project and rewrites the lock
file with its id. -/
theorem checkin_reentry (env : Env) (w : State) (hid : w.active_id ≠ [])
    (hlock : lock_read 128 w = w.active_id) :
    data_view_handle env 'i' w = w ∧
    (write_log env.now "checkin".toList none w).data w.active_id =
      some (log_content w w.active_id ++
        (env.now ++ ['\t'] ++ "checkin".toList ++ ['\t', '\n'])) ∧
    (write_log env.now "checkin".toList none w).lock = some (w.active_id ++ ['\n']) := by
  have hhas : has_checkin w = true := by
    unfold has_checkin
    rw [hlock]
    simpa using hid
  have h := write_log_checkin_granted_data env.now w hid (Or.inr hlock)
  exact ⟨by simp [data_view_handle, hhas], h.1, h.2.1⟩

/-- C4 as amended, at a concrete input: `proj1` holds the lock. -/
theorem checkin_reentry_witness :
    data_view_handle sample_env 'i' (sample_state "proj1".toList
        "2025-06-01T09:00:00Z\tcheckin\t\n".toList (some "proj1\n".toList)
        "proj1".toList) =
      sample_state "proj1".toList "2025-06-01T09:00:00Z\tcheckin\t\n".toList
        (some "proj1\n".toList) "proj1".toList :=
  (checkin_reentry sample_env (sample_state "proj1".toList
    "2025-06-01T09:00:00Z\tcheckin\t\n".toList (some "proj1\n".toList) "proj1".toList)
    (by decide) (by decide)).1

/-! ## C5: the id written by a check-in and the id read back -/

/-- C5, as stated, fails: `proj1 ` (with a trailing space) is a valid id, yet
after its check-in from the unlocked state `lock_read` returns `proj1`, and
the project is not recognised as the checked-in project. -/
theorem checkin_trailing_space_not_read_back :
    valid_id "proj1 ".toList = true ∧
    has_checkin (sample_state "proj1 ".toList [] none "proj1 ".toList) = false ∧
    lock_read 128 (data_view_handle sample_env 'i'
        (sample_state "proj1 ".toList [] none "proj1 ".toList)) = "proj1".toList ∧
    is_the_checked_in_project (data_view_handle sample_env 'i'
        (sample_state "proj1 ".toList [] none "proj1 ".toList)) = false := by
  decide

/-- C5 as amended: for every valid project id of at most 127 bytes whose last
byte is not white space, after its check-in from the unlocked state (key
`i`) `lock_read` returns exactly that id, `is_the_checked_in_project` is
true, and a following check-out (key `o`) removes the lock and leaves the log
extended by the check-in line and the check-out line. -/
theorem checkin_round_trip (env env2 : Env) (id : CStr) (x : Char) (w : State)
    (hvalid : valid_id id = true) (hlen : id.length ≤ 127)
    (hlast : id.getLast? = some x) (hx : isspace x = false)
    (hact : w.active_id = id) (hfree : lock_read 128 w = []) :
    lock_read 128 (data_view_handle env 'i' w) = id ∧
    is_the_checked_in_project (data_view_handle env 'i' w) = true ∧
    (data_view_handle env2 'o' (data_view_handle env 'i' w)).lock = none ∧
    (data_view_handle env2 'o' (data_view_handle env 'i' w)).data id =
      some (log_content w id ++ (env.now ++ ['\t'] ++ "checkin".toList ++ ['\t', '\n']) ++
        (env2.now ++ ['\t'] ++ "checkout".toList ++ ['\t', '\n'])) := by
  obtain ⟨hne, hnl, hnul⟩ := valid_id_mem id hvalid
  have hid : w.active_id ≠ [] := by rw [hact]; exact hne
  have hhas : has_checkin w = false := by
    unfold has_checkin
    rw [hfree]
    rfl
  have hdv : data_view_handle env 'i' w =
      load_comments (write_log env.now "checkin".toList none w) := by
    simp [data_view_handle, hhas]
  have hw := write_log_checkin_granted_data env.now w hid (Or.inl hfree)
  rw [hact] at hw
  have hread : lock_read 128 (data_view_handle env 'i' w) = id := by
    rw [hdv, lock_read_load_comments]
    exact lock_read_after_write id x _ hnl hnul hlen hlast hx hw.2.1
  have hact2 : (data_view_handle env 'i' w).active_id = id := by
    rw [hdv, load_comments_active_id]
    exact hw.2.2
  have hne2 : (data_view_handle env 'i' w).active_id ≠ [] := by rw [hact2]; exact hne
  have hrel := release_keys_effect env2 'o' "checkout".toList (data_view_handle env 'i' w)
    (Or.inl ⟨rfl, rfl⟩) hne2 (by rw [hread, hact2])
  refine ⟨hread, (is_checked_in_iff _).2 ⟨hne2, by rw [hread, hact2]⟩, hrel.1, ?_⟩
  have h3 := hrel.2.2.1
  rw [hact2] at h3
  rw [h3]
  have hlog : log_content (data_view_handle env 'i' w) id =
      log_content w id ++ (env.now ++ ['\t'] ++ "checkin".toList ++ ['\t', '\n']) := by
    unfold log_content
    rw [hdv, load_comments_data, hw.1]
    rfl
  rw [hlog]

/-- C5 as amended, at a concrete input: the id `proj1`. -/
theorem checkin_round_trip_witness :
    lock_read 128 (data_view_handle sample_env 'i'
        (sample_state "proj1".toList [] none "proj1".toList)) = "proj1".toList :=
  (checkin_round_trip sample_env sample_env "proj1".toList '1'
    (sample_state "proj1".toList [] none "proj1".toList)
    (by decide) (by decide) (by decide) (by decide) rfl (by decide)).1

/-! ## Facts about the time accumulation -/

/-- The loop over the lines of a log is the loop over the events of the
lines that have both tokens. -/
theorem compute_loop_eq_tokens (L : Libc) :
    ∀ (lines : List CStr) (c t : Int),
      compute_total_minutes_loop L lines c t =
        (List.foldl (fun st r => minutes_step r.1 r.2 st.1 st.2) (c, t)
          (lines.filterMap (line_tokens L))).2 := by
  intro lines
  induction lines with
  | nil => intro c t; rfl
  | cons line rest ih =>
    intro c t
    unfold compute_total_minutes_loop line_tokens
    rcases h1 : strtok ['\t'] line with _ | ⟨ts, r⟩
    · simpa [List.filterMap_cons, line_tokens, h1] using ih c t
    · rcases h2 : strtok ['\t'] (strtok_rest (some (ts, r))) with _ | ⟨act, r'⟩
      · simpa [List.filterMap_cons, line_tokens, h1, h2] using ih c t
      · simp only [List.filterMap_cons, line_tokens, h1, h2, List.foldl_cons]
        exact ih _ _

theorem to_int_add (a b : Int) : to_int (to_int a + to_int b) = to_int (a + b) := by
  unfold to_int
  omega

theorem to_int_of_fits (a : Int) (h1 : -2147483648 ≤ a) (h2 : a < 2147483648) :
    to_int a = a := by
  unfold to_int
  omega

theorem to_int_zero : to_int 0 = 0 := by decide

/-- The loop of the code follows the scan of the specification as long as
no check-in carries the time stamp `0`: `checkin_time` is the pending value
(`0` for none) and `total_minutes` is the total reduced to `int`. -/
theorem total_minutes_events_scan :
    ∀ (events : List Event) (pending : Option Int) (total : Int),
      (∀ e ∈ events, e.time ≠ -1) →
      (∀ e ∈ events, e.kind = Kind.CheckIn → e.time ≠ 0) →
      pending ≠ some 0 →
      total_minutes_events events (pending.getD 0) (to_int total) =
        to_int (spec_scan events pending total) := by
  intro events
  induction events with
  | nil => intro pending total _ _ _; rfl
  | cons e rest ih =>
    intro pending total hp h0 hpend
    have hp1 : e.time ≠ -1 := hp e (by simp)
    have hp2 : ∀ x ∈ rest, x.time ≠ -1 := fun x hx => hp x (by simp [hx])
    have h02 : ∀ x ∈ rest, x.kind = Kind.CheckIn → x.time ≠ 0 :=
      fun x hx => h0 x (by simp [hx])
    obtain ⟨k, tm⟩ := e
    simp only at hp1
    cases k
    case CheckIn =>
      have hne : tm ≠ 0 := h0 ⟨Kind.CheckIn, tm⟩ (by simp) rfl
      have := ih (some tm) total hp2 h02 (by simpa using hne)
      simpa [total_minutes_events, minutes_step, spec_scan, hp1, Kind.token] using this
    case CheckOut =>
      cases pending with
      | none =>
        have := ih none total hp2 h02 (by simp)
        simpa [total_minutes_events, minutes_step, spec_scan, hp1, Kind.token] using this
      | some p =>
        have hpne : p ≠ 0 := fun h => hpend (by rw [h])
        have := ih none (total + (tm - p).tdiv 60) hp2 h02 (by simp)
        rw [← to_int_add] at this
        have hk : Kind.CheckOut.token ≠ "checkin".toList := by decide
        simp only [total_minutes_events, minutes_step, spec_scan, hp1, if_false, hk,
          Option.getD_some]
        rw [if_pos ⟨rfl, hpne⟩]
        simp only
        rw [to_int_add, ← to_int_add total]
        simpa using this
    all_goals
      have := ih pending total hp2 h02 hpend
      simpa [total_minutes_events, minutes_step, spec_scan, hp1, Kind.token] using this

theorem fgets_take_concat :
    ∀ (l : List Char) (room : Nat), (fgets_take room l).1 ++ (fgets_take room l).2 = l := by
  intro l
  induction l with
  | nil => intro room; cases room <;> simp [fgets_take]
  | cons c cs ih =>
    intro room
    cases room with
    | zero => simp [fgets_take]
    | succ k =>
      by_cases hc : c = '\n'
      · simp [fgets_take, hc]
      · simp [fgets_take, hc, ih k]

theorem fgets_take_rest_length (l : List Char) (room : Nat) (hroom : 1 ≤ room) (hl : l ≠ []) :
    (fgets_take room l).2.length < l.length := by
  obtain ⟨k, rfl⟩ : ∃ k, room = k + 1 := ⟨room - 1, by omega⟩
  cases l with
  | nil => exact absurd rfl hl
  | cons c cs =>
    have h := congrArg List.length (fgets_take_concat cs k)
    rw [List.length_append] at h
    by_cases hc : c = '\n'
    · simp [fgets_take, hc]
    · simp only [fgets_take, if_neg hc, List.length_cons]
      omega

/-- A file that ends in a newline is read the same way when more text
follows it: the first line is the same and the text is still to be read. -/
theorem fgets_take_append (rest : List Char) :
    ∀ (prior : List Char) (room : Nat), prior.getLast? = some '\n' →
      fgets_take room (prior ++ rest) =
        ((fgets_take room prior).1, (fgets_take room prior).2 ++ rest) := by
  intro prior
  induction prior with
  | nil => intro room h; simp at h
  | cons c cs ih =>
    intro room hlast
    cases room with
    | zero => simp [fgets_take]
    | succ k =>
      by_cases hc : c = '\n'
      · simp [fgets_take, hc]
      · have hcs : cs.getLast? = some '\n' := by
          cases cs with
          | nil =>
            simp at hlast
            exact absurd hlast hc
          | cons d ds => simpa [List.getLast?_cons_cons] using hlast
        simp [fgets_take, hc, ih k hcs]

theorem read_lines_fuel_enough (n : Nat) (hn : 2 ≤ n) :
    ∀ (fuel1 fuel2 : Nat) (file : List Char), file.length ≤ fuel1 → file.length ≤ fuel2 →
      read_lines_fuel n fuel1 file = read_lines_fuel n fuel2 file := by
  intro fuel1
  induction fuel1 with
  | zero =>
    intro fuel2 file h1 _
    have hnil : file = [] := List.eq_nil_of_length_eq_zero (by omega)
    subst hnil
    cases fuel2 <;> simp [read_lines_fuel, fgets]
  | succ k ih =>
    intro fuel2 file h1 h2
    cases file with
    | nil => cases fuel2 <;> simp [read_lines_fuel, fgets]
    | cons c cs =>
      obtain ⟨j, rfl⟩ : ∃ j, fuel2 = j + 1 := ⟨fuel2 - 1, by simp at h2; omega⟩
      have hlt := fgets_take_rest_length (c :: cs) (n - 1) (by omega) (by simp)
      simp only [read_lines_fuel, fgets]
      rw [ih j _ (by omega) (by omega)]

theorem read_lines_nil (n : Nat) : read_lines n [] = [] := rfl

/-- One turn of `while (fgets(line, n, f))` on a file that is not empty. -/
theorem read_lines_cons (n : Nat) (hn : 2 ≤ n) (file : List Char) (hfile : file ≠ []) :
    read_lines n file =
      cstr (fgets_take (n - 1) file).1 :: read_lines n (fgets_take (n - 1) file).2 := by
  cases file with
  | nil => exact absurd rfl hfile
  | cons c cs =>
    have hlt := fgets_take_rest_length (c :: cs) (n - 1) (by omega) (by simp)
    unfold read_lines
    simp only [List.length_cons, read_lines_fuel, fgets]
    rw [read_lines_fuel_enough n hn cs.length (fgets_take (n - 1) (c :: cs)).2.length _
      (by simp only [List.length_cons] at hlt; omega) (le_refl _)]

/-- The lines of a file that ends in a newline, followed by more text, are
the lines of the file and then the lines of that text. -/
theorem read_lines_append (n : Nat) (hn : 2 ≤ n) (rest : List Char) :
    ∀ (k : Nat) (prior : List Char), prior.length ≤ k →
      (prior = [] ∨ prior.getLast? = some '\n') →
      read_lines n (prior ++ rest) = read_lines n prior ++ read_lines n rest := by
  intro k
  induction k with
  | zero =>
    intro prior hk _
    have hnil : prior = [] := List.eq_nil_of_length_eq_zero (by omega)
    subst hnil
    simp [read_lines_nil]
  | succ k ih =>
    intro prior hk hend
    rcases hend with hnil | hlast
    · subst hnil; simp [read_lines_nil]
    · have hne : prior ≠ [] := by
        intro h; subst h; simp at hlast
      have hne2 : prior ++ rest ≠ [] := by simp [hne]
      rw [read_lines_cons n hn _ hne2, read_lines_cons n hn _ hne,
        fgets_take_append rest prior (n - 1) hlast]
      simp only [List.cons_append]
      congr 1
      have hlt := fgets_take_rest_length prior (n - 1) (by omega) hne
      apply ih _ (by omega)
      by_cases hr : (fgets_take (n - 1) prior).2 = []
      · exact Or.inl hr
      · right
        have hcat := fgets_take_concat prior (n - 1)
        rw [← hcat, List.getLast?_append_of_ne_nil _ hr] at hlast
        exact hlast

/-- A line of fewer than `n` bytes, newline included, is read in one turn. -/
theorem read_lines_single (n : Nat) (hn : 2 ≤ n) (l : List Char)
    (hnl : '\n' ∉ l) (hlen : l.length + 1 < n) :
    read_lines n (l ++ ['\n']) = [cstr (l ++ ['\n'])] := by
  rw [read_lines_cons n hn _ (by simp), fgets_take_line [] l (n - 1) hnl (by omega)]
  simp [read_lines_nil]

theorem load_comments_loop_append :
    ∀ (xs ys : List CStr) (acc : List Comment),
      load_comments_loop (xs ++ ys) acc = load_comments_loop ys (load_comments_loop xs acc) := by
  intro xs
  induction xs with
  | nil => intro ys acc; rfl
  | cons x xs ih =>
    intro ys acc
    simp only [List.cons_append, load_comments_loop]
    split
    · exact ih ys acc
    · split
      · split
        · exact ih ys _
        · exact ih ys acc
      · exact ih ys acc

/-! ## Facts about the tokens of a line -/

theorem takeWhile_append_stop (p : Char → Bool) (x : Char) (r : List Char) (hx : p x = false) :
    ∀ l : List Char, (∀ y ∈ l, p y = true) → (l ++ x :: r).takeWhile p = l := by
  intro l
  induction l with
  | nil => intro _; simp [List.takeWhile, hx]
  | cons c cs ih =>
    intro h
    have hc : p c = true := h c (by simp)
    simp [List.takeWhile, hc, ih (fun y hy => h y (by simp [hy]))]

theorem dropWhile_append_stop (p : Char → Bool) (x : Char) (r : List Char) (hx : p x = false) :
    ∀ l : List Char, (∀ y ∈ l, p y = true) → (l ++ x :: r).dropWhile p = x :: r := by
  intro l
  induction l with
  | nil => intro _; simp [List.dropWhile, hx]
  | cons c cs ih =>
    intro h
    have hc : p c = true := h c (by simp)
    simp [List.dropWhile, hc, ih (fun y hy => h y (by simp [hy]))]

/-- The call `strtok` on a token that is followed by the delimiter. -/
theorem strtok_token (d : Char) (tok rest : CStr) (hne : tok ≠ []) (hd : d ∉ tok) :
    strtok [d] (tok ++ d :: rest) = some (tok, rest) := by
  have hall : ∀ y ∈ tok, (fun c => !([d].contains c)) y = true := by
    intro y hy
    have : y ≠ d := fun h => hd (h ▸ hy)
    simpa using this
  have hstop : (fun c => !([d].contains c)) d = false := by simp
  cases tok with
  | nil => exact absurd rfl hne
  | cons c cs =>
    have hc : c ≠ d := fun h => hd (by simp [h])
    have hdrop : ((c :: cs) ++ d :: rest).dropWhile (fun x => [d].contains x) =
        c :: (cs ++ d :: rest) := by
      simp [List.dropWhile, hc]
    unfold strtok
    rw [hdrop]
    simp only
    rw [← List.cons_append, takeWhile_append_stop _ d rest hstop _ hall,
      dropWhile_append_stop _ d rest hstop _ hall]
    rfl

theorem strstr_append (p b : CStr) : ∀ a : CStr, strstr (a ++ (p ++ b)) p = true := by
  intro a
  induction a with
  | nil =>
    cases h : p ++ b with
    | nil =>
      have : p = [] := (List.append_eq_nil.1 h).1
      simp [strstr, this]
    | cons c cs =>
      have hp : p.isPrefixOf (c :: cs) = true := by
        rw [← h, List.isPrefixOf_iff_prefix]
        exact List.prefix_append p b
      simp [strstr, hp]
  | cons c cs ih =>
    have hstep : strstr (c :: (cs ++ (p ++ b))) p =
        (p.isPrefixOf (c :: (cs ++ (p ++ b))) || strstr (cs ++ (p ++ b)) p) := rfl
    rw [List.cons_append, hstep, ih, Bool.or_true]

theorem mem_cstr (c : Char) (l : List Char) (h : c ∈ cstr l) : c ∈ l ∧ c ≠ '\x00' := by
  unfold cstr at h
  refine ⟨(List.takeWhile_prefix _).subset h, ?_⟩
  have := List.mem_takeWhile_imp h
  simpa using this

theorem mem_trim (c : Char) (s : CStr) (h : c ∈ trim s) : c ∈ s := by
  unfold trim at h
  rw [List.mem_append] at h
  rcases h with h | h
  · exact (List.takeWhile_prefix _).subset h
  · have h1 : c ∈ s.dropWhile isspace :=
      (List.rdropWhile_prefix isspace (s.dropWhile isspace)).subset h
    exact (List.dropWhile_suffix isspace).subset h1

theorem is_now_iso_mem (now : CStr) (h : is_now_iso now = true) :
    now ≠ [] ∧ now.length ≤ 31 ∧ '\t' ∉ now ∧ '\n' ∉ now ∧ '\x00' ∉ now := by
  simp only [is_now_iso, Bool.and_eq_true, List.all_eq_true, decide_eq_true_eq] at h
  obtain ⟨⟨h1, h2⟩, h3⟩ := h
  refine ⟨by simpa using h1, h2, ?_, ?_, ?_⟩ <;>
  · intro hm
    have := h3 _ hm
    revert this
    decide

/-- The loop of `load_comments` on the line that `write_log` appends for a
comment. -/
theorem load_comments_loop_line (now msg : CStr) (acc : List Comment)
    (hnow : now ≠ []) (htab : '\t' ∉ now) (hmsg : msg ≠ []) (hnl : '\n' ∉ msg)
    (hacc : acc.length < MAX_COMMENTS) :
    load_comments_loop [log_line now "comment".toList msg] acc =
      acc ++ [⟨strncpy now 31, strncpy msg (MAX_LINE - 1)⟩] := by
  have hshape : log_line now "comment".toList msg =
      now ++ '\t' :: ("comment".toList ++ '\t' :: (msg ++ '\n' :: [])) := by
    simp [log_line]
  have hfind : strstr (log_line now "comment".toList msg) "\tcomment\t".toList = true := by
    have : log_line now "comment".toList msg =
        now ++ ("\tcomment\t".toList ++ (msg ++ ['\n'])) := by
      simp [log_line]
    rw [this]
    exact strstr_append _ _ _
  have h1 : strtok ['\t'] (log_line now "comment".toList msg) =
      some (now, "comment".toList ++ '\t' :: (msg ++ '\n' :: [])) := by
    rw [hshape]
    exact strtok_token '\t' now _ hnow htab
  have h2 : strtok ['\t'] ("comment".toList ++ '\t' :: (msg ++ '\n' :: [])) =
      some ("comment".toList, msg ++ '\n' :: []) :=
    strtok_token '\t' _ _ (by decide) (by decide)
  have h3 : strtok ['\n'] (msg ++ '\n' :: []) = some (msg, []) :=
    strtok_token '\n' msg [] hmsg hnl
  simp only [load_comments_loop, hfind, h1, h2, h3, strtok_rest, if_pos hacc]
  simp

/-! ## The loop over events is the loop over the lines of a log -/

theorem kind_token_mem (k : Kind) :
    k.token ≠ [] ∧ '\t' ∉ k.token ∧ '\n' ∉ k.token ∧ '\x00' ∉ k.token := by
  cases k <;> decide

theorem read_lines_render_log :
    ∀ rows : List Row, (∀ r ∈ rows, r.well_formed) →
      read_lines MAX_LINE (render_log rows) = rows.map Row.line := by
  intro rows
  induction rows with
  | nil => intro _; rfl
  | cons r rest ih =>
    intro hwf
    obtain ⟨_, _, h3, h4, h5, h6, h7⟩ := hwf r (by simp)
    obtain ⟨_, _, k3, k4⟩ := kind_token_mem r.kind
    have hline : r.line = (r.ts ++ ['\t'] ++ r.kind.token ++ ['\t'] ++ r.payload) ++ ['\n'] := by
      simp [Row.line, log_line]
    have hbody_nl : '\n' ∉ r.ts ++ ['\t'] ++ r.kind.token ++ ['\t'] ++ r.payload := by
      simp only [List.mem_append, List.mem_singleton, not_or]
      exact ⟨⟨⟨⟨h3, by decide⟩, k3⟩, by decide⟩, h5⟩
    have hnul : '\x00' ∉ r.line := by
      simp only [Row.line, log_line, List.mem_append, List.mem_singleton, not_or]
      exact ⟨⟨⟨⟨⟨h4, by decide⟩, k4⟩, by decide⟩, h6⟩, by decide⟩
    have hlen : (r.ts ++ ['\t'] ++ r.kind.token ++ ['\t'] ++ r.payload).length + 1 <
        MAX_LINE := by
      rw [hline] at h7
      simpa using h7
    have hlast : r.line.getLast? = some '\n' := by
      rw [hline, List.getLast?_append_of_ne_nil _ (by simp)]
      rfl
    simp only [render_log, List.map_cons]
    rw [read_lines_append MAX_LINE (by decide) _ _ _ (le_refl _) (Or.inr hlast),
      ih (fun x hx => hwf x (by simp [hx]))]
    have hone : read_lines MAX_LINE r.line = [r.line] := by
      rw [hline, read_lines_single MAX_LINE (by decide) _ hbody_nl hlen, ← hline,
        cstr_eq_self _ hnul]
    rw [hone]
    rfl

theorem line_tokens_row (L : Libc) (r : Row) (hwf : r.well_formed) :
    line_tokens L r.line = some (r.kind.token, parse_iso_ts L r.ts) := by
  obtain ⟨h1, h2, _, _, _, _, _⟩ := hwf
  obtain ⟨k1, k2, _, _⟩ := kind_token_mem r.kind
  have hshape : r.line = r.ts ++ '\t' :: (r.kind.token ++ '\t' :: (r.payload ++ ['\n'])) := by
    simp [Row.line, log_line]
  have t1 : strtok ['\t'] r.line =
      some (r.ts, r.kind.token ++ '\t' :: (r.payload ++ ['\n'])) := by
    rw [hshape]
    exact strtok_token '\t' _ _ h1 h2
  have t2 : strtok ['\t'] (r.kind.token ++ '\t' :: (r.payload ++ ['\n'])) =
      some (r.kind.token, r.payload ++ ['\n']) :=
    strtok_token '\t' _ _ k1 k2
  simp only [line_tokens, t1, strtok_rest, t2]

theorem foldl_minutes_step_events (L : Libc) :
    ∀ (rows : List Row) (c t : Int),
      (List.foldl (fun st r => minutes_step r.1 r.2 st.1 st.2) (c, t)
          (rows.map (fun r => (r.kind.token, parse_iso_ts L r.ts)))).2 =
        total_minutes_events (rows.map (Row.event L)) c t := by
  intro rows
  induction rows with
  | nil => intro c t; rfl
  | cons r rest ih =>
    intro c t
    simp only [List.map_cons, List.foldl_cons, total_minutes_events, Row.event]
    exact ih _ _

/-- The function `compute_total_minutes` on a log made of well-formed lines
is the loop over the events of those lines. -/
theorem compute_total_minutes_render_log (L : Libc) (rows : List Row) (w : State)
    (hwf : ∀ r ∈ rows, r.well_formed) (hid : w.active_id ≠ [])
    (hlog : w.data w.active_id = some (render_log rows)) :
    compute_total_minutes L w = total_minutes_events (rows.map (Row.event L)) 0 0 := by
  unfold compute_total_minutes
  rw [if_neg hid, hlog]
  simp only
  rw [read_lines_render_log rows hwf, compute_loop_eq_tokens]
  have hmap : (rows.map Row.line).filterMap (line_tokens L) =
      rows.map (fun r => (r.kind.token, parse_iso_ts L r.ts)) := by
    clear hlog
    induction rows with
    | nil => rfl
    | cons r rest ih =>
      simp only [List.map_cons, List.filterMap_cons, line_tokens_row L r (hwf r (by simp))]
      rw [ih (fun x hx => hwf x (by simp [hx]))]
  rw [hmap]
  exact foldl_minutes_step_events L rows 0 0

/-- The function `compute_total_minutes` on a log made of well-formed lines
whose events are `events`. -/
theorem compute_total_minutes_of_events (L : Libc) (rows : List Row) (w : State)
    (events : List Event) (hwf : ∀ r ∈ rows, r.well_formed) (hid : w.active_id ≠ [])
    (hlog : w.data w.active_id = some (render_log rows))
    (hev : rows.map (Row.event L) = events) :
    compute_total_minutes L w = total_minutes_events events 0 0 := by
  rw [compute_total_minutes_render_log L rows w hwf hid hlog, hev]

/-- The loop on events gives the total of the specified scan when no
check-in has the time stamp `0` and the total fits in an `int`. -/
theorem total_minutes_events_spec (events : List Event)
    (hparsed : ∀ e ∈ events, e.time ≠ -1)
    (hepoch : ∀ e ∈ events, e.kind = Kind.CheckIn → e.time ≠ 0)
    (hfit : -2147483648 ≤ spec_total_minutes events ∧ spec_total_minutes events < 2147483648) :
    total_minutes_events events 0 0 = spec_total_minutes events := by
  have h := total_minutes_events_scan events none 0 hparsed hepoch (by simp)
  rw [to_int_zero] at h
  rw [show (none : Option Int).getD 0 = 0 from rfl] at h
  rw [h]
  exact to_int_of_fits _ hfit.1 hfit.2

/-- The loop on `[checkin@T0, checkout@T1]`. -/
theorem total_minutes_checkin_checkout (T0 T1 : Int)
    (h0 : T0 ≠ 0) (hp0 : T0 ≠ -1) (hp1 : T1 ≠ -1)
    (hfit : -2147483648 ≤ (T1 - T0).tdiv 60 ∧ (T1 - T0).tdiv 60 < 2147483648) :
    total_minutes_events [⟨Kind.CheckIn, T0⟩, ⟨Kind.CheckOut, T1⟩] 0 0 = (T1 - T0).tdiv 60 := by
  have hk : Kind.CheckOut.token ≠ "checkin".toList := by decide
  have hstep1 : minutes_step Kind.CheckIn.token T0 0 0 = (T0, 0) := by
    simp [minutes_step, hp0, Kind.token]
  have hstep2 : minutes_step Kind.CheckOut.token T1 T0 0 =
      (0, to_int (0 + to_int ((T1 - T0).tdiv 60))) := by
    simp only [minutes_step, if_neg hp1, if_neg hk]
    rw [if_pos ⟨rfl, h0⟩]
  simp only [total_minutes_events, hstep1, hstep2]
  rw [zero_add, to_int_of_fits _ hfit.1 hfit.2, to_int_of_fits _ hfit.1 hfit.2]

/-- The loop on `[checkin@T0, checkin@T1, checkout@T1+d]`. -/
theorem total_minutes_two_checkins (T0 T1 d : Int) (hd : 0 ≤ d)
    (h1 : T1 ≠ 0) (hp1 : T1 ≠ -1) (hp2 : T1 + d ≠ -1) (hfit : Int.fdiv d 60 < 2147483648) :
    total_minutes_events [⟨Kind.CheckIn, T0⟩, ⟨Kind.CheckIn, T1⟩,
      ⟨Kind.CheckOut, T1 + d⟩] 0 0 = Int.fdiv d 60 := by
  have hk : Kind.CheckOut.token ≠ "checkin".toList := by decide
  have hq : (T1 + d - T1).tdiv 60 = Int.fdiv d 60 := by
    rw [show T1 + d - T1 = d by omega, Int.tdiv_eq_ediv hd (by decide),
      Int.fdiv_eq_ediv _ (by decide)]
  have hlo : -2147483648 ≤ Int.fdiv d 60 := by
    rw [Int.fdiv_eq_ediv _ (by decide)]
    omega
  have hstep2 : ∀ c : Int, minutes_step Kind.CheckIn.token T1 c 0 = (T1, 0) := by
    intro c
    simp [minutes_step, hp1, Kind.token]
  have hstep3 : minutes_step Kind.CheckOut.token (T1 + d) T1 0 =
      (0, to_int (0 + to_int ((T1 + d - T1).tdiv 60))) := by
    simp only [minutes_step, if_neg hp2, if_neg hk]
    rw [if_pos ⟨rfl, h1⟩]
  have hstep1 : (minutes_step Kind.CheckIn.token T0 0 0).2 = 0 := by
    by_cases h : T0 = -1
    · simp [minutes_step, h]
    · simp [minutes_step, h, Kind.token]
  simp only [total_minutes_events, hstep1, hstep2, hstep3]
  rw [zero_add, hq, to_int_of_fits _ hlo hfit, to_int_of_fits _ hlo hfit]

/-! ## C6: the loop of the code against the scan of the specification -/

/-- C6, as stated, fails: for a check-in with the parsed time stamp `0`
(1970-01-01T00:00:00Z) followed by a check-out 120 seconds later the scan of
the specification gives 2 minutes, while `compute_total_minutes` gives 0,
because it keeps `0` in `checkin_time` for "no pending check-in". -/
theorem checkin_at_epoch_not_counted :
    total_minutes_events [⟨Kind.CheckIn, 0⟩, ⟨Kind.CheckOut, 120⟩] 0 0 = 0 ∧
    spec_total_minutes [⟨Kind.CheckIn, 0⟩, ⟨Kind.CheckOut, 120⟩] = 2 := by
  decide

/-- C6 as amended: for every sequence of events with parsed time stamps
(none is `(time_t)-1`) in which no CheckIn has the time stamp `0` and whose
specified total fits in an `int`, the loop of `compute_total_minutes` gives
the total of the specified scan (pending starts as none, a CheckIn sets it, a
CheckOut with pending set adds the difference divided by 60, truncated toward
zero, and clears it, everything else changes nothing); and so does
`compute_total_minutes` itself on every log whose well-formed lines have
these events. -/
theorem compute_total_minutes_scan (events : List Event)
    (hparsed : ∀ e ∈ events, e.time ≠ -1)
    (hepoch : ∀ e ∈ events, e.kind = Kind.CheckIn → e.time ≠ 0)
    (hfit : -2147483648 ≤ spec_total_minutes events ∧ spec_total_minutes events < 2147483648) :
    total_minutes_events events 0 0 = spec_total_minutes events ∧
    ∀ (L : Libc) (rows : List Row) (w : State), (∀ r ∈ rows, r.well_formed) →
      w.active_id ≠ [] → w.data w.active_id = some (render_log rows) →
      rows.map (Row.event L) = events →
      compute_total_minutes L w = spec_total_minutes events := by
  have hev := total_minutes_events_spec events hparsed hepoch hfit
  refine ⟨hev, ?_⟩
  intro L rows w hwf hid hlog hrows
  rw [compute_total_minutes_of_events L rows w events hwf hid hlog hrows]
  exact hev

/-- C6 as amended, at a concrete input: two sessions of 90 and 120 seconds
with a comment in between. -/
theorem compute_total_minutes_scan_witness :
    total_minutes_events [⟨Kind.Created, 900⟩, ⟨Kind.CheckIn, 1000⟩, ⟨Kind.CheckOut, 1090⟩,
        ⟨Kind.Comment, 1095⟩, ⟨Kind.CheckIn, 2000⟩, ⟨Kind.CheckOut, 2120⟩] 0 0 =
      spec_total_minutes [⟨Kind.Created, 900⟩, ⟨Kind.CheckIn, 1000⟩, ⟨Kind.CheckOut, 1090⟩,
        ⟨Kind.Comment, 1095⟩, ⟨Kind.CheckIn, 2000⟩, ⟨Kind.CheckOut, 2120⟩] :=
  (compute_total_minutes_scan _ (by decide) (by decide) (by decide)).1

/-! ## C7: one check-in and one check-out -/

/-- C7, as stated, fails: with the check-out 90 seconds before the check-in
the code adds `-90 / 60` truncated toward zero, which is `-1`, while the
floor of `-90 / 60` is `-2`. -/
theorem clock_regression_truncates :
    total_minutes_events [⟨Kind.CheckIn, 1000⟩, ⟨Kind.CheckOut, 910⟩] 0 0 = -1 ∧
    Int.fdiv (910 - 1000) 60 = -2 := by
  decide

/-- C7 as amended: for parsed time stamps `T0` (not `0`, which the code reads
as "no pending check-in") and `T1` whose difference in minutes fits in an
`int`, the log `[checkin@T0, checkout@T1]` has total minutes `(T1 - T0) / 60`
truncated toward zero, in the loop on events and in `compute_total_minutes`
on the two-line log file; this is the floor when `T1` is not earlier than
`T0`, and it is 1 for a check-out 90 seconds after the check-in. -/
theorem checkin_checkout_minutes (T0 T1 : Int)
    (h0 : T0 ≠ 0) (hp0 : T0 ≠ -1) (hp1 : T1 ≠ -1)
    (hfit : -2147483648 ≤ (T1 - T0).tdiv 60 ∧ (T1 - T0).tdiv 60 < 2147483648) :
    total_minutes_events [⟨Kind.CheckIn, T0⟩, ⟨Kind.CheckOut, T1⟩] 0 0 = (T1 - T0).tdiv 60 ∧
    (T0 ≤ T1 → total_minutes_events [⟨Kind.CheckIn, T0⟩, ⟨Kind.CheckOut, T1⟩] 0 0 =
      Int.fdiv (T1 - T0) 60) ∧
    (T1 = T0 + 90 → total_minutes_events [⟨Kind.CheckIn, T0⟩, ⟨Kind.CheckOut, T1⟩] 0 0 = 1) ∧
    ∀ (L : Libc) (ts0 ts1 : CStr) (w : State),
      parse_iso_ts L ts0 = T0 → parse_iso_ts L ts1 = T1 →
      (∀ r ∈ [(⟨ts0, Kind.CheckIn, []⟩ : Row), ⟨ts1, Kind.CheckOut, []⟩], r.well_formed) →
      w.active_id ≠ [] →
      w.data w.active_id =
        some (render_log [⟨ts0, Kind.CheckIn, []⟩, ⟨ts1, Kind.CheckOut, []⟩]) →
      compute_total_minutes L w = (T1 - T0).tdiv 60 := by
  have hval := total_minutes_checkin_checkout T0 T1 h0 hp0 hp1 hfit
  refine ⟨hval, ?_, ?_, ?_⟩
  · intro hle
    rw [hval, Int.tdiv_eq_ediv (by omega) (by decide), Int.fdiv_eq_ediv _ (by decide)]
  · intro h90
    rw [hval, h90, show T0 + 90 - T0 = 90 by omega]
    decide
  · intro L ts0 ts1 w ht0 ht1 hwf hid hlog
    rw [compute_total_minutes_of_events L _ w [⟨Kind.CheckIn, T0⟩, ⟨Kind.CheckOut, T1⟩]
      hwf hid hlog (by simp [Row.event, ht0, ht1])]
    exact hval

/-- C7 as amended, at a concrete input: a check-out 90 seconds after the
check-in gives 1 minute. -/
theorem checkin_checkout_minutes_witness :
    total_minutes_events [⟨Kind.CheckIn, 1000⟩, ⟨Kind.CheckOut, 1090⟩] 0 0 = 1 :=
  (checkin_checkout_minutes 1000 1090 (by decide) (by decide) (by decide) (by decide)).2.2.1
    (by decide)

/-! ## C8: an unmatched earlier check-in -/

/-- C8, as stated, fails: with `T0 = -100`, `T1 = 0` and `d = 60` the second
check-in stores `0` in `checkin_time`, the check-out is ignored and the total
is 0, not 1. -/
theorem second_checkin_at_epoch_lost :
    (-100 : Int) < 0 ∧
    total_minutes_events [⟨Kind.CheckIn, -100⟩, ⟨Kind.CheckIn, 0⟩,
      ⟨Kind.CheckOut, 0 + 60⟩] 0 0 = 0 ∧
    Int.fdiv 60 60 = 1 := by
  decide

/-- C8 as amended: for every `T0`, every parsed `T1` other than `0` and every
`d >= 0` with `d / 60` in the range of `int` (and `T1 + d` parsed), the log
`[checkin@T0, checkin@T1, checkout@T1+d]` has total minutes `floor(d / 60)`,
whatever `T0` is, in the loop on events and in `compute_total_minutes` on the
three-line log file; with `d = 60` the total is 1. -/
theorem unmatched_checkin_discarded (T0 T1 d : Int) (hd : 0 ≤ d)
    (h1 : T1 ≠ 0) (hp1 : T1 ≠ -1) (hp2 : T1 + d ≠ -1) (hfit : Int.fdiv d 60 < 2147483648) :
    total_minutes_events [⟨Kind.CheckIn, T0⟩, ⟨Kind.CheckIn, T1⟩,
      ⟨Kind.CheckOut, T1 + d⟩] 0 0 = Int.fdiv d 60 ∧
    (d = 60 → total_minutes_events [⟨Kind.CheckIn, T0⟩, ⟨Kind.CheckIn, T1⟩,
      ⟨Kind.CheckOut, T1 + d⟩] 0 0 = 1) ∧
    ∀ (L : Libc) (ts0 ts1 ts2 : CStr) (w : State),
      parse_iso_ts L ts0 = T0 → parse_iso_ts L ts1 = T1 → parse_iso_ts L ts2 = T1 + d →
      (∀ r ∈ [(⟨ts0, Kind.CheckIn, []⟩ : Row), ⟨ts1, Kind.CheckIn, []⟩,
        ⟨ts2, Kind.CheckOut, []⟩], r.well_formed) →
      w.active_id ≠ [] →
      w.data w.active_id = some (render_log [⟨ts0, Kind.CheckIn, []⟩,
        ⟨ts1, Kind.CheckIn, []⟩, ⟨ts2, Kind.CheckOut, []⟩]) →
      compute_total_minutes L w = Int.fdiv d 60 := by
  have hval := total_minutes_two_checkins T0 T1 d hd h1 hp1 hp2 hfit
  refine ⟨hval, ?_, ?_⟩
  · intro h60
    rw [hval, h60]
    decide
  · intro L ts0 ts1 ts2 w ht0 ht1 ht2 hwf hid hlog
    rw [compute_total_minutes_of_events L _ w
      [⟨Kind.CheckIn, T0⟩, ⟨Kind.CheckIn, T1⟩, ⟨Kind.CheckOut, T1 + d⟩]
      hwf hid hlog (by simp [Row.event, ht0, ht1, ht2])]
    exact hval

/-- C8 as amended, at a concrete input: `T0 = 1000`, `T1 = 5000`, `d = 60`. -/
theorem unmatched_checkin_discarded_witness :
    total_minutes_events [⟨Kind.CheckIn, 1000⟩, ⟨Kind.CheckIn, 5000⟩,
      ⟨Kind.CheckOut, 5000 + 60⟩] 0 0 = 1 :=
  (unmatched_checkin_discarded 1000 5000 60 (by decide) (by decide) (by decide) (by decide)
    (by decide)).2.1 rfl

/-! ## C9: events that do not count -/

/-- What `write_log` does for a comment of the lock holder. -/
theorem write_log_comment_granted (now msg : CStr) (w : State) (hid : w.active_id ≠ [])
    (hlock : lock_read 128 w = w.active_id) :
    write_log now "comment".toList (some msg) w =
      append_log w.active_id (log_line now "comment".toList msg)
        (open_append w.active_id w) := by
  unfold write_log
  rw [if_neg hid]
  have h1 : "comment".toList ≠ "checkin".toList := by decide
  have h2 : ¬("comment".toList = "checkout".toList ∨ "comment".toList = "finish".toList ∨
      "comment".toList = "cancel".toList) := by decide
  have h3 : ¬(lock_read 128 (open_append w.active_id w) ≠ w.active_id) := by
    rw [lock_read_open_append, hlock]
    simp
  simp only [if_neg h1, if_neg h2, if_true, if_neg h3, Option.getD_some]

/-- The comments `load_comments` finds after a comment line was appended to
a log that is empty or ends in a newline: the loop runs over the old lines
and then over the new line. -/
theorem load_comments_appended (now msg : CStr) (w : State) (hid : w.active_id ≠ [])
    (hnow : is_now_iso now = true) (hnl : '\n' ∉ msg) (hnul : '\x00' ∉ msg)
    (hfits : now.length + msg.length + 10 ≤ 1023)
    (hprior : log_content w w.active_id = [] ∨
      (log_content w w.active_id).getLast? = some '\n') :
    (load_comments (append_log w.active_id (log_line now "comment".toList msg)
        (open_append w.active_id w))).comments =
      load_comments_loop [log_line now "comment".toList msg]
        (load_comments_loop (read_lines MAX_LINE (log_content w w.active_id)) []) := by
  obtain ⟨_, _, _, hn4, hn5⟩ := is_now_iso_mem now hnow
  have hline : log_line now "comment".toList msg =
      (now ++ ['\t'] ++ "comment".toList ++ ['\t'] ++ msg) ++ ['\n'] := by
    simp [log_line]
  have hbody_nl : '\n' ∉ now ++ ['\t'] ++ "comment".toList ++ ['\t'] ++ msg := by
    simp only [List.mem_append, List.mem_singleton, not_or]
    exact ⟨⟨⟨⟨hn4, by decide⟩, by decide⟩, by decide⟩, hnl⟩
  have hline_nul : '\x00' ∉ log_line now "comment".toList msg := by
    simp only [log_line, List.mem_append, List.mem_singleton, not_or]
    exact ⟨⟨⟨⟨⟨hn5, by decide⟩, by decide⟩, by decide⟩, hnul⟩, by decide⟩
  have hbody_len : (now ++ ['\t'] ++ "comment".toList ++ ['\t'] ++ msg).length + 1 <
      MAX_LINE := by
    simp only [List.length_append, List.length_singleton, MAX_LINE]
    have : "comment".toList.length = 7 := by decide
    omega
  have hread : read_lines MAX_LINE (log_content w w.active_id ++
      log_line now "comment".toList msg) =
      read_lines MAX_LINE (log_content w w.active_id) ++ [log_line now "comment".toList msg] := by
    rw [read_lines_append MAX_LINE (by decide) _ _ _ (le_refl _) hprior]
    congr 1
    rw [hline, read_lines_single MAX_LINE (by decide) _ hbody_nl hbody_len, ← hline,
      cstr_eq_self _ hline_nul]
  have hdata : (append_log w.active_id (log_line now "comment".toList msg)
      (open_append w.active_id w)).data w.active_id =
      some (log_content w w.active_id ++ log_line now "comment".toList msg) := by
    simp [append_log, open_append, log_content]
  have hactive : (append_log w.active_id (log_line now "comment".toList msg)
      (open_append w.active_id w)).active_id = w.active_id := rfl
  unfold load_comments
  rw [hactive, if_neg hid, hdata]
  simp only
  rw [hread, load_comments_loop_append]

/-- Once `comment_count` has reached `MAX_COMMENTS` the loop of
`load_comments` stores nothing more. -/
theorem load_comments_loop_full :
    ∀ (lines : List CStr) (acc : List Comment), MAX_COMMENTS ≤ acc.length →
      load_comments_loop lines acc = acc := by
  intro lines
  induction lines with
  | nil => intro acc _; rfl
  | cons x xs ih =>
    intro acc hfull
    simp only [load_comments_loop]
    split
    · exact ih acc hfull
    · split
      · rw [if_neg (by omega)]
        exact ih acc hfull
      · exact ih acc hfull

theorem load_comments_loop_replicate (ts msg : CStr)
    (hts : ts ≠ []) (htab : '\t' ∉ ts) (hmsg : msg ≠ []) (hnl : '\n' ∉ msg)
    (hlen1 : ts.length ≤ 31) (hlen2 : msg.length ≤ MAX_LINE - 1) :
    ∀ (n : Nat) (acc : List Comment), acc.length + n ≤ MAX_COMMENTS →
      load_comments_loop (List.replicate n (log_line ts "comment".toList msg)) acc =
        acc ++ List.replicate n ⟨ts, msg⟩ := by
  intro n
  induction n with
  | zero => intro acc _; simp [load_comments_loop]
  | succ k ih =>
    intro acc hle
    have hone := load_comments_loop_line ts msg acc hts htab hmsg hnl (by omega)
    have ht : strncpy ts 31 = ts := List.take_of_length_le hlen1
    have hm : strncpy msg (MAX_LINE - 1) = msg := List.take_of_length_le hlen2
    rw [ht, hm] at hone
    rw [List.replicate_succ, ← List.singleton_append, load_comments_loop_append, hone,
      ih _ (by simp only [List.length_append, List.length_singleton]; omega),
      List.append_assoc, List.singleton_append]
    rfl

theorem render_log_last :
    ∀ rows : List Row, rows ≠ [] → (render_log rows).getLast? = some '\n' := by
  intro rows
  induction rows with
  | nil => intro h; exact absurd rfl h
  | cons r rest ih =>
    intro _
    by_cases hrest : rest = []
    · subst hrest
      simp only [render_log, List.append_nil, Row.line, log_line]
      rw [List.getLast?_append_of_ne_nil _ (by simp)]
      rfl
    · have hne : render_log rest ≠ [] := by
        intro h
        have := ih hrest
        rw [h] at this
        simp at this
      simp only [render_log]
      rw [List.getLast?_append_of_ne_nil _ hne]
      exact ih hrest

/-- The comments loaded after `hello` is appended to the log that already
holds `MAX_COMMENTS` comments: the list is full and ends with an old one. -/
theorem full_log_last_comment :
    (add_comment (typed_env "hello".toList) (sample_state "proj1".toList full_log
        (some "proj1\n".toList) "proj1".toList)).comments.getLast? =
      some ⟨"2025-06-01T09:00:00Z".toList, "m".toList⟩ := by
  have hmsg : trim (getnstr (MAX_LINE - 1) (typed_env "hello".toList).typed) =
      "hello".toList := by decide
  have hcontent : log_content (sample_state "proj1".toList full_log (some "proj1\n".toList)
      "proj1".toList) "proj1".toList = full_log := by
    simp [log_content, sample_state]
  have hwf : ∀ r ∈ List.replicate MAX_COMMENTS
      (⟨"2025-06-01T09:00:00Z".toList, Kind.Comment, "m".toList⟩ : Row), r.well_formed := by
    intro r hr
    rw [List.eq_of_mem_replicate hr]
    unfold Row.well_formed
    decide
  have hlines : read_lines MAX_LINE full_log =
      List.replicate MAX_COMMENTS
        (log_line "2025-06-01T09:00:00Z".toList "comment".toList "m".toList) := by
    unfold full_log
    rw [read_lines_render_log _ hwf, List.map_replicate]
    rfl
  have hold : load_comments_loop (read_lines MAX_LINE full_log) [] =
      List.replicate MAX_COMMENTS ⟨"2025-06-01T09:00:00Z".toList, "m".toList⟩ := by
    rw [hlines, load_comments_loop_replicate _ _ (by decide) (by decide) (by decide)
      (by decide) (by decide) (by decide) MAX_COMMENTS [] (Nat.le_of_eq (Nat.zero_add _)),
      List.nil_append]
  have hlast : full_log.getLast? = some '\n' :=
    render_log_last _ (List.ne_nil_of_length_pos (by rw [List.length_replicate]; decide))
  unfold add_comment
  simp only [hmsg]
  rw [if_neg (by decide), write_log_comment_granted _ _ _ (by decide) (by decide)]
  have hactive : (sample_state "proj1".toList full_log (some "proj1\n".toList)
      "proj1".toList).active_id = "proj1".toList := rfl
  have happ := load_comments_appended (typed_env "hello".toList).now "hello".toList
    (sample_state "proj1".toList full_log (some "proj1\n".toList) "proj1".toList)
    (by decide) (by decide) (by decide) (by decide) (by decide)
    (by rw [hactive, hcontent]; exact Or.inr hlast)
  rw [hactive, hcontent, hold] at happ
  rw [hactive, happ, load_comments_loop_full _ _ (by rw [List.length_replicate]),
    List.getLast?_replicate]
  rfl

/-! ## C10: a comment appended and read back -/

set_option maxRecDepth 1000000 in
set_option maxHeartbeats 4000000 in
/-- C10, as stated, fails, with `proj1` holding the lock in each case.
(1) The prior log holds `MAX_COMMENTS` comments: `hello` is appended, but the
list stays full and its last element is an old comment.  (2) The prior log is
`x` without a final newline: the appended line is glued to it and the time
stamp read back is `x2025-06-01T10:00:00Z`.  (3) The typed comment has 1000
bytes: it is written in full, but the line is read in pieces of 1023 bytes
and the payload read back has only its first 994 bytes. -/
theorem comment_not_read_back :
    (add_comment (typed_env "hello".toList) (sample_state "proj1".toList full_log
        (some "proj1\n".toList) "proj1".toList)).comments.getLast? =
      some ⟨"2025-06-01T09:00:00Z".toList, "m".toList⟩ ∧
    (add_comment (typed_env "hello".toList) (sample_state "proj1".toList "x".toList
        (some "proj1\n".toList) "proj1".toList)).comments.getLast? =
      some ⟨"x2025-06-01T10:00:00Z".toList, "hello".toList⟩ ∧
    trim (getnstr (MAX_LINE - 1) (typed_env (List.replicate 1000 'a')).typed) =
      List.replicate 1000 'a' ∧
    (add_comment (typed_env (List.replicate 1000 'a')) (sample_state "proj1".toList []
        (some "proj1\n".toList) "proj1".toList)).data "proj1".toList =
      some ("2025-06-01T10:00:00Z\tcomment\t".toList ++ List.replicate 1000 'a' ++ ['\n']) ∧
    (add_comment (typed_env (List.replicate 1000 'a')) (sample_state "proj1".toList []
        (some "proj1\n".toList) "proj1".toList)).comments.getLast? =
      some ⟨"2025-06-01T10:00:00Z".toList, List.replicate 994 'a'⟩ :=
  ⟨full_log_last_comment, by decide, by decide, by decide, by decide⟩

/-- C10 as amended: when the project holds the lock, the prior log content
is empty or ends in a newline and holds fewer than `MAX_COMMENTS` comments,
and the entered text (no newline, not empty after `trim`) is short enough for
the appended line to fit in one read of `MAX_LINE - 1` bytes (at most 993
bytes with the 20-byte time stamp), then `add_comment` appends the comment
line, and the last element of the list `load_comments` returns has exactly
the appended payload and exactly the time-stamp text that was written. -/
theorem add_comment_round_trip (env : Env) (w : State)
    (hid : w.active_id ≠ []) (hlock : lock_read 128 w = w.active_id)
    (hnow : is_now_iso env.now = true) (htyped : '\n' ∉ env.typed)
    (hmsg : trim (getnstr (MAX_LINE - 1) env.typed) ≠ [])
    (hfits : env.now.length + (trim (getnstr (MAX_LINE - 1) env.typed)).length + 10 ≤ 1023)
    (hprior : log_content w w.active_id = [] ∨
      (log_content w w.active_id).getLast? = some '\n')
    (hcount : (load_comments_loop (read_lines MAX_LINE (log_content w w.active_id)) []).length
      < MAX_COMMENTS) :
    (add_comment env w).data w.active_id =
      some (log_content w w.active_id ++
        (env.now ++ ['\t'] ++ "comment".toList ++ ['\t'] ++
          trim (getnstr (MAX_LINE - 1) env.typed) ++ ['\n'])) ∧
    (add_comment env w).comments.getLast? =
      some ⟨env.now, trim (getnstr (MAX_LINE - 1) env.typed)⟩ := by
  have hsub : ∀ c ∈ trim (getnstr (MAX_LINE - 1) env.typed), c ∈ env.typed ∧ c ≠ '\x00' := by
    intro c hc
    have h1 := mem_cstr c _ (mem_trim c _ hc)
    exact ⟨List.mem_of_mem_take h1.1, h1.2⟩
  have hnl : '\n' ∉ trim (getnstr (MAX_LINE - 1) env.typed) :=
    fun h => htyped (hsub _ h).1
  have hnul : '\x00' ∉ trim (getnstr (MAX_LINE - 1) env.typed) :=
    fun h => (hsub _ h).2 rfl
  obtain ⟨hn1, hn2, hn3, _, _⟩ := is_now_iso_mem env.now hnow
  have hadd : add_comment env w =
      load_comments (append_log w.active_id
        (log_line env.now "comment".toList (trim (getnstr (MAX_LINE - 1) env.typed)))
        (open_append w.active_id w)) := by
    unfold add_comment
    simp only [if_neg hmsg]
    rw [write_log_comment_granted env.now _ w hid hlock]
  rw [hadd]
  constructor
  · rw [load_comments_data]
    simp [append_log, open_append, log_content, log_line]
  · rw [load_comments_appended env.now _ w hid hnow hnl hnul hfits hprior,
      load_comments_loop_line env.now _ _ hn1 hn3 hmsg hnl hcount]
    have ht : strncpy env.now 31 = env.now := List.take_of_length_le hn2
    have hm : strncpy (trim (getnstr (MAX_LINE - 1) env.typed)) (MAX_LINE - 1) =
        trim (getnstr (MAX_LINE - 1) env.typed) :=
      List.take_of_length_le (by
        show (trim (getnstr (MAX_LINE - 1) env.typed)).length ≤ 1023
        omega)
    rw [ht, hm]
    simp

/-- C10 as amended, at a concrete input: the comment `hello` appended to the
log of `proj1` after its check-in line. -/
theorem add_comment_round_trip_witness :
    (add_comment (typed_env "hello".toList)
        (sample_state "proj1".toList "2025-06-01T09:00:00Z\tcheckin\t\n".toList
          (some "proj1\n".toList) "proj1".toList)).comments.getLast? =
      some ⟨"2025-06-01T10:00:00Z".toList, "hello".toList⟩ :=
  (add_comment_round_trip (typed_env "hello".toList)
    (sample_state "proj1".toList "2025-06-01T09:00:00Z\tcheckin\t\n".toList
      (some "proj1\n".toList) "proj1".toList)
    (by decide) (by decide) (by decide) (by decide) (by decide) (by decide) (by decide)
    (by decide)).2

/-! ## C16: the ids that `valid_id` accepts -/

theorem char_toNat_ne_zero (c : Char) (h : c ≠ '\x00') : c.toNat ≠ 0 := by
  intro h0
  apply h
  apply Char.ext
  apply UInt32.ext
  exact h0

/-- C16: for a C string `s` (a byte string that holds no NUL), `valid_id`
returns true if and only if `s` is not empty, holds no `/` byte and holds no
control character (a byte in `0x01`-`0x1F`, or `0x7F`). -/
theorem valid_id_iff (s : CStr) (hs : '\x00' ∉ s) :
    valid_id s = true ↔
      s ≠ [] ∧ '/' ∉ s ∧ ∀ c ∈ s, ¬(1 ≤ c.toNat ∧ c.toNat ≤ 31) ∧ c.toNat ≠ 127 := by
  cases s with
  | nil => simp [valid_id]
  | cons a as =>
    simp only [valid_id, List.all_eq_true, ne_eq, reduceCtorEq, not_false_eq_true, true_and]
    constructor
    · intro h
      refine ⟨fun hm => ?_, fun c hc => ?_⟩
      · have := h _ hm
        simp at this
      · have := h c hc
        simp only [iscntrl, Bool.and_eq_true, Bool.not_eq_true', Bool.or_eq_false_iff,
          decide_eq_false_iff_not] at this
        omega
    · intro h c hc
      have hne : c ≠ '\x00' := fun e => hs (e ▸ hc)
      have hslash : c ≠ '/' := fun e => h.1 (e ▸ hc)
      have h0 := char_toNat_ne_zero c hne
      have hctl := h.2 c hc
      simp only [iscntrl, Bool.and_eq_true, Bool.not_eq_true', Bool.or_eq_false_iff,
        decide_eq_false_iff_not]
      refine ⟨⟨by simpa using hslash, by simpa using hne⟩, ?_, ?_⟩
      · omega
      · simpa using hctl.2

/-- C16 at a concrete input: `my project-1` is accepted. -/
theorem valid_id_iff_witness :
    valid_id "my project-1".toList = true ↔
      "my project-1".toList ≠ [] ∧ '/' ∉ "my project-1".toList ∧
        ∀ c ∈ "my project-1".toList, ¬(1 ≤ c.toNat ∧ c.toNat ≤ 31) ∧ c.toNat ≠ 127 :=
  valid_id_iff "my project-1".toList (by decide)

/-! ## C17: no new project while a project is checked in -/

/-- C17: when the lock is held by any project (`lock_read` returns a name
that is not empty), `create_new_project` returns at once, whatever id is
typed: the whole state is as it was, so no log file is created or appended
to, the active-project pointer is unchanged and the lock is unchanged. -/
theorem create_new_project_locked (env : Env) (w : State) (hlock : lock_read 128 w ≠ []) :
    create_new_project env w = w := by
  have hhas : has_checkin w = true := by
    unfold has_checkin
    simpa using hlock
  simp [create_new_project, hhas]

/-- C17 at a concrete input: `proj1` holds the lock and `proj2` is typed. -/
theorem create_new_project_locked_witness :
    create_new_project (typed_env "proj2".toList) (sample_state "proj1".toList
        "2025-06-01T09:00:00Z\tcheckin\t\n".toList (some "proj1\n".toList) []) =
      sample_state "proj1".toList "2025-06-01T09:00:00Z\tcheckin\t\n".toList
        (some "proj1\n".toList) [] :=
  create_new_project_locked _ _ (by decide)

/-! ## C12: how many lines `delete_comment` removes -/

/-- C12 fails on the code: the log of `proj1` holds a `created` line and two
comment lines with the same time stamp and the same payload; `load_comments`
lists two comments and puts the cursor on the second; `delete_comment` then
drops both comment lines, so the rewritten log has one line where the
original has three. -/
theorem delete_comment_drops_duplicates :
    (load_comments (sample_state "proj1".toList
        ("2025-06-01T09:00:00Z\tcreated\t\n".toList ++
          "2025-06-01T09:05:00Z\tcomment\tsame\n".toList ++
          "2025-06-01T09:05:00Z\tcomment\tsame\n".toList)
        (some "proj1\n".toList) "proj1".toList)).comments.length = 2 ∧
    (load_comments (sample_state "proj1".toList
        ("2025-06-01T09:00:00Z\tcreated\t\n".toList ++
          "2025-06-01T09:05:00Z\tcomment\tsame\n".toList ++
          "2025-06-01T09:05:00Z\tcomment\tsame\n".toList)
        (some "proj1\n".toList) "proj1".toList)).index_pos = 1 ∧
    (delete_comment (load_comments (sample_state "proj1".toList
        ("2025-06-01T09:00:00Z\tcreated\t\n".toList ++
          "2025-06-01T09:05:00Z\tcomment\tsame\n".toList ++
          "2025-06-01T09:05:00Z\tcomment\tsame\n".toList)
        (some "proj1\n".toList) "proj1".toList))).data "proj1".toList =
      some "2025-06-01T09:00:00Z\tcreated\t\n".toList := by
  decide

/-! ## C14: the text that `add_comment` stores -/

/-- C14 fails on the code: with `proj1` holding the lock, a typed text of
three spaces is not empty after `trim` (which leaves it as it is) and is
appended as a comment with the payload of three spaces; and for the typed
text `  hi  ` the payload keeps the two leading spaces. -/
theorem add_comment_keeps_leading_space :
    trim "   ".toList = "   ".toList ∧
    (add_comment (typed_env "   ".toList) (sample_state "proj1".toList
        "2025-06-01T09:00:00Z\tcheckin\t\n".toList (some "proj1\n".toList)
        "proj1".toList)).data "proj1".toList =
      some ("2025-06-01T09:00:00Z\tcheckin\t\n".toList ++
        "2025-06-01T10:00:00Z\tcomment\t   \n".toList) ∧
    (add_comment (typed_env "  hi  ".toList) (sample_state "proj1".toList
        "2025-06-01T09:00:00Z\tcheckin\t\n".toList (some "proj1\n".toList)
        "proj1".toList)).data "proj1".toList =
      some ("2025-06-01T09:00:00Z\tcheckin\t\n".toList ++
        "2025-06-01T10:00:00Z\tcomment\t  hi\n".toList) := by
  decide

/-! ## Facts about the comment lines of a log -/

/-- One turn of the loop of `load_comments`, in terms of `comment_fields`. -/
theorem load_comments_loop_cons (line : CStr) (rest : List CStr) (acc : List Comment) :
    load_comments_loop (line :: rest) acc =
      match comment_fields line with
      | none => load_comments_loop rest acc
      | some f =>
        if acc.length < MAX_COMMENTS then load_comments_loop rest (acc ++ [stored_comment f])
        else load_comments_loop rest acc := by
  unfold comment_fields
  rw [load_comments_loop]
  cases hs : strstr line "\tcomment\t".toList
  · simp
  · simp only [Bool.not_true, Bool.false_eq_true, if_false, if_true]
    rcases h1 : strtok ['\t'] line with _ | ⟨ts, r⟩
    · simp
    · rcases h3 : strtok ['\n'] (strtok_rest (strtok ['\t'] (strtok_rest (some (ts, r)))))
        with _ | ⟨msg, r'⟩
      · simp
      · simp [stored_comment]

/-- The list that the loop of `load_comments` builds: the comments of the
lines, in order, as long as there is room below `MAX_COMMENTS`. -/
theorem load_comments_loop_eq :
    ∀ (lines : List CStr) (acc : List Comment),
      load_comments_loop lines acc =
        acc ++ ((lines.filterMap comment_fields).map stored_comment).take
          (MAX_COMMENTS - acc.length) := by
  intro lines
  induction lines with
  | nil => intro acc; simp [load_comments_loop]
  | cons line rest ih =>
    intro acc
    rw [load_comments_loop_cons]
    cases hf : comment_fields line with
    | none => simp only [List.filterMap_cons, hf]; exact ih acc
    | some f =>
      simp only [List.filterMap_cons, hf, List.map_cons]
      by_cases hroom : acc.length < MAX_COMMENTS
      · rw [if_pos hroom, ih]
        have hk : MAX_COMMENTS - acc.length = (MAX_COMMENTS - (acc ++ [stored_comment f]).length) + 1 := by
          simp only [List.length_append, List.length_singleton]
          omega
        rw [hk, List.take_succ_cons, List.append_assoc, List.singleton_append]
      · rw [if_neg hroom, load_comments_loop_full _ _ (by omega)]
        have hz : MAX_COMMENTS - acc.length = 0 := by omega
        rw [hz, List.take_zero, List.append_nil]

/-- One turn of the loop of `delete_comment`, in terms of `comment_fields`. -/
theorem delete_comment_loop_cons (ts msg line : CStr) (rest : List CStr) :
    delete_comment_loop ts msg (line :: rest) =
      if comment_fields line = some (ts, msg) then delete_comment_loop ts msg rest
      else line ++ delete_comment_loop ts msg rest := by
  rw [delete_comment_loop]
  cases hs : strstr line "\tcomment\t".toList
  · have hcf : comment_fields line = none := by
      simp only [comment_fields, hs, Bool.false_eq_true, if_false]
    simp [hcf]
  · simp only [Bool.not_true, Bool.false_eq_true, if_false]
    rcases h1 : strtok ['\t'] line with _ | ⟨lts, r⟩
    · have hcf : comment_fields line = none := by
        simp only [comment_fields, hs, if_true, h1]
      simp [hcf]
    · rcases h3 : strtok ['\n'] (strtok_rest (strtok ['\t'] (strtok_rest (some (lts, r)))))
        with _ | ⟨lmsg, r'⟩
      · have hcf : comment_fields line = none := by
          simp only [comment_fields, hs, if_true, h1]
          rw [h3]
        simp [hcf]
      · have hcf : comment_fields line = some (lts, lmsg) := by
          simp only [comment_fields, hs, if_true, h1]
          rw [h3]
        simp only [hcf, Option.some.injEq, Prod.mk.injEq]

/-- The text that the loop of `delete_comment` writes: the lines, in
order, except those whose comment fields are the chosen ones. -/
theorem delete_comment_loop_eq (ts msg : CStr) :
    ∀ lines : List CStr,
      delete_comment_loop ts msg lines =
        (lines.filter (fun l => decide (comment_fields l ≠ some (ts, msg)))).flatten := by
  intro lines
  induction lines with
  | nil => rfl
  | cons line rest ih =>
    rw [delete_comment_loop_cons]
    by_cases h : comment_fields line = some (ts, msg)
    · rw [if_pos h, List.filter_cons_of_neg (by simpa using h)]
      exact ih
    · rw [if_neg h, List.filter_cons_of_pos (by simpa using h), List.flatten_cons, ih]

/-! ## Facts about the lines of well-formed rows -/

theorem strstr_skip (p rest : CStr) :
    ∀ ts : CStr, '\t' ∉ ts → strstr (ts ++ rest) ('\t' :: p) = strstr rest ('\t' :: p) := by
  intro ts
  induction ts with
  | nil => intro _; rfl
  | cons c cs ih =>
    intro h
    have hc : c ≠ '\t' := fun e => h (by simp [e])
    have hcs : '\t' ∉ cs := fun e => h (by simp [e])
    have hstep : strstr (c :: (cs ++ rest)) ('\t' :: p) =
        (('\t' :: p).isPrefixOf (c :: (cs ++ rest)) || strstr (cs ++ rest) ('\t' :: p)) := rfl
    have hpre : ('\t' :: p).isPrefixOf (c :: (cs ++ rest)) = false := by
      simp [List.isPrefixOf, Ne.symm hc]
    rw [List.cons_append, hstep, hpre, Bool.false_or, ih hcs]

theorem strstr_kind_line (k : Kind) (hk : k ≠ Kind.Comment) :
    strstr ('\t' :: (k.token ++ ['\t', '\n'])) "\tcomment\t".toList = false := by
  cases k <;> first
    | exact absurd rfl hk
    | decide

theorem row_line_shape (r : Row) :
    r.line = r.ts ++ '\t' :: (r.kind.token ++ '\t' :: (r.payload ++ ['\n'])) := by
  simp [Row.line, log_line]

/-- The three `strtok` calls of the readers on the line of a well-formed
row: the time stamp, the kind, and the payload when it is not empty. -/
theorem row_tokens (r : Row) (hwf : r.well_formed) :
    strtok ['\t'] r.line = some (r.ts, r.kind.token ++ '\t' :: (r.payload ++ ['\n'])) ∧
    strtok ['\t'] (r.kind.token ++ '\t' :: (r.payload ++ ['\n'])) =
      some (r.kind.token, r.payload ++ ['\n']) ∧
    strtok ['\n'] (r.payload ++ ['\n']) =
      if r.payload = [] then none else some (r.payload, []) := by
  obtain ⟨h1, h2, _, _, h5, _, _⟩ := hwf
  obtain ⟨k1, k2, _, _⟩ := kind_token_mem r.kind
  refine ⟨?_, strtok_token '\t' _ _ k1 k2, ?_⟩
  · rw [row_line_shape]
    exact strtok_token '\t' _ _ h1 h2
  · by_cases hp : r.payload = []
    · rw [if_pos hp, hp]
      rfl
    · rw [if_neg hp]
      exact strtok_token '\n' _ [] hp h5

/-- The comment fields of the line of a well-formed row: the time stamp and
the payload of a comment whose payload is not empty, nothing otherwise. -/
theorem comment_fields_row (r : Row) (hwf : r.well_formed) (hplain : r.plain) :
    comment_fields r.line = if r.is_comment then some (r.ts, r.payload) else none := by
  obtain ⟨t1, t2, t3⟩ := row_tokens r hwf
  by_cases hk : r.kind = Kind.Comment
  · have hfind : strstr r.line "\tcomment\t".toList = true := by
      have : r.line = r.ts ++ ("\tcomment\t".toList ++ (r.payload ++ ['\n'])) := by
        rw [row_line_shape, hk]
        simp [Kind.token]
      rw [this]
      exact strstr_append _ _ _
    simp only [comment_fields, hfind, if_true, t1, strtok_rest, t2, t3]
    by_cases hp : r.payload = []
    · simp [Row.is_comment, hk, hp]
    · simp [Row.is_comment, hk, hp]
  · have hp : r.payload = [] := hplain hk
    have hfind : strstr r.line "\tcomment\t".toList = false := by
      rw [row_line_shape, hp]
      have h2 := hwf.2.1
      rw [show ("\tcomment\t".toList) = '\t' :: "comment\t".toList from rfl,
        strstr_skip _ _ _ h2]
      exact strstr_kind_line r.kind hk
    simp only [comment_fields, hfind, Bool.false_eq_true, if_false]
    simp [Row.is_comment, hk]

theorem filterMap_comment_fields_rows :
    ∀ rows : List Row, (∀ r ∈ rows, r.well_formed) → (∀ r ∈ rows, r.plain) →
      (rows.map Row.line).filterMap comment_fields =
        (rows.filter Row.is_comment).map (fun r => (r.ts, r.payload)) := by
  intro rows
  induction rows with
  | nil => intro _ _; rfl
  | cons r rest ih =>
    intro hwf hplain
    have ih2 := ih (fun x hx => hwf x (by simp [hx])) (fun x hx => hplain x (by simp [hx]))
    simp only [List.map_cons, List.filterMap_cons,
      comment_fields_row r (hwf r (by simp)) (hplain r (by simp))]
    cases hc : r.is_comment
    · simp [hc, ih2]
    · simp [hc, ih2]

theorem read_lines_full_log :
    read_lines MAX_LINE full_log =
      List.replicate MAX_COMMENTS
        (log_line "2025-06-01T09:00:00Z".toList "comment".toList "m".toList) := by
  have hwf : ∀ r ∈ List.replicate MAX_COMMENTS
      (⟨"2025-06-01T09:00:00Z".toList, Kind.Comment, "m".toList⟩ : Row), r.well_formed := by
    intro r hr
    rw [List.eq_of_mem_replicate hr]
    unfold Row.well_formed
    decide
  unfold full_log
  rw [read_lines_render_log _ hwf, List.map_replicate]
  rfl

/-- The comments loaded from the log that holds one comment more than
`MAX_COMMENTS`: the first `MAX_COMMENTS` comments. -/
theorem load_comments_over_full_log :
    (load_comments (sample_state "proj1".toList over_full_log none "proj1".toList)).comments =
      List.replicate MAX_COMMENTS ⟨"2025-06-01T09:00:00Z".toList, "m".toList⟩ := by
  have hlast : full_log.getLast? = some '\n' :=
    render_log_last _ (List.ne_nil_of_length_pos (by rw [List.length_replicate]; decide))
  have hone : read_lines MAX_LINE "2025-06-01T10:00:00Z\tcomment\thello\n".toList =
      ["2025-06-01T10:00:00Z\tcomment\thello\n".toList] := by decide
  have hdata : (sample_state "proj1".toList over_full_log none "proj1".toList).data
      (sample_state "proj1".toList over_full_log none "proj1".toList).active_id =
      some over_full_log := by
    simp [sample_state]
  unfold load_comments
  rw [if_neg (by decide), hdata]
  simp only
  unfold over_full_log
  rw [read_lines_append MAX_LINE (by decide) _ _ _ (le_refl _) (Or.inr hlast),
    read_lines_full_log, hone, load_comments_loop_append,
    load_comments_loop_replicate _ _ (by decide) (by decide) (by decide)
      (by decide) (by decide) (by decide) MAX_COMMENTS [] (Nat.le_of_eq (Nat.zero_add _)),
    List.nil_append, load_comments_loop_full _ _ (by rw [List.length_replicate])]

theorem row_payload_length (r : Row) (hwf : r.well_formed) :
    r.payload.length ≤ MAX_LINE - 1 := by
  have h7 := hwf.2.2.2.2.2.2
  rw [row_line_shape] at h7
  simp only [List.length_append, List.length_cons, List.length_nil, MAX_LINE] at h7
  simp only [MAX_LINE]
  omega

/-! ## C15: the list that `load_comments` returns -/

/-- C15, as stated, fails: the log holds `MAX_COMMENTS` comments followed by
the comment `hello` (a comment line as the program writes it), and
`load_comments` returns only the first `MAX_COMMENTS` of them, without
`hello`. -/
theorem load_comments_leaves_out :
    comment_fields "2025-06-01T10:00:00Z\tcomment\thello\n".toList =
      some ("2025-06-01T10:00:00Z".toList, "hello".toList) ∧
    (load_comments (sample_state "proj1".toList over_full_log none
      "proj1".toList)).comments.length = 1024 ∧
    (⟨"2025-06-01T10:00:00Z".toList, "hello".toList⟩ : Comment) ∉
      (load_comments (sample_state "proj1".toList over_full_log none
        "proj1".toList)).comments := by
  refine ⟨by decide, ?_, ?_⟩
  · rw [load_comments_over_full_log, List.length_replicate]
    rfl
  · rw [load_comments_over_full_log]
    intro h
    have := List.eq_of_mem_replicate h
    revert this
    decide

/-- C15 as amended: for every log, `load_comments` returns the first
`MAX_COMMENTS` comments of the log, in log order (oldest first), each with
its time stamp cut to 31 bytes and its message, where the comments of a log
are its lines that hold `\tcomment\t` with a time stamp and a message that is
not empty; it leaves `index_pos` on the last element of the returned list
(0 when the list is empty).  For a log of well-formed lines these are the
Comment events with a payload that is not empty. -/
theorem load_comments_first_comments (w : State) (file : List Char)
    (hid : w.active_id ≠ []) (hfile : w.data w.active_id = some file) :
    (load_comments w).comments =
      (((read_lines MAX_LINE file).filterMap comment_fields).map stored_comment).take
        MAX_COMMENTS ∧
    (load_comments w).index_pos =
      (if (load_comments w).comments.length = 0 then 0
        else ((load_comments w).comments.length : Int) - 1) ∧
    ∀ rows : List Row, (∀ r ∈ rows, r.well_formed) → (∀ r ∈ rows, r.plain) →
      file = render_log rows →
      (load_comments w).comments =
        ((rows.filter Row.is_comment).map
          (fun r => (⟨r.ts.take 31, r.payload⟩ : Comment))).take MAX_COMMENTS := by
  have hload : load_comments w =
      { w with
        comments := load_comments_loop (read_lines MAX_LINE file) [],
        index_pos :=
          if (load_comments_loop (read_lines MAX_LINE file) []).length = 0 then 0
          else ((load_comments_loop (read_lines MAX_LINE file) []).length : Int) - 1 } := by
    unfold load_comments
    rw [if_neg hid, hfile]
  have hcom : (load_comments w).comments =
      (((read_lines MAX_LINE file).filterMap comment_fields).map stored_comment).take
        MAX_COMMENTS := by
    rw [hload]
    simp only
    rw [load_comments_loop_eq]
    simp
  refine ⟨hcom, ?_, ?_⟩
  · rw [hload]
  · intro rows hwf hplain hrows
    rw [hcom, hrows, read_lines_render_log rows hwf,
      filterMap_comment_fields_rows rows hwf hplain, List.map_map]
    congr 1
    apply List.map_congr_left
    intro r hr
    have hr2 : r ∈ rows := List.mem_of_mem_filter hr
    have hlen := row_payload_length r (hwf r hr2)
    simp only [Function.comp, stored_comment, strncpy]
    rw [List.take_of_length_le hlen]

/-- C15 as amended, at a concrete input: a log with two comments. -/
theorem load_comments_first_comments_witness :
    (load_comments (sample_state "proj1".toList
        ("2025-06-01T09:00:00Z\tcheckin\t\n".toList ++
          "2025-06-01T09:05:00Z\tcomment\tfirst\n".toList ++
          "2025-06-01T09:06:00Z\tcomment\tsecond\n".toList)
        (some "proj1\n".toList) "proj1".toList)).index_pos = 1 :=
  (load_comments_first_comments
    (sample_state "proj1".toList
      ("2025-06-01T09:00:00Z\tcheckin\t\n".toList ++
        "2025-06-01T09:05:00Z\tcomment\tfirst\n".toList ++
        "2025-06-01T09:06:00Z\tcomment\tsecond\n".toList)
      (some "proj1\n".toList) "proj1".toList)
    ("2025-06-01T09:00:00Z\tcheckin\t\n".toList ++
      "2025-06-01T09:05:00Z\tcomment\tfirst\n".toList ++
      "2025-06-01T09:06:00Z\tcomment\tsecond\n".toList)
    (by decide) (by decide)).2.1

/-- One turn of the loop of `build_project_list` over a log. -/
theorem project_scan_cons (line : CStr) (rest : List CStr) (p : ProjectBytes) :
    project_scan (line :: rest) p =
      project_scan rest
        { p with
          last_action := match status_fields line with
            | some f => strncpy_bytes f.1 31
            | none => p.last_action
          timestamp := match status_fields line with
            | some f => strncpy_bytes f.2 31
            | none => p.timestamp
          preview := match preview_field line with
            | some m => strncpy_bytes m 63
            | none => p.preview } := by
  rw [project_scan]
  rcases h1 : strtok ['\t'] line with _ | ⟨ts, r⟩
  · have hsf : status_fields line = none := by simp only [status_fields, h1]
    have hpf : preview_field line = none := by simp only [preview_field, h1]
    simp only [hsf, hpf]
  · rcases h2 : strtok ['\t'] (strtok_rest (some (ts, r))) with _ | ⟨act, r'⟩
    · have hsf : status_fields line = none := by simp only [status_fields, h1, h2]
      have hpf : preview_field line = none := by simp only [preview_field, h1, h2]
      simp only [hsf, hpf]
    · by_cases hc : act = "comment".toList
      · have hs : ¬(is_status_token act = true) := by rw [hc]; decide
        have hsf : status_fields line = none := by
          simp only [status_fields, h1, h2, if_neg hs]
        have hpf : preview_field line = (strtok ['\n'] r').map Prod.fst := by
          simp only [preview_field, h1, h2, if_pos hc]
        simp only [if_pos hc, strtok_rest, hsf, hpf]
        rcases h3 : strtok ['\n'] r' with _ | ⟨msg, r''⟩
        · rfl
        · rfl
      · have hpf : preview_field line = none := by
          simp only [preview_field, h1, h2, if_neg hc]
        by_cases hs : act = "checkin".toList ∨ act = "checkout".toList ∨
            act = "created".toList ∨ act = "finish".toList ∨ act = "cancel".toList
        · have hs2 : is_status_token act = true := by
            simp only [is_status_token, decide_eq_true_eq]
            exact hs
          have hsf : status_fields line = some (act, ts) := by
            simp only [status_fields, h1, h2, if_pos hs2]
          simp only [if_neg hc, if_pos hs, hsf, hpf]
        · have hs2 : ¬(is_status_token act = true) := by
            simp only [is_status_token, decide_eq_true_eq]
            exact hs
          have hsf : status_fields line = none := by
            simp only [status_fields, h1, h2, if_neg hs2]
          simp only [if_neg hc, if_neg hs, hsf, hpf]

theorem project_scan_append :
    ∀ (xs ys : List CStr) (p : ProjectBytes),
      project_scan (xs ++ ys) p = project_scan ys (project_scan xs p) := by
  intro xs
  induction xs with
  | nil => intro ys p; rfl
  | cons x xs ih =>
    intro ys p
    rw [List.cons_append, project_scan_cons, project_scan_cons, ih]

theorem project_scan_single (line : CStr) (p : ProjectBytes) :
    project_scan [line] p =
      { p with
        last_action := match status_fields line with
          | some f => strncpy_bytes f.1 31
          | none => p.last_action
        timestamp := match status_fields line with
          | some f => strncpy_bytes f.2 31
          | none => p.timestamp
        preview := match preview_field line with
          | some m => strncpy_bytes m 63
          | none => p.preview } := by
  rw [project_scan_cons]
  rfl

theorem getLast?_filterMap_concat {α β : Type} (f : α → Option β) (xs : List α) (x : α) :
    ((xs ++ [x]).filterMap f).getLast? =
      match f x with
      | some v => some v
      | none => (xs.filterMap f).getLast? := by
  rw [List.filterMap_append]
  cases h : f x with
  | none => simp [List.filterMap_cons, h]
  | some v => simp [List.filterMap_cons, h]

/-- The bytes that the scan of a log leaves in an entry: the id is kept, the
status and the time stamp come from the last status line, the preview from
the last comment. -/
theorem project_scan_eq (p : ProjectBytes) :
    ∀ lines : List CStr,
      project_scan lines p =
        { id := p.id
          last_action := match (lines.filterMap status_fields).getLast? with
            | some f => strncpy_bytes f.1 31
            | none => p.last_action
          timestamp := match (lines.filterMap status_fields).getLast? with
            | some f => strncpy_bytes f.2 31
            | none => p.timestamp
          preview := match (lines.filterMap preview_field).getLast? with
            | some m => strncpy_bytes m 63
            | none => p.preview } := by
  intro lines
  induction lines using List.reverseRecOn with
  | nil => rfl
  | append_singleton xs x ih =>
    rw [project_scan_append, ih, project_scan_single, getLast?_filterMap_concat,
      getLast?_filterMap_concat]
    cases hs : status_fields x <;> cases hp : preview_field x <;> rfl

theorem cstr_cons (c : Char) (l : List Char) (hc : c ≠ '\x00') :
    cstr (c :: l) = c :: cstr l := by
  unfold cstr
  rw [List.takeWhile_cons_of_pos (by simpa using hc)]

/-- A string that is followed by a NUL is read up to that NUL. -/
theorem cstr_append_nul (a r : List Char) (h : '\x00' ∉ a) : cstr (a ++ '\x00' :: r) = a := by
  unfold cstr
  apply takeWhile_append_stop (fun c => c != '\x00') '\x00' r (by decide)
  intro y hy
  have : y ≠ '\x00' := fun e => h (e ▸ hy)
  simpa using this

/-- Bytes without a NUL are read through, into what follows them. -/
theorem cstr_append_free (r : List Char) :
    ∀ a : List Char, '\x00' ∉ a → cstr (a ++ r) = a ++ cstr r := by
  intro a
  induction a with
  | nil => intro _; rfl
  | cons c cs ih =>
    intro h
    have hc : c ≠ '\x00' := fun e => h (by simp [e])
    have hcs : '\x00' ∉ cs := fun e => h (by simp [e])
    rw [List.cons_append, cstr_cons _ _ hc, ih hcs]
    rfl

/-- Bytes that hold a NUL are read without regard to what follows them. -/
theorem cstr_mem_nul (r : List Char) :
    ∀ a : List Char, '\x00' ∈ a → cstr (a ++ r) = cstr a := by
  intro a
  induction a with
  | nil => intro h; cases h
  | cons c cs ih =>
    intro h
    by_cases hc : c = '\x00'
    · subst hc
      rfl
    · have hcs : '\x00' ∈ cs := by
        rcases List.mem_cons.1 h with e | e
        · exact absurd e.symm hc
        · exact e
      rw [List.cons_append, cstr_cons _ _ hc, cstr_cons _ _ hc, ih hcs]

/-- The string that is read at a field after `strncpy` wrote `n` bytes to
it: the source when it is shorter than `n`, else its first `n` bytes followed
by the string that the memory after them holds. -/
theorem cstr_strncpy_bytes (src rest : List Char) (n : Nat) (h : '\x00' ∉ src) :
    cstr (strncpy_bytes src n ++ rest) =
      if src.length < n then src else src.take n ++ cstr rest := by
  unfold strncpy_bytes
  by_cases hlen : src.length < n
  · rw [if_pos hlen, List.take_of_length_le (by omega)]
    obtain ⟨k, hk⟩ : ∃ k, n - src.length = k + 1 := ⟨n - src.length - 1, by omega⟩
    rw [hk, List.replicate_succ, List.append_assoc, List.cons_append]
    exact cstr_append_nul src _ h
  · rw [if_neg hlen]
    have h0 : n - src.length = 0 := by omega
    rw [h0, List.replicate_zero, List.append_nil]
    exact cstr_append_free rest _ (fun e => h (List.mem_of_mem_take e))

theorem status_token_facts (act : CStr) (h : is_status_token act = true) :
    '\x00' ∉ act ∧ act.length < 31 := by
  simp only [is_status_token, decide_eq_true_eq] at h
  rcases h with h | h | h | h | h <;> rw [h] <;> decide

theorem status_fields_token (line : CStr) (f : CStr × CStr) (h : status_fields line = some f) :
    is_status_token f.1 = true := by
  unfold status_fields at h
  rcases h1 : strtok ['\t'] line with _ | ⟨ts, r⟩
  · simp [h1] at h
  · rcases h2 : strtok ['\t'] (strtok_rest (some (ts, r))) with _ | ⟨act, r'⟩
    · simp [h1, h2] at h
    · simp only [h1, h2] at h
      by_cases hs : is_status_token act = true
      · rw [if_pos hs] at h
        cases h
        exact hs
      · rw [if_neg hs] at h
        cases h

/-- The tokens that `strtok` returns are made of bytes of its input. -/
theorem strtok_mem (d : List Char) (s tok rest : CStr) (h : strtok d s = some (tok, rest)) :
    (∀ c ∈ tok, c ∈ s) ∧ (∀ c ∈ rest, c ∈ s) := by
  unfold strtok at h
  cases hd : s.dropWhile (fun c => d.contains c) with
  | nil =>
    rw [hd] at h
    cases h
  | cons x xs =>
    rw [hd] at h
    simp only [Option.some.injEq, Prod.mk.injEq] at h
    obtain ⟨h1, h2⟩ := h
    have hsuf : ∀ c ∈ x :: xs, c ∈ s := by
      intro c hc
      rw [← hd] at hc
      exact (List.dropWhile_suffix _).subset hc
    constructor
    · intro c hc
      rw [← h1] at hc
      exact hsuf c ((List.takeWhile_prefix _).subset hc)
    · intro c hc
      rw [← h2] at hc
      exact hsuf c ((List.dropWhile_suffix _).subset (List.mem_of_mem_drop hc))

theorem status_fields_mem (line : CStr) (f : CStr × CStr) (h : status_fields line = some f) :
    ∀ c ∈ f.2, c ∈ line := by
  unfold status_fields at h
  rcases h1 : strtok ['\t'] line with _ | ⟨ts, r⟩
  · simp [h1] at h
  · rcases h2 : strtok ['\t'] (strtok_rest (some (ts, r))) with _ | ⟨act, r'⟩
    · simp [h1, h2] at h
    · simp only [h1, h2] at h
      by_cases hs : is_status_token act = true
      · rw [if_pos hs] at h
        cases h
        exact (strtok_mem _ _ _ _ h1).1
      · rw [if_neg hs] at h
        cases h

theorem preview_field_mem (line m : CStr) (h : preview_field line = some m) :
    ∀ c ∈ m, c ∈ line := by
  unfold preview_field at h
  rcases h1 : strtok ['\t'] line with _ | ⟨ts, r⟩
  · simp [h1] at h
  · rcases h2 : strtok ['\t'] (strtok_rest (some (ts, r))) with _ | ⟨act, r'⟩
    · simp [h1, h2] at h
    · simp only [h1, h2] at h
      by_cases hc : act = "comment".toList
      · rw [if_pos hc] at h
        rcases h3 : strtok ['\n'] r' with _ | ⟨msg, r''⟩
        · rw [h3] at h
          cases h
        · rw [h3] at h
          cases h
          intro c hc2
          have hr' : c ∈ r' := (strtok_mem _ _ _ _ h3).1 c hc2
          have hr : c ∈ strtok_rest (some (ts, r)) := (strtok_mem _ _ _ _ h2).2 c hr'
          exact (strtok_mem _ _ _ _ h1).2 c hr
      · rw [if_neg hc] at h
        cases h

/-- The lines that `fgets` delivers hold no NUL. -/
theorem read_lines_fuel_no_nul (n : Nat) (l : CStr) :
    ∀ (fuel : Nat) (file : List Char), l ∈ read_lines_fuel n fuel file → '\x00' ∉ l := by
  intro fuel
  induction fuel with
  | zero => intro file h; cases h
  | succ k ih =>
    intro file h
    cases file with
    | nil => cases h
    | cons c cs =>
      simp only [read_lines_fuel, fgets, List.mem_cons] at h
      rcases h with h | h
      · intro hm
        rw [h] at hm
        exact (mem_cstr _ _ hm).2 rfl
      · exact ih _ h

theorem read_lines_no_nul (n : Nat) (file : List Char) (l : CStr)
    (h : l ∈ read_lines n file) : '\x00' ∉ l :=
  read_lines_fuel_no_nul n l file.length file h

theorem last_status_no_nul (file : List Char) (f : CStr × CStr)
    (h : ((read_lines MAX_LINE file).filterMap status_fields).getLast? = some f) :
    '\x00' ∉ f.2 ∧ is_status_token f.1 = true := by
  have hm : f ∈ (read_lines MAX_LINE file).filterMap status_fields :=
    List.mem_of_getLast?_eq_some h
  obtain ⟨line, hline, hl⟩ := List.mem_filterMap.1 hm
  exact ⟨fun e => read_lines_no_nul _ _ _ hline (status_fields_mem line f hl _ e),
    status_fields_token line f hl⟩

theorem last_preview_no_nul (file : List Char) (m : CStr)
    (h : ((read_lines MAX_LINE file).filterMap preview_field).getLast? = some m) :
    '\x00' ∉ m := by
  have hm : m ∈ (read_lines MAX_LINE file).filterMap preview_field :=
    List.mem_of_getLast?_eq_some h
  obtain ⟨line, hline, hl⟩ := List.mem_filterMap.1 hm
  exact fun e => read_lines_no_nul _ _ _ hline (preview_field_mem line m hl _ e)

/-- The status fields and the preview of the line of a well-formed row. -/
theorem status_fields_row (r : Row) (hwf : r.well_formed) :
    status_fields r.line =
      (if r.kind = Kind.Comment then none else some (r.kind.token, r.ts)) ∧
    preview_field r.line =
      (if r.kind = Kind.Comment ∧ r.payload ≠ [] then some r.payload else none) := by
  obtain ⟨t1, t2, t3⟩ := row_tokens r hwf
  constructor
  · simp only [status_fields, t1, strtok_rest, t2]
    cases hk : r.kind <;> simp [is_status_token, Kind.token]
  · simp only [preview_field, t1, strtok_rest, t2, t3]
    by_cases hp : r.payload = []
    · cases hk : r.kind <;> simp [Kind.token, hp]
    · cases hk : r.kind <;> simp [Kind.token, hp]

theorem filterMap_status_fields_rows :
    ∀ rows : List Row, (∀ r ∈ rows, r.well_formed) →
      (rows.map Row.line).filterMap status_fields =
        (rows.filter (fun r => decide (r.kind ≠ Kind.Comment))).map
          (fun r => (r.kind.token, r.ts)) := by
  intro rows
  induction rows with
  | nil => intro _; rfl
  | cons r rest ih =>
    intro hwf
    have ih2 := ih (fun x hx => hwf x (by simp [hx]))
    simp only [List.map_cons, List.filterMap_cons, (status_fields_row r (hwf r (by simp))).1]
    by_cases hk : r.kind = Kind.Comment
    · simp [hk, ih2]
    · simp [hk, ih2]

/-- The entry of a project whose log can be opened, in terms of the scan. -/
theorem project_entry_scan (j : Junk) (w : State) (id : CStr) (file : List Char)
    (hfile : w.data id = some file) :
    project_entry j w id =
      read_entry j (project_scan (read_lines MAX_LINE file) (default_entry id)) := by
  unfold project_entry
  rw [hfile]

/-- The status, the time stamp and the preview that the users of
`build_project_list` read for a log, in terms of its last status line and its
last comment.  A time stamp of 31 bytes or more and a message of 63 bytes or
more are cut and have no terminator, so the string runs on into the bytes
that follow. -/
theorem project_entry_status (j : Junk) (w : State) (id : CStr) (file : List Char)
    (hfile : w.data id = some file) :
    (project_entry j w id).last_action =
      (match ((read_lines MAX_LINE file).filterMap status_fields).getLast? with
        | some f => f.1
        | none => "created".toList) ∧
    (project_entry j w id).timestamp =
      (match ((read_lines MAX_LINE file).filterMap status_fields).getLast? with
        | some f =>
          if f.2.length < 31 then f.2
          else f.2.take 31 ++ cstr (j.timestamp_31 ::
            ((match ((read_lines MAX_LINE file).filterMap preview_field).getLast? with
              | some m => strncpy_bytes m 63
              | none => ['\x00']) ++ j.after))
        | none => "0000-00-00T00:00:00".toList) ∧
    (project_entry j w id).preview =
      (match ((read_lines MAX_LINE file).filterMap preview_field).getLast? with
        | some m => if m.length < 63 then m else m.take 63 ++ cstr j.after
        | none => []) := by
  rw [project_entry_scan j w id file hfile, project_scan_eq]
  unfold read_entry
  simp only [default_entry]
  refine ⟨?_, ?_, ?_⟩
  · cases h : ((read_lines MAX_LINE file).filterMap status_fields).getLast? with
    | none => exact cstr_append_nul "created".toList _ (by decide)
    | some f =>
      obtain ⟨_, htok⟩ := last_status_no_nul file f h
      obtain ⟨hnul, hlen⟩ := status_token_facts f.1 htok
      simp only
      rw [cstr_strncpy_bytes _ _ _ hnul, if_pos hlen]
  · cases h : ((read_lines MAX_LINE file).filterMap status_fields).getLast? with
    | none => exact cstr_append_nul "0000-00-00T00:00:00".toList _ (by decide)
    | some f =>
      obtain ⟨hnul, _⟩ := last_status_no_nul file f h
      simp only
      rw [cstr_strncpy_bytes _ _ _ hnul]
  · cases h : ((read_lines MAX_LINE file).filterMap preview_field).getLast? with
    | none => rfl
    | some m =>
      simp only
      rw [cstr_strncpy_bytes _ _ _ (last_preview_no_nul file m h)]

/-- A line whose second token is `comment` changes neither the bytes of the
status nor those of the time stamp in the scan. -/
theorem project_scan_comment_line (lines : List CStr) (line ts r rest : CStr)
    (p : ProjectBytes) (h1 : strtok ['\t'] line = some (ts, r))
    (h2 : strtok ['\t'] r = some ("comment".toList, rest)) :
    (project_scan (lines ++ [line]) p).last_action = (project_scan lines p).last_action ∧
    (project_scan (lines ++ [line]) p).timestamp = (project_scan lines p).timestamp := by
  have hs : ¬(is_status_token "comment".toList = true) := by decide
  have hsf : status_fields line = none := by
    simp only [status_fields, h1, strtok_rest, h2, if_neg hs]
  rw [project_scan_append, project_scan_single, hsf]
  exact ⟨rfl, rfl⟩

/-! ## C18: the derived status -/

set_option maxRecDepth 1000000 in
set_option maxHeartbeats 4000000 in
/-- C18, as stated, fails.  (1) The log ends with the line
`2025-06-01T09:30:00Z\tfinish` without a newline and has the status `finish`;
the appended comment line is glued to that line, and the status becomes
`created`.  (2) With `proj1` checked in, `add_comment` appends a comment of
1005 bytes that ends in `zz\tfinish\tq`; the line is read in pieces of 1023
bytes, the second piece reads as a status line, and the status changes from
`checkin` to `finish`.  (3) The status line of the log has a first token of
31 bytes, so `strncpy` writes no terminator to `timestamp`; with the byte `X`
in `timestamp[31]` the time stamp runs on into `preview`, and it changes when
the comment `hello` is appended. -/
theorem comment_append_changes_status :
    (project_entry zero_junk (sample_state "proj1".toList
        ("2025-06-01T09:00:00Z\tcreated\t\n".toList ++ "2025-06-01T09:30:00Z\tfinish".toList)
        none []) "proj1".toList).last_action = "finish".toList ∧
    (project_entry zero_junk (sample_state "proj1".toList
        ("2025-06-01T09:00:00Z\tcreated\t\n".toList ++ "2025-06-01T09:30:00Z\tfinish".toList ++
          "2025-06-01T10:00:00Z\tcomment\thello\n".toList)
        none []) "proj1".toList).last_action = "created".toList ∧
    (project_entry zero_junk (sample_state "proj1".toList
        ("2025-06-01T09:00:00Z\tcreated\t\n".toList ++ "2025-06-01T09:01:00Z\tcheckin\t\n".toList)
        (some "proj1\n".toList) "proj1".toList) "proj1".toList).last_action =
      "checkin".toList ∧
    (add_comment (typed_env (List.replicate 994 'a' ++ "zz\tfinish\tq".toList))
      (sample_state "proj1".toList
        ("2025-06-01T09:00:00Z\tcreated\t\n".toList ++ "2025-06-01T09:01:00Z\tcheckin\t\n".toList)
        (some "proj1\n".toList) "proj1".toList)).data "proj1".toList =
      some ("2025-06-01T09:00:00Z\tcreated\t\n".toList ++
        "2025-06-01T09:01:00Z\tcheckin\t\n".toList ++
        ("2025-06-01T10:00:00Z\tcomment\t".toList ++ List.replicate 994 'a' ++
          "zz\tfinish\tq\n".toList)) ∧
    (project_entry zero_junk
      (add_comment (typed_env (List.replicate 994 'a' ++ "zz\tfinish\tq".toList))
        (sample_state "proj1".toList
          ("2025-06-01T09:00:00Z\tcreated\t\n".toList ++
            "2025-06-01T09:01:00Z\tcheckin\t\n".toList)
          (some "proj1\n".toList) "proj1".toList)) "proj1".toList).last_action =
      "finish".toList ∧
    (project_entry used_junk (sample_state "proj1".toList
        "2025-06-01T09:30:00Z-0123456789\tfinish\t\n".toList none []) "proj1".toList).timestamp =
      "2025-06-01T09:30:00Z-0123456789X".toList ∧
    (project_entry used_junk (sample_state "proj1".toList
        ("2025-06-01T09:30:00Z-0123456789\tfinish\t\n".toList ++
          "2025-06-01T10:00:00Z\tcomment\thello\n".toList)
        none []) "proj1".toList).timestamp =
      "2025-06-01T09:30:00Z-0123456789Xhello".toList :=
  ⟨by decide, by decide, by decide, by decide, by decide, by decide, by decide⟩

/-- C18 as amended: for every log and whatever the unwritten bytes of the
array are, the status that `build_project_list` computes is the kind of the
last line (as one `fgets` call reads it, at most 1023 bytes) whose kind
(second token) is one of `created`, `checkin`, `checkout`, `finish`,
`cancel`; the status is `created` when the log has no such line or cannot be
opened.  The time stamp is the first token of the same line when that token
has fewer than 31 bytes; a longer token is cut to 31 bytes without a
terminator and the string runs on into `preview`.  For a log of well-formed
lines the status is the kind of the last event that is not a Comment.
Appending a comment line does not change the derived status, and does not
change the derived time stamp when the time stamp of the last status line has
fewer than 31 bytes: in the scan of the lines, and for a log file that is
empty or ends in a newline when the line of a well-formed Comment event (a
line that fits in one read) is appended to it. -/
theorem derived_status (j : Junk) (w : State) (id : CStr) :
    (∀ file : List Char, w.data id = some file →
      (project_entry j w id).last_action =
        (match ((read_lines MAX_LINE file).filterMap status_fields).getLast? with
          | some f => f.1
          | none => "created".toList) ∧
      (project_entry j w id).timestamp =
        (match ((read_lines MAX_LINE file).filterMap status_fields).getLast? with
          | some f =>
            if f.2.length < 31 then f.2
            else f.2.take 31 ++ cstr (j.timestamp_31 ::
              ((match ((read_lines MAX_LINE file).filterMap preview_field).getLast? with
                | some m => strncpy_bytes m 63
                | none => ['\x00']) ++ j.after))
          | none => "0000-00-00T00:00:00".toList)) ∧
    (w.data id = none → (project_entry j w id).last_action = "created".toList) ∧
    (∀ rows : List Row, (∀ r ∈ rows, r.well_formed) → w.data id = some (render_log rows) →
      (project_entry j w id).last_action =
        (((rows.filter (fun r => decide (r.kind ≠ Kind.Comment))).getLast?.map
          (fun r => r.kind.token)).getD "created".toList)) ∧
    (∀ (lines : List CStr) (line ts r rest : CStr) (p : ProjectBytes),
      strtok ['\t'] line = some (ts, r) → strtok ['\t'] r = some ("comment".toList, rest) →
      ('\x00' ∈ (project_scan lines p).last_action →
        (read_entry j (project_scan (lines ++ [line]) p)).last_action =
          (read_entry j (project_scan lines p)).last_action) ∧
      ('\x00' ∈ (project_scan lines p).timestamp →
        (read_entry j (project_scan (lines ++ [line]) p)).timestamp =
          (read_entry j (project_scan lines p)).timestamp)) ∧
    (∀ (file : List Char) (r : Row) (w2 : State),
      (file = [] ∨ file.getLast? = some '\n') → r.well_formed → r.kind = Kind.Comment →
      w.data id = some file → w2.data id = some (file ++ r.line) →
      (project_entry j w2 id).last_action = (project_entry j w id).last_action ∧
      ((∀ f, ((read_lines MAX_LINE file).filterMap status_fields).getLast? = some f →
          f.2.length < 31) →
        (project_entry j w2 id).timestamp = (project_entry j w id).timestamp)) := by
  refine ⟨?_, ?_, ?_, ?_, ?_⟩
  · intro file hfile
    have h := project_entry_status j w id file hfile
    exact ⟨h.1, h.2.1⟩
  · intro hnone
    unfold project_entry
    rw [hnone]
    exact cstr_append_nul "created".toList _ (by decide)
  · intro rows hwf hfile
    rw [(project_entry_status j w id _ hfile).1, read_lines_render_log rows hwf,
      filterMap_status_fields_rows rows hwf, List.getLast?_map]
    cases (rows.filter (fun r => decide (r.kind ≠ Kind.Comment))).getLast? <;> rfl
  · intro lines line ts r rest p h1 h2
    obtain ⟨e1, e2⟩ := project_scan_comment_line lines line ts r rest p h1 h2
    unfold read_entry
    simp only
    rw [e1, e2]
    refine ⟨fun hn => ?_, fun hn => ?_⟩
    · rw [cstr_mem_nul _ _ hn, cstr_mem_nul _ _ hn]
    · rw [cstr_mem_nul _ _ hn, cstr_mem_nul _ _ hn]
  · intro file r w2 hend hwf hk hfile hfile2
    have hr : read_lines MAX_LINE r.line = [r.line] := by
      have := read_lines_render_log [r] (fun x hx => by
        rw [List.mem_singleton] at hx
        rw [hx]
        exact hwf)
      simpa [render_log] using this
    have hlines : read_lines MAX_LINE (file ++ r.line) =
        read_lines MAX_LINE file ++ [r.line] := by
      rw [read_lines_append MAX_LINE (by decide) _ _ _ (le_refl _) hend, hr]
    have hsf : status_fields r.line = none := by
      rw [(status_fields_row r hwf).1, if_pos hk]
    have hlast : ((read_lines MAX_LINE (file ++ r.line)).filterMap status_fields).getLast? =
        ((read_lines MAX_LINE file).filterMap status_fields).getLast? := by
      rw [hlines, getLast?_filterMap_concat, hsf]
    have h1 := project_entry_status j w id file hfile
    have h2 := project_entry_status j w2 id _ hfile2
    rw [hlast] at h2
    refine ⟨by rw [h1.1, h2.1], ?_⟩
    intro hshort
    rw [h1.2.1, h2.2.1]
    cases hf : ((read_lines MAX_LINE file).filterMap status_fields).getLast? with
    | none => rfl
    | some f =>
      simp only
      rw [if_pos (hshort f hf), if_pos (hshort f hf)]

set_option maxRecDepth 100000 in
/-- C18 as amended, at a concrete input: a log that ends with a check-out
and a comment has the status `checkout`. -/
theorem derived_status_witness :
    (project_entry used_junk (sample_state "proj1".toList
        ("2025-06-01T09:00:00Z\tcreated\t\n".toList ++
          "2025-06-01T09:01:00Z\tcheckin\t\n".toList ++
          "2025-06-01T09:30:00Z\tcheckout\t\n".toList ++
          "2025-06-01T09:31:00Z\tcomment\tdone\n".toList)
        none []) "proj1".toList).last_action = "checkout".toList :=
  ((derived_status used_junk (sample_state "proj1".toList
      ("2025-06-01T09:00:00Z\tcreated\t\n".toList ++
        "2025-06-01T09:01:00Z\tcheckin\t\n".toList ++
        "2025-06-01T09:30:00Z\tcheckout\t\n".toList ++
        "2025-06-01T09:31:00Z\tcomment\tdone\n".toList)
      none []) "proj1".toList).1
    ("2025-06-01T09:00:00Z\tcreated\t\n".toList ++
      "2025-06-01T09:01:00Z\tcheckin\t\n".toList ++
      "2025-06-01T09:30:00Z\tcheckout\t\n".toList ++
      "2025-06-01T09:31:00Z\tcomment\tdone\n".toList) (by decide)).1

/-! ## C19: the derived last comment -/

theorem strcmp_swap : ∀ a b : CStr, strcmp a b = -strcmp b a := by
  intro a
  induction a with
  | nil => intro b; cases b <;> simp [strcmp]
  | cons x xs ih =>
    intro b
    cases b with
    | nil => simp [strcmp]
    | cons y ys =>
      simp only [strcmp]
      by_cases h1 : x.toNat < y.toNat
      · have h2 : ¬(y.toNat < x.toNat) := by omega
        simp [h1, h2]
      · by_cases h2 : y.toNat < x.toNat
        · simp [h1, h2]
        · simp [h1, h2, ih ys]

/-- The entries at the visible indexes are the entries that match, in the
order of the array. -/
theorem visible_loop_entries (want : CStr) :
    ∀ (out pre : List ProjectInfo),
      (visible_loop want out pre.length).filterMap (fun i => (pre ++ out).get? i) =
        out.filter (fun p => is_status_match p.last_action want) := by
  intro out
  induction out with
  | nil => intro pre; rfl
  | cons p rest ih =>
    intro pre
    have ih2 := ih (pre ++ [p])
    rw [List.length_append, List.length_singleton, List.append_assoc,
      List.singleton_append] at ih2
    have hget : (pre ++ p :: rest).get? pre.length = some p := by
      rw [List.get?_eq_getElem?, List.getElem?_append_right (le_refl _)]
      simp
    simp only [visible_loop]
    cases hm : is_status_match p.last_action want
    · simp only [Bool.false_eq_true, if_false, List.filter_cons, hm]
      exact ih2
    · simp only [if_true, List.filterMap_cons, hget, List.filter_cons, hm]
      rw [ih2]

/-- The visible indexes increase and stay inside the array. -/
theorem visible_loop_bounds (want : CStr) :
    ∀ (out : List ProjectInfo) (i : Nat),
      (∀ j ∈ visible_loop want out i, i ≤ j ∧ j < i + out.length) ∧
      (visible_loop want out i).Pairwise (fun a b => a < b) := by
  intro out
  induction out with
  | nil => intro i; simp [visible_loop]
  | cons p rest ih =>
    intro i
    obtain ⟨hb, hp⟩ := ih (i + 1)
    simp only [visible_loop]
    by_cases hm : is_status_match p.last_action want = true
    · rw [if_pos hm]
      constructor
      · intro j hj
        rcases List.mem_cons.1 hj with h | h
        · subst h
          simp
        · have := hb j h
          simp only [List.length_cons]
          omega
      · rw [List.pairwise_cons]
        refine ⟨fun j hj => ?_, hp⟩
        have := hb j hj
        omega
    · rw [if_neg hm]
      constructor
      · intro j hj
        have := hb j hj
        simp only [List.length_cons]
        omega
      · exact hp

theorem visible_loop_all :
    ∀ (out : List ProjectInfo) (i : Nat),
      visible_loop "all".toList out i = List.range' i out.length := by
  intro out
  induction out with
  | nil => intro i; rfl
  | cons p rest ih =>
    intro i
    have hm : is_status_match p.last_action "all".toList = true := by
      simp [is_status_match]
    simp only [visible_loop, if_pos hm, ih, List.length_cons, List.range'_succ]

theorem is_status_match_eq (status want : CStr) (h : want ≠ "all".toList) :
    is_status_match status want = decide (status = want) := by
  unfold is_status_match
  rw [if_neg h]
  by_cases hc : want = "created".toList
  · rw [if_pos hc, hc]
  · rw [if_neg hc]

theorem project_entry_id (j : Junk) (w : State) (id : CStr) :
    (project_entry j w id).id = id := by
  unfold project_entry
  cases w.data id with
  | none => rfl
  | some file =>
    simp only
    rw [project_scan_eq]
    rfl

/-- Every collected entry is the derived entry of a project whose id comes
from a directory entry. -/
theorem collect_projects_mem (junk : Nat → Junk) (w : State) :
    ∀ (dirents : List CStr) (acc : List ProjectInfo) (p : ProjectInfo),
      p ∈ collect_projects junk w dirents acc →
      p ∈ acc ∨ ∃ d ∈ dirents, entry_id d = some p.id ∧
        ∃ k, p = project_entry (junk k) w p.id := by
  intro dirents
  induction dirents with
  | nil => intro acc p hp; exact Or.inl hp
  | cons d rest ih =>
    intro acc p hp
    simp only [collect_projects] at hp
    cases hid : entry_id d with
    | none =>
      rw [hid] at hp
      rcases ih acc p hp with h | ⟨d2, hd2, h⟩
      · exact Or.inl h
      · exact Or.inr ⟨d2, by simp [hd2], h⟩
    | some id =>
      rw [hid] at hp
      simp only at hp
      have hnew : ∀ q, q ∈ acc ++ [project_entry (junk acc.length) w id] →
          q ∈ acc ∨ ∃ d2 ∈ d :: rest, entry_id d2 = some q.id ∧
            ∃ k, q = project_entry (junk k) w q.id := by
        intro q hq
        rcases List.mem_append.1 hq with h | h
        · exact Or.inl h
        · rw [List.mem_singleton] at h
          refine Or.inr ⟨d, by simp, ?_, acc.length, ?_⟩
          · rw [h, project_entry_id, hid]
          · rw [h, project_entry_id]
      by_cases hfull : acc.length + 1 ≥ MAX_PROJECTS
      · rw [if_pos hfull] at hp
        exact hnew p hp
      · rw [if_neg hfull] at hp
        rcases ih _ p hp with h | ⟨d2, hd2, h⟩
        · exact hnew p h
        · exact Or.inr ⟨d2, by simp [hd2], h⟩

/-! ## C20: the visible list of `build_project_list` -/

/-- C20: for every data directory and every filter, whatever the unwritten
bytes of the array are, with `qsort` returning the entries rearranged in the
order of `compare_projects`: the index `out` holds the collected projects,
each with the status, time stamp and preview derived from its log, in
descending order of their time stamp under byte-wise comparison; the visible indexes increase strictly and stay inside
the index, so no entry is listed twice; with the filters Finished, Canceled
and Created the visible entries are exactly the entries of the index whose
derived status is `finish`, `cancel`, `created`, in the order of the index,
hence also in descending order of the time stamp; with any other filter
(All) the visible list is the whole index. -/
theorem visible_list_filter
    (qsort : (ProjectInfo → ProjectInfo → Int) → List ProjectInfo → List ProjectInfo)
    (junk : Nat → Junk) (dirents : List CStr) (sel_filter : Nat) (w : State)
    (hperm : (qsort compare_projects (collect_projects junk w dirents [])).Perm
      (collect_projects junk w dirents []))
    (hsorted : (qsort compare_projects (collect_projects junk w dirents [])).Pairwise
      (fun a b => compare_projects a b ≤ 0)) :
    (build_project_list qsort junk dirents sel_filter w).1.Perm (collect_projects junk w dirents []) ∧
    (∀ p ∈ (build_project_list qsort junk dirents sel_filter w).1,
      ∃ d ∈ dirents, entry_id d = some p.id ∧ ∃ k, p = project_entry (junk k) w p.id) ∧
    (build_project_list qsort junk dirents sel_filter w).1.Pairwise
      (fun a b => 0 ≤ strcmp a.timestamp b.timestamp) ∧
    (build_project_list qsort junk dirents sel_filter w).2.Pairwise (fun i j => i < j) ∧
    (∀ i ∈ (build_project_list qsort junk dirents sel_filter w).2,
      i < (build_project_list qsort junk dirents sel_filter w).1.length) ∧
    (sel_filter = FLT_FINISH →
      (build_project_list qsort junk dirents sel_filter w).2.filterMap
          (fun i => (build_project_list qsort junk dirents sel_filter w).1.get? i) =
        (build_project_list qsort junk dirents sel_filter w).1.filter
          (fun p => decide (p.last_action = "finish".toList))) ∧
    (sel_filter = FLT_CANCEL →
      (build_project_list qsort junk dirents sel_filter w).2.filterMap
          (fun i => (build_project_list qsort junk dirents sel_filter w).1.get? i) =
        (build_project_list qsort junk dirents sel_filter w).1.filter
          (fun p => decide (p.last_action = "cancel".toList))) ∧
    (sel_filter = FLT_STARTED →
      (build_project_list qsort junk dirents sel_filter w).2.filterMap
          (fun i => (build_project_list qsort junk dirents sel_filter w).1.get? i) =
        (build_project_list qsort junk dirents sel_filter w).1.filter
          (fun p => decide (p.last_action = "created".toList))) ∧
    ((build_project_list qsort junk dirents sel_filter w).2.filterMap
        (fun i => (build_project_list qsort junk dirents sel_filter w).1.get? i)).Pairwise
      (fun a b => 0 ≤ strcmp a.timestamp b.timestamp) ∧
    (sel_filter ≠ FLT_FINISH → sel_filter ≠ FLT_CANCEL → sel_filter ≠ FLT_STARTED →
      (build_project_list qsort junk dirents sel_filter w).2 =
        List.range (build_project_list qsort junk dirents sel_filter w).1.length) := by
  have hdesc : (qsort compare_projects (collect_projects junk w dirents [])).Pairwise
      (fun a b => 0 ≤ strcmp a.timestamp b.timestamp) := by
    refine hsorted.imp ?_
    intro a b hab
    unfold compare_projects at hab
    rw [strcmp_swap]
    omega
  have hent := fun want =>
    visible_loop_entries want (qsort compare_projects (collect_projects junk w dirents [])) []
  simp only [List.length_nil, List.nil_append] at hent
  have hbound := fun want =>
    visible_loop_bounds want (qsort compare_projects (collect_projects junk w dirents [])) 0
  simp only [build_project_list]
  refine ⟨hperm, ?_, hdesc, (hbound _).2, ?_, ?_, ?_, ?_, ?_, ?_⟩
  · intro p hp
    rcases collect_projects_mem junk w dirents [] p (hperm.subset hp) with h | h
    · cases h
    · exact h
  · intro i hi
    have := (hbound _).1 i hi
    omega
  · intro hf
    rw [hent]
    congr 1
    funext p
    rw [hf]
    exact is_status_match_eq _ _ (by decide)
  · intro hf
    rw [hent]
    congr 1
    funext p
    rw [hf]
    exact is_status_match_eq _ _ (by decide)
  · intro hf
    rw [hent]
    congr 1
    funext p
    rw [hf]
    exact is_status_match_eq _ _ (by decide)
  · rw [hent]
    exact hdesc.sublist (List.filter_sublist _)
  · intro h1 h2 h3
    have hw : wanted_status sel_filter = "all".toList := by
      simp only [wanted_status, if_neg h1, if_neg h2, if_neg h3]
    rw [hw, visible_loop_all, List.range_eq_range']

set_option maxRecDepth 100000 in
/-- C20 at a concrete input: of the projects `alpha` (finished 09:30),
`beta` (checked in) and `gamma` (finished 09:50) the filter Finished shows
the entries of the index with the status `finish`, which are `gamma` and then
`alpha`. -/
theorem visible_list_filter_witness :
    (build_project_list sample_qsort sample_junk sample_dirents FLT_FINISH sample_dir).2.filterMap
        (fun i => (build_project_list sample_qsort sample_junk sample_dirents FLT_FINISH
          sample_dir).1.get? i) =
      (build_project_list sample_qsort sample_junk sample_dirents FLT_FINISH sample_dir).1.filter
        (fun p => decide (p.last_action = "finish".toList)) ∧
    ((build_project_list sample_qsort sample_junk sample_dirents FLT_FINISH sample_dir).1.filter
        (fun p => decide (p.last_action = "finish".toList))).map (fun p => p.id) =
      ["gamma".toList, "alpha".toList] :=
  ⟨(visible_list_filter sample_qsort sample_junk sample_dirents FLT_FINISH sample_dir
    (by decide) (by decide)).2.2.2.2.2.1 rfl, by decide⟩

/-! ## Facts about the pieces of a file -/

theorem read_lines_fuel_eq_map (n : Nat) :
    ∀ (fuel : Nat) (file : List Char),
      read_lines_fuel n fuel file = (raw_lines_fuel n fuel file).map cstr := by
  intro fuel
  induction fuel with
  | zero => intro file; rfl
  | succ k ih =>
    intro file
    cases file with
    | nil => rfl
    | cons c cs => simp only [read_lines_fuel, fgets, raw_lines_fuel, List.map_cons, ih]

/-- The lines of a file are its pieces read as C strings. -/
theorem read_lines_eq_map (n : Nat) (file : List Char) :
    read_lines n file = (raw_lines n file).map cstr :=
  read_lines_fuel_eq_map n file.length file

theorem raw_lines_fuel_enough (n : Nat) (hn : 2 ≤ n) :
    ∀ (fuel1 fuel2 : Nat) (file : List Char), file.length ≤ fuel1 → file.length ≤ fuel2 →
      raw_lines_fuel n fuel1 file = raw_lines_fuel n fuel2 file := by
  intro fuel1
  induction fuel1 with
  | zero =>
    intro fuel2 file h1 _
    have hnil : file = [] := List.eq_nil_of_length_eq_zero (by omega)
    subst hnil
    cases fuel2 <;> rfl
  | succ k ih =>
    intro fuel2 file h1 h2
    cases file with
    | nil => cases fuel2 <;> rfl
    | cons c cs =>
      obtain ⟨j, rfl⟩ : ∃ j, fuel2 = j + 1 := ⟨fuel2 - 1, by simp at h2; omega⟩
      have hlt := fgets_take_rest_length (c :: cs) (n - 1) (by omega) (by simp)
      simp only [raw_lines_fuel]
      rw [ih j _ (by omega) (by omega)]

theorem raw_lines_nil (n : Nat) : raw_lines n [] = [] := rfl

theorem raw_lines_cons (n : Nat) (hn : 2 ≤ n) (file : List Char) (hfile : file ≠ []) :
    raw_lines n file =
      (fgets_take (n - 1) file).1 :: raw_lines n (fgets_take (n - 1) file).2 := by
  cases file with
  | nil => exact absurd rfl hfile
  | cons c cs =>
    have hlt := fgets_take_rest_length (c :: cs) (n - 1) (by omega) (by simp)
    unfold raw_lines
    simp only [List.length_cons, raw_lines_fuel]
    rw [raw_lines_fuel_enough n hn cs.length (fgets_take (n - 1) (c :: cs)).2.length _
      (by simp only [List.length_cons] at hlt; omega) (le_refl _)]

theorem fgets_take_short :
    ∀ (l : List Char) (room : Nat), '\n' ∉ l → l.length ≤ room →
      fgets_take room l = (l, []) := by
  intro l
  induction l with
  | nil => intro room _ _; cases room <;> rfl
  | cons c cs ih =>
    intro room hnl hlen
    obtain ⟨k, rfl⟩ : ∃ k, room = k + 1 := ⟨room - 1, by simp at hlen; omega⟩
    have hc : c ≠ '\n' := fun h => hnl (by simp [h])
    have hcs : '\n' ∉ cs := fun h => hnl (by simp [h])
    simp [fgets_take, hc, ih k hcs (by simp at hlen; omega)]

theorem piece_full_ne_nil (room : Nat) (hroom : 1 ≤ room) (c : List Char)
    (h : piece_full room c) : c ≠ [] := by
  rcases h with ⟨hlen, _⟩ | ⟨l, hl, _, _⟩
  · intro hc
    rw [hc] at hlen
    simp at hlen
    omega
  · rw [hl]
    simp

/-- One `fgets` call on a full piece followed by more text reads the piece. -/
theorem fgets_take_piece (room : Nat) (c rest : List Char) (h : piece_full room c) :
    fgets_take room (c ++ rest) = (c, rest) := by
  rcases h with ⟨hlen, hnl⟩ | ⟨l, hl, hnl, hlen⟩
  · rw [← hlen]
    exact fgets_take_full rest c hnl
  · rw [hl, List.append_assoc, List.singleton_append]
    exact fgets_take_line rest l room hnl hlen

/-- The piece that one `fgets` call reads is full, or it ends the file. -/
theorem fgets_take_shape :
    ∀ (l : List Char) (room : Nat), 1 ≤ room → l ≠ [] →
      piece_full room (fgets_take room l).1 ∨
        ((fgets_take room l).2 = [] ∧ piece_last room (fgets_take room l).1) := by
  intro l
  induction l with
  | nil => intro room _ h; exact absurd rfl h
  | cons c cs ih =>
    intro room hroom _
    obtain ⟨k, rfl⟩ : ∃ k, room = k + 1 := ⟨room - 1, by omega⟩
    by_cases hc : c = '\n'
    · left
      right
      refine ⟨[], ?_, by simp, by simp⟩
      simp [fgets_take, hc]
    · simp only [fgets_take, if_neg hc]
      cases k with
      | zero =>
        left
        left
        simp [fgets_take, hc, Ne.symm hc]
      | succ j =>
        cases cs with
        | nil =>
          right
          simp [fgets_take, piece_last, hc, Ne.symm hc]
        | cons d ds =>
          rcases ih (j + 1) (by omega) (by simp) with hfull | ⟨hrest, hlast⟩
          · left
            rcases hfull with ⟨hlen, hnl⟩ | ⟨l, hl, hnl, hlen⟩
            · left
              refine ⟨by simp [hlen], ?_⟩
              simp only [List.mem_cons, not_or]
              exact ⟨fun h => hc h.symm, hnl⟩
            · right
              refine ⟨c :: l, by rw [hl]; rfl, ?_, by simp; omega⟩
              simp only [List.mem_cons, not_or]
              exact ⟨fun h => hc h.symm, hnl⟩
          · right
            refine ⟨hrest, by simp, ?_, ?_⟩
            · have := hlast.2.1
              simp only [List.length_cons]
              omega
            · simp only [List.mem_cons, not_or]
              exact ⟨fun h => hc h.symm, hlast.2.2⟩

/-- The pieces of a file have the shape `pieces_ok`. -/
theorem raw_lines_pieces_ok (n : Nat) (hn : 2 ≤ n) :
    ∀ (k : Nat) (file : List Char), file.length ≤ k → pieces_ok (n - 1) (raw_lines n file) := by
  intro k
  induction k with
  | zero =>
    intro file hk
    have hnil : file = [] := List.eq_nil_of_length_eq_zero (by omega)
    subst hnil
    exact trivial
  | succ k ih =>
    intro file hk
    by_cases hfile : file = []
    · subst hfile; exact trivial
    · rw [raw_lines_cons n hn file hfile]
      have hlt := fgets_take_rest_length file (n - 1) (by omega) hfile
      refine ⟨?_, ih _ (by omega)⟩
      rcases fgets_take_shape file (n - 1) (by omega) hfile with h | ⟨hrest, hlast⟩
      · exact Or.inl h
      · right
        rw [hrest]
        exact ⟨rfl, hlast⟩

/-- Pieces of the shape `pieces_ok`, written one after the other, are read
back as the same pieces. -/
theorem raw_lines_flatten (n : Nat) (hn : 2 ≤ n) :
    ∀ cs : List (List Char), pieces_ok (n - 1) cs → raw_lines n cs.flatten = cs := by
  intro cs
  induction cs with
  | nil => intro _; rfl
  | cons c rest ih =>
    intro hok
    obtain ⟨hc, hrest⟩ := hok
    rcases hc with hfull | ⟨hnil, hlast⟩
    · have hne : c ++ rest.flatten ≠ [] := by
        have := piece_full_ne_nil (n - 1) (by omega) c hfull
        simp [this]
      rw [List.flatten_cons, raw_lines_cons n hn _ hne, fgets_take_piece _ _ _ hfull]
      simp only
      rw [ih hrest]
    · subst hnil
      have hne : c ≠ [] := hlast.1
      simp only [List.flatten_cons, List.flatten_nil, List.append_nil]
      rw [raw_lines_cons n hn _ hne, fgets_take_short c (n - 1) hlast.2.2 hlast.2.1]
      rfl

theorem pieces_ok_filter (room : Nat) (q : List Char → Bool) :
    ∀ cs : List (List Char), pieces_ok room cs → pieces_ok room (cs.filter q) := by
  intro cs
  induction cs with
  | nil => intro _; exact trivial
  | cons c rest ih =>
    intro hok
    obtain ⟨hc, hrest⟩ := hok
    cases hq : q c
    · rw [List.filter_cons_of_neg (by simp [hq])]
      exact ih hrest
    · rw [List.filter_cons_of_pos hq]
      refine ⟨?_, ih hrest⟩
      rcases hc with hfull | ⟨hnil, hlast⟩
      · exact Or.inl hfull
      · right
        subst hnil
        exact ⟨rfl, hlast⟩

theorem status_fields_two_tokens (line : CStr) (h : two_tokens line = false) :
    status_fields line = none ∧ preview_field line = none := by
  unfold status_fields preview_field
  rcases h1 : strtok ['\t'] line with _ | ⟨ts, r⟩
  · exact ⟨rfl, rfl⟩
  · rcases h2 : strtok ['\t'] (strtok_rest (some (ts, r))) with _ | ⟨act, r'⟩
    · exact ⟨rfl, rfl⟩
    · simp [two_tokens, h1, h2] at h

theorem save_active_project_fields (id : Option CStr) (w : State) :
    (save_active_project id w).data = w.data ∧
    (save_active_project id w).archived = w.archived ∧
    (save_active_project id w).lock = w.lock ∧
    (save_active_project id w).active_id = w.active_id := by
  unfold save_active_project
  split
  · exact ⟨rfl, rfl, rfl, rfl⟩
  · split <;> exact ⟨rfl, rfl, rfl, rfl⟩

theorem lock_read_save_active_project (n : Nat) (id : Option CStr) (w : State) :
    lock_read n (save_active_project id w) = lock_read n w := by
  unfold lock_read
  rw [(save_active_project_fields id w).2.2.1]

theorem rename_to_archive_fields (id : CStr) (w : State) :
    (rename_to_archive id w).data = (fun k => if k = id then none else w.data k) ∧
    (rename_to_archive id w).lock = w.lock ∧
    (rename_to_archive id w).active_id = w.active_id ∧
    (∀ file, w.data id = some file → (rename_to_archive id w).archived id = some file) := by
  unfold rename_to_archive
  cases h : w.data id with
  | none =>
    refine ⟨?_, rfl, rfl, fun file hf => by cases hf⟩
    funext k
    by_cases hk : k = id
    · rw [if_pos hk, hk]; exact h
    · rw [if_neg hk]
  | some file =>
    refine ⟨rfl, rfl, rfl, ?_⟩
    intro file2 hf
    cases hf
    simp

theorem unlink_log_fields (id : CStr) (w : State) :
    (unlink_log id w).data = (fun k => if k = id then none else w.data k) ∧
    (unlink_log id w).lock = w.lock ∧
    (unlink_log id w).active_id = w.active_id ∧
    (unlink_log id w).archived = w.archived :=
  ⟨rfl, rfl, rfl, rfl⟩

theorem entry_id_valid (d id : CStr) (h : entry_id d = some id) : valid_id id = true := by
  unfold entry_id at h
  by_cases h1 : (!strstr d ".log".toList) = true
  · rw [if_pos h1] at h; cases h
  · rw [if_neg h1] at h
    cases h2 : strrchr_offset '.' d with
    | none => rw [h2] at h; cases h
    | some len =>
      rw [h2] at h
      simp only at h
      by_cases h3 : valid_id (d.take (if len ≥ 128 then 127 else len)) = true
      · rw [if_pos h3] at h
        cases h
        exact h3
      · rw [if_neg h3] at h; cases h

/-- The entry that the list view acts on comes from a name that `readdir`
returned, and is the entry derived for its id. -/
theorem selected_project_listed
    (qsort : (ProjectInfo → ProjectInfo → Int) → List ProjectInfo → List ProjectInfo)
    (hperm : ∀ cmp l, (qsort cmp l).Perm l) (junk : Nat → Junk)
    (dirents : List CStr) (sel_filter sel : Nat) (w : State) (p : ProjectInfo)
    (hsel : selected_project qsort junk dirents sel_filter sel w = some p) :
    (∃ d ∈ dirents, entry_id d = some p.id) ∧ (∃ k, p = project_entry (junk k) w p.id) ∧
      valid_id p.id = true := by
  unfold selected_project at hsel
  cases hv : (build_project_list qsort junk dirents sel_filter w).2.get? sel with
  | none => rw [hv] at hsel; cases hsel
  | some i =>
    rw [hv] at hsel
    simp only at hsel
    have hmem : p ∈ (build_project_list qsort junk dirents sel_filter w).1 :=
      List.get?_mem hsel
    have hmem2 : p ∈ collect_projects junk w dirents [] :=
      (hperm _ _).subset hmem
    rcases collect_projects_mem junk w dirents [] p hmem2 with h | ⟨d, hd, he, hp⟩
    · cases h
    · exact ⟨⟨d, hd, he⟩, hp, entry_id_valid d p.id he⟩

/-- What the key `A` of the list view does to the files when the user
confirms. -/
theorem list_view_key_archive
    (qsort : (ProjectInfo → ProjectInfo → Int) → List ProjectInfo → List ProjectInfo)
    (junk : Nat → Junk) (dirents : List CStr) (env : Env) (sel_filter sel : Nat) (w : State)
    (p : ProjectInfo)
    (hsel : selected_project qsort junk dirents sel_filter sel w = some p)
    (hans : env.ans = 'y' ∨ env.ans = 'Y') :
    (list_view_key qsort junk dirents env sel_filter sel 'A' w).data =
      (fun k => if k = p.id then none else w.data k) ∧
    (list_view_key qsort junk dirents env sel_filter sel 'A' w).lock =
      (if lock_read 128 w = p.id then none else w.lock) ∧
    (list_view_key qsort junk dirents env sel_filter sel 'A' w).active_id = w.active_id ∧
    (∀ file, w.data p.id = some file →
      (list_view_key qsort junk dirents env sel_filter sel 'A' w).archived p.id = some file) := by
  have hlr : lock_read 128 (rename_to_archive p.id w) = lock_read 128 w := by
    unfold lock_read
    rw [(rename_to_archive_fields p.id w).2.1]
  have hkey : list_view_key qsort junk dirents env sel_filter sel 'A' w =
      (if (if lock_read 128 w = p.id then lock_write none (rename_to_archive p.id w)
            else rename_to_archive p.id w).active_id = p.id then
        save_active_project none
          (if lock_read 128 w = p.id then lock_write none (rename_to_archive p.id w)
            else rename_to_archive p.id w)
      else (if lock_read 128 w = p.id then lock_write none (rename_to_archive p.id w)
            else rename_to_archive p.id w)) := by
    unfold list_view_key
    rw [if_neg (by decide), if_neg (by decide), if_pos rfl, hsel]
    simp only [if_pos hans, hlr]
  obtain ⟨hd, hl, ha, har⟩ := rename_to_archive_fields p.id w
  rw [hkey]
  by_cases hlock : lock_read 128 w = p.id
  · simp only [if_pos hlock]
    split
    · refine ⟨?_, ?_, ?_, ?_⟩
      · rw [(save_active_project_fields _ _).1]; exact hd
      · rw [(save_active_project_fields _ _).2.2.1]; rfl
      · rw [(save_active_project_fields _ _).2.2.2]; exact ha
      · intro file hf
        rw [(save_active_project_fields _ _).2.1]
        exact har file hf
    · exact ⟨hd, rfl, ha, har⟩
  · simp only [if_neg hlock]
    split
    · refine ⟨?_, ?_, ?_, ?_⟩
      · rw [(save_active_project_fields _ _).1]; exact hd
      · rw [(save_active_project_fields _ _).2.2.1]; exact hl
      · rw [(save_active_project_fields _ _).2.2.2]; exact ha
      · intro file hf
        rw [(save_active_project_fields _ _).2.1]
        exact har file hf
    · exact ⟨hd, hl, ha, har⟩

/-- What the key `x` of the list view does to the files when the user
confirms. -/
theorem list_view_key_delete
    (qsort : (ProjectInfo → ProjectInfo → Int) → List ProjectInfo → List ProjectInfo)
    (junk : Nat → Junk) (dirents : List CStr) (env : Env) (sel_filter sel : Nat) (w : State)
    (p : ProjectInfo)
    (hsel : selected_project qsort junk dirents sel_filter sel w = some p)
    (hans : env.ans = 'y' ∨ env.ans = 'Y') :
    (list_view_key qsort junk dirents env sel_filter sel 'x' w).data =
      (fun k => if k = p.id then none else w.data k) ∧
    (list_view_key qsort junk dirents env sel_filter sel 'x' w).lock =
      (if lock_read 128 w = p.id then none else w.lock) ∧
    (list_view_key qsort junk dirents env sel_filter sel 'x' w).active_id = w.active_id ∧
    (list_view_key qsort junk dirents env sel_filter sel 'x' w).archived = w.archived := by
  have hlr : lock_read 128 (unlink_log p.id w) = lock_read 128 w := rfl
  have hkey : list_view_key qsort junk dirents env sel_filter sel 'x' w =
      (if (if lock_read 128 w = p.id then lock_write none (unlink_log p.id w)
            else unlink_log p.id w).active_id = p.id then
        save_active_project none
          (if lock_read 128 w = p.id then lock_write none (unlink_log p.id w)
            else unlink_log p.id w)
      else (if lock_read 128 w = p.id then lock_write none (unlink_log p.id w)
            else unlink_log p.id w)) := by
    unfold list_view_key
    rw [if_neg (by decide), if_neg (by decide), if_neg (by decide), if_pos rfl, hsel]
    simp only [if_pos hans, hlr]
  rw [hkey]
  by_cases hlock : lock_read 128 w = p.id
  · simp only [if_pos hlock]
    split
    · refine ⟨?_, ?_, ?_, ?_⟩
      · rw [(save_active_project_fields _ _).1]; rfl
      · rw [(save_active_project_fields _ _).2.2.1]; rfl
      · rw [(save_active_project_fields _ _).2.2.2]; rfl
      · rw [(save_active_project_fields _ _).2.1]; rfl
    · exact ⟨rfl, rfl, rfl, rfl⟩
  · simp only [if_neg hlock]
    split
    · refine ⟨?_, ?_, ?_, ?_⟩
      · rw [(save_active_project_fields _ _).1]; rfl
      · rw [(save_active_project_fields _ _).2.2.1]; rfl
      · rw [(save_active_project_fields _ _).2.2.2]; rfl
      · rw [(save_active_project_fields _ _).2.1]; rfl
    · exact ⟨rfl, rfl, rfl, rfl⟩

theorem entry_id_length (d id : CStr) (h : entry_id d = some id) : id.length ≤ 127 := by
  unfold entry_id at h
  by_cases h1 : (!strstr d ".log".toList) = true
  · rw [if_pos h1] at h; cases h
  · rw [if_neg h1] at h
    cases h2 : strrchr_offset '.' d with
    | none => rw [h2] at h; cases h
    | some len =>
      rw [h2] at h
      simp only at h
      by_cases h3 : valid_id (d.take (if len ≥ 128 then 127 else len)) = true
      · rw [if_pos h3] at h
        cases h
        rw [List.length_take]
        split <;> omega
      · rw [if_neg h3] at h; cases h

/-! ## C21: archiving and deleting a project -/

/-- C21: when the list view archives (key `A`) or permanently deletes (key
`x`) the selected project `p.id` and the user confirms, the log of `p.id` is
absent from `DATA_DIR` afterwards, the other logs are as before, and for the
archive the content of the log is present under `ARCHIVE_DIR`.  If `lock_read`
gave `p.id` before the operation (as it does for a lock file that the check-in
of `p.id` wrote, when `p.id` does not end in white space), the lock file is
removed and `lock_read` gives the empty string; if `lock_read` gave the empty
string or another id, the lock file is unchanged. -/
theorem archive_delete_clears_lock
    (qsort : (ProjectInfo → ProjectInfo → Int) → List ProjectInfo → List ProjectInfo)
    (junk : Nat → Junk) (dirents : List CStr) (env : Env) (sel_filter sel : Nat) (w : State)
    (p : ProjectInfo)
    (hperm : ∀ cmp l, (qsort cmp l).Perm l)
    (hsel : selected_project qsort junk dirents sel_filter sel w = some p)
    (hans : env.ans = 'y' ∨ env.ans = 'Y') :
    ((list_view_key qsort junk dirents env sel_filter sel 'A' w).data p.id = none ∧
      (∀ file, w.data p.id = some file →
        (list_view_key qsort junk dirents env sel_filter sel 'A' w).archived p.id = some file) ∧
      (∀ k, k ≠ p.id →
        (list_view_key qsort junk dirents env sel_filter sel 'A' w).data k = w.data k) ∧
      (lock_read 128 w = p.id →
        (list_view_key qsort junk dirents env sel_filter sel 'A' w).lock = none ∧
        lock_read 128 (list_view_key qsort junk dirents env sel_filter sel 'A' w) = []) ∧
      (lock_read 128 w = [] ∨ lock_read 128 w ≠ p.id →
        (list_view_key qsort junk dirents env sel_filter sel 'A' w).lock = w.lock)) ∧
    ((list_view_key qsort junk dirents env sel_filter sel 'x' w).data p.id = none ∧
      (list_view_key qsort junk dirents env sel_filter sel 'x' w).archived = w.archived ∧
      (∀ k, k ≠ p.id →
        (list_view_key qsort junk dirents env sel_filter sel 'x' w).data k = w.data k) ∧
      (lock_read 128 w = p.id →
        (list_view_key qsort junk dirents env sel_filter sel 'x' w).lock = none ∧
        lock_read 128 (list_view_key qsort junk dirents env sel_filter sel 'x' w) = []) ∧
      (lock_read 128 w = [] ∨ lock_read 128 w ≠ p.id →
        (list_view_key qsort junk dirents env sel_filter sel 'x' w).lock = w.lock)) ∧
    (w.lock = some (p.id ++ ['\n']) → (∀ c, p.id.getLast? = some c → isspace c = false) →
      lock_read 128 w = p.id) := by
  obtain ⟨⟨d, _, hd⟩, _, hvalid⟩ := selected_project_listed qsort hperm junk dirents sel_filter sel w p hsel
  have hne : p.id ≠ [] := (valid_id_mem p.id hvalid).1
  have hdiff : lock_read 128 w = [] ∨ lock_read 128 w ≠ p.id → lock_read 128 w ≠ p.id := by
    rintro (h | h)
    · rw [h]; exact fun e => hne e.symm
    · exact h
  obtain ⟨ha1, ha2, _, ha4⟩ := list_view_key_archive qsort junk dirents env sel_filter sel w p hsel hans
  obtain ⟨hx1, hx2, _, hx4⟩ := list_view_key_delete qsort junk dirents env sel_filter sel w p hsel hans
  refine ⟨⟨?_, ha4, ?_, ?_, ?_⟩, ⟨?_, hx4, ?_, ?_, ?_⟩, ?_⟩
  · rw [ha1]; simp
  · intro k hk; rw [ha1]; simp [hk]
  · intro hl
    have hnone : (list_view_key qsort junk dirents env sel_filter sel 'A' w).lock = none := by
      rw [ha2, if_pos hl]
    refine ⟨hnone, ?_⟩
    unfold lock_read
    rw [hnone]
  · intro hl
    rw [ha2, if_neg (hdiff hl)]
  · rw [hx1]; simp
  · intro k hk; rw [hx1]; simp [hk]
  · intro hl
    have hnone : (list_view_key qsort junk dirents env sel_filter sel 'x' w).lock = none := by
      rw [hx2, if_pos hl]
    refine ⟨hnone, ?_⟩
    unfold lock_read
    rw [hnone]
  · intro hl
    rw [hx2, if_neg (hdiff hl)]
  · intro hw hlast
    obtain ⟨_, hnl, hnul⟩ := valid_id_mem p.id hvalid
    cases hx : p.id.getLast? with
    | none =>
      rw [List.getLast?_eq_none_iff] at hx
      exact absurd hx hne
    | some x =>
      exact lock_read_after_write p.id x w hnl hnul (entry_id_length d p.id hd) hx (hlast x hx) hw

set_option maxRecDepth 100000 in
/-- C21 at a concrete input: in `sample_dir` the project `beta` holds the
lock and is the second entry of the list.  After the key `A` its log is under
`ARCHIVE_DIR` and not under `DATA_DIR`, and the lock file is gone; after the
key `x` its log is not under `DATA_DIR` and the lock file is gone. -/
theorem archive_delete_clears_lock_witness :
    selected_project sample_qsort sample_junk sample_dirents 0 1 sample_dir =
      some ⟨"beta".toList, "checkin".toList, "2025-06-01T09:40:00Z".toList, []⟩ ∧
    lock_read 128 sample_dir = "beta".toList ∧
    (list_view_key sample_qsort sample_junk sample_dirents (typed_env []) 0 1 'A' sample_dir).data
      "beta".toList = none ∧
    (list_view_key sample_qsort sample_junk sample_dirents (typed_env []) 0 1 'A' sample_dir).archived
      "beta".toList =
      some ("2025-06-01T09:10:00Z\tcreated\t\n".toList ++
        "2025-06-01T09:40:00Z\tcheckin\t\n".toList) ∧
    (list_view_key sample_qsort sample_junk sample_dirents (typed_env []) 0 1 'A' sample_dir).lock = none ∧
    (list_view_key sample_qsort sample_junk sample_dirents (typed_env []) 0 1 'x' sample_dir).data
      "beta".toList = none ∧
    (list_view_key sample_qsort sample_junk sample_dirents (typed_env []) 0 1 'x' sample_dir).lock = none :=
  have h := archive_delete_clears_lock sample_qsort sample_junk sample_dirents (typed_env []) 0 1 sample_dir
    ⟨"beta".toList, "checkin".toList, "2025-06-01T09:40:00Z".toList, []⟩
    (fun _ l => List.perm_insertionSort _ l) (by decide) (Or.inl rfl)
  ⟨by decide, by decide, h.1.1, h.1.2.1 _ rfl, (h.1.2.2.2.1 (by decide)).1, h.2.1.1,
    (h.2.1.2.2.2.1 (by decide)).1⟩

/-! ## Facts about closed pieces -/

theorem pieces_ok_ne_nil (room : Nat) (hroom : 1 ≤ room) :
    ∀ cs : List (List Char), pieces_ok room cs → ∀ c ∈ cs, c ≠ [] := by
  intro cs
  induction cs with
  | nil => intro _ c hc; cases hc
  | cons c rest ih =>
    intro hok x hx
    obtain ⟨hc, hrest⟩ := hok
    rcases List.mem_cons.1 hx with h | h
    · subst h
      rcases hc with hfull | ⟨_, hlast⟩
      · exact piece_full_ne_nil room hroom x hfull
      · exact hlast.1
    · exact ih hrest x h

/-- The pieces of a file, written one after the other, are the file. -/
theorem flatten_raw_lines (n : Nat) (hn : 2 ≤ n) :
    ∀ (k : Nat) (file : List Char), file.length ≤ k → (raw_lines n file).flatten = file := by
  intro k
  induction k with
  | zero =>
    intro file hk
    have hnil : file = [] := List.eq_nil_of_length_eq_zero (by omega)
    subst hnil
    rfl
  | succ k ih =>
    intro file hk
    by_cases hfile : file = []
    · subst hfile; rfl
    · rw [raw_lines_cons n hn file hfile, List.flatten_cons]
      have hlt := fgets_take_rest_length file (n - 1) (by omega) hfile
      rw [ih _ (by omega)]
      exact fgets_take_concat file (n - 1)

/-- The pieces of a file that ends in a newline, followed by more text, are
the pieces of the file and then the pieces of that text. -/
theorem raw_lines_append (n : Nat) (hn : 2 ≤ n) (rest : List Char) :
    ∀ (k : Nat) (prior : List Char), prior.length ≤ k →
      (prior = [] ∨ prior.getLast? = some '\n') →
      raw_lines n (prior ++ rest) = raw_lines n prior ++ raw_lines n rest := by
  intro k
  induction k with
  | zero =>
    intro prior hk _
    have hnil : prior = [] := List.eq_nil_of_length_eq_zero (by omega)
    subst hnil
    simp [raw_lines_nil]
  | succ k ih =>
    intro prior hk hend
    rcases hend with hnil | hlast
    · subst hnil; simp [raw_lines_nil]
    · have hne : prior ≠ [] := by
        intro h; subst h; simp at hlast
      have hne2 : prior ++ rest ≠ [] := by simp [hne]
      rw [raw_lines_cons n hn _ hne2, raw_lines_cons n hn _ hne,
        fgets_take_append rest prior (n - 1) hlast]
      simp only [List.cons_append]
      congr 1
      have hlt := fgets_take_rest_length prior (n - 1) (by omega) hne
      apply ih _ (by omega)
      by_cases hr : (fgets_take (n - 1) prior).2 = []
      · exact Or.inl hr
      · right
        have hcat := fgets_take_concat prior (n - 1)
        rw [← hcat, List.getLast?_append_of_ne_nil _ hr] at hlast
        exact hlast

/-- A line of fewer than `n` bytes, newline included, is one piece. -/
theorem raw_lines_single (n : Nat) (hn : 2 ≤ n) (l : List Char)
    (hnl : '\n' ∉ l) (hlen : l.length + 1 < n) :
    raw_lines n (l ++ ['\n']) = [l ++ ['\n']] := by
  rw [raw_lines_cons n hn _ (by simp), fgets_take_line [] l (n - 1) hnl (by omega)]
  simp [raw_lines_nil]

/-- A line of `n - 1` bytes or more, and fewer than twice that with the
newline, is cut into two pieces. -/
theorem raw_lines_long (n : Nat) (hn : 2 ≤ n) (l : List Char)
    (hnl : '\n' ∉ l) (hlen1 : n - 1 ≤ l.length) (hlen2 : l.length + 1 < 2 * (n - 1)) :
    raw_lines n (l ++ ['\n']) = [l.take (n - 1), l.drop (n - 1) ++ ['\n']] := by
  have hsplit : l ++ ['\n'] = l.take (n - 1) ++ (l.drop (n - 1) ++ ['\n']) := by
    rw [← List.append_assoc, List.take_append_drop]
  have htake : (l.take (n - 1)).length = n - 1 := by
    rw [List.length_take]; omega
  have hnl1 : '\n' ∉ l.take (n - 1) := fun h => hnl (List.mem_of_mem_take h)
  have hnl2 : '\n' ∉ l.drop (n - 1) := fun h => hnl (List.mem_of_mem_drop h)
  have h1 := fgets_take_full (l.drop (n - 1) ++ ['\n']) (l.take (n - 1)) hnl1
  rw [htake, ← hsplit] at h1
  rw [raw_lines_cons n hn _ (by simp), h1]
  simp only
  rw [raw_lines_single n hn _ hnl2 (by rw [List.length_drop]; omega)]

theorem closed_pieces_append :
    ∀ ps qs : List (List Char), closed_pieces ps → closed_pieces qs →
      (ps = [] ∨ ∃ p, ps.getLast? = some p ∧ p.getLast? = some '\n') →
      closed_pieces (ps ++ qs) := by
  intro ps
  induction ps with
  | nil => intro qs _ hq _; exact hq
  | cons p rest ih =>
    intro qs hp hq hlast
    obtain ⟨h1, h2⟩ := hp
    rw [List.cons_append]
    refine ⟨?_, ?_⟩
    · rcases h1 with h | ⟨q, tail, hr, hs⟩
      · exact Or.inl h
      · right
        exact ⟨q, tail ++ qs, by rw [hr]; rfl, hs⟩
    · cases rest with
      | nil => exact hq
      | cons q tail =>
        apply ih qs h2 hq
        right
        rcases hlast with h | ⟨x, hx, hx2⟩
        · cases h
        · exact ⟨x, by simpa [List.getLast?_cons_cons] using hx, hx2⟩

/-- Closed pieces stay closed when pieces with `\tcomment\t` are taken out. -/
theorem closed_pieces_filter (keep : List Char → Bool)
    (hkeep : ∀ p, keep p = false → strstr p "\tcomment\t".toList = true) :
    ∀ ps : List (List Char), closed_pieces ps → closed_pieces (ps.filter keep) := by
  intro ps
  induction ps with
  | nil => intro _; exact trivial
  | cons p rest ih =>
    intro hp
    obtain ⟨h1, h2⟩ := hp
    cases hk : keep p
    · rw [List.filter_cons_of_neg (by simp [hk])]
      exact ih h2
    · rw [List.filter_cons_of_pos hk]
      refine ⟨?_, ih h2⟩
      rcases h1 with h | ⟨q, tail, hr, hs⟩
      · exact Or.inl h
      · right
        have hq : keep q = true := by
          cases hq : keep q
          · have := hkeep q hq
            rw [hs] at this
            cases this
          · rfl
        exact ⟨q, tail.filter keep, by rw [hr, List.filter_cons_of_pos hq], hs⟩

/-- The text of closed pieces is empty or ends in a newline. -/
theorem closed_pieces_last :
    ∀ ps : List (List Char), closed_pieces ps → (∀ p ∈ ps, p ≠ []) →
      ps = [] ∨ ∃ p, ps.getLast? = some p ∧ p.getLast? = some '\n' := by
  intro ps
  induction ps with
  | nil => intro _ _; exact Or.inl rfl
  | cons p rest ih =>
    intro hp hne
    obtain ⟨h1, h2⟩ := hp
    right
    cases rest with
    | nil =>
      rcases h1 with h | ⟨q, tail, hr, _⟩
      · exact ⟨p, rfl, h⟩
      · cases hr
    | cons q tail =>
      rcases ih h2 (fun x hx => hne x (List.mem_cons_of_mem _ hx)) with h | ⟨x, hx, hx2⟩
      · cases h
      · exact ⟨x, by simpa [List.getLast?_cons_cons] using hx, hx2⟩

theorem flatten_last (ps : List (List Char)) (p : List Char) (c : Char)
    (hp : ps.getLast? = some p) (hc : p.getLast? = some c) :
    ps.flatten.getLast? = some c := by
  obtain ⟨init, rfl⟩ : ∃ init, ps = init ++ [p] := by
    rcases List.eq_nil_or_concat ps with h | ⟨init, y, h⟩
    · subst h; simp at hp
    · subst h
      simp at hp
      exact ⟨init, by rw [hp, List.concat_eq_append]⟩
  have hne : p ≠ [] := by
    intro h; subst h; simp at hc
  rw [List.flatten_append]
  simp only [List.flatten_cons, List.flatten_nil, List.append_nil]
  rw [List.getLast?_append_of_ne_nil _ hne]
  exact hc

/-! ## Facts about lines without a status -/

theorem strstr_no_tab (p : CStr) :
    ∀ l : CStr, '\t' ∉ l → strstr l ('\t' :: p) = false := by
  intro l
  induction l with
  | nil => intro _; rfl
  | cons c cs ih =>
    intro h
    have hc : c ≠ '\t' := fun e => h (by simp [e])
    have hcs : '\t' ∉ cs := fun e => h (by simp [e])
    have hstep : strstr (c :: cs) ('\t' :: p) =
        (('\t' :: p).isPrefixOf (c :: cs) || strstr cs ('\t' :: p)) := rfl
    rw [hstep, ih hcs]
    simp [List.isPrefixOf, Ne.symm hc]

theorem status_fields_no_tab (l : CStr) (h : '\t' ∉ l) : status_fields l = none := by
  apply (status_fields_two_tokens l _).1
  unfold two_tokens
  cases l with
  | nil => rfl
  | cons c cs =>
    have hall : ∀ x ∈ c :: cs, (!(['\t'].contains x)) = true := by
      intro x hx
      have : x ≠ '\t' := fun e => h (e ▸ hx)
      simpa using this
    have hc : c ≠ '\t' := fun e => h (by simp [e])
    have h1 : strtok ['\t'] (c :: cs) = some (c :: cs, []) := by
      unfold strtok
      have hd : (c :: cs).dropWhile (fun x => ['\t'].contains x) = c :: cs := by
        simp [List.dropWhile, hc]
      rw [hd]
      simp only
      rw [List.takeWhile_eq_self_iff.2 hall, List.dropWhile_eq_nil_iff.2 hall]
      rfl
    rw [h1]
    rfl

theorem status_fields_comment (now rest : CStr) (hnow : now ≠ []) (htab : '\t' ∉ now) :
    status_fields (now ++ '\t' :: ("comment".toList ++ '\t' :: rest)) = none := by
  have h1 : strtok ['\t'] (now ++ '\t' :: ("comment".toList ++ '\t' :: rest)) =
      some (now, "comment".toList ++ '\t' :: rest) :=
    strtok_token '\t' now _ hnow htab
  have h2 : strtok ['\t'] ("comment".toList ++ '\t' :: rest) = some ("comment".toList, rest) :=
    strtok_token '\t' _ _ (by decide) (by decide)
  unfold status_fields
  rw [h1]
  simp only [strtok_rest]
  rw [h2]
  simp only
  rw [if_neg (by decide)]

/-! ## Facts about logs of the shape `log_ok` -/

theorem mem_raw_lines (file p : List Char) (c : Char)
    (hp : p ∈ raw_lines MAX_LINE file) (hc : c ∈ p) : c ∈ file := by
  have h := flatten_raw_lines MAX_LINE (by decide) file.length file (le_refl _)
  rw [← h, List.mem_flatten]
  exact ⟨p, hp, hc⟩

/-- The lines of a file without NUL bytes are its pieces. -/
theorem read_lines_eq_raw (file : List Char) (hnul : '\x00' ∉ file) :
    read_lines MAX_LINE file = raw_lines MAX_LINE file := by
  rw [read_lines_eq_map]
  conv_rhs => rw [← List.map_id (raw_lines MAX_LINE file)]
  apply List.map_congr_left
  intro p hp
  exact cstr_eq_self p (fun h => hnul (mem_raw_lines file p _ hp h))

theorem log_ok_nil : log_ok [] := by
  refine ⟨by simp, ?_, trivial⟩
  intro l hl
  rw [raw_lines_nil] at hl
  cases hl

theorem raw_lines_last (file : List Char) (h : closed_pieces (raw_lines MAX_LINE file)) :
    raw_lines MAX_LINE file = [] ∨
      ∃ p, (raw_lines MAX_LINE file).getLast? = some p ∧ p.getLast? = some '\n' :=
  closed_pieces_last _ h
    (pieces_ok_ne_nil (MAX_LINE - 1) (by decide) _
      (raw_lines_pieces_ok MAX_LINE (by decide) file.length file (le_refl _)))

/-- A log of the shape `log_ok` is empty or ends in a newline. -/
theorem log_ok_end (file : List Char) (h : log_ok file) :
    file = [] ∨ file.getLast? = some '\n' := by
  have hflat := flatten_raw_lines MAX_LINE (by decide) file.length file (le_refl _)
  rcases raw_lines_last file h.2.2 with h0 | ⟨p, hp, hc⟩
  · left
    rw [← hflat, h0]
    rfl
  · right
    rw [← hflat]
    exact flatten_last _ p '\n' hp hc

/-- Text with closed pieces and without status lines that hold `\tcomment\t`,
appended to a log of the shape `log_ok`, gives such a log. -/
theorem log_ok_append (file text : List Char) (h : log_ok file) (hnul : '\x00' ∉ text)
    (hst : ∀ l ∈ raw_lines MAX_LINE text,
      strstr l "\tcomment\t".toList = true → status_fields l = none)
    (hcl : closed_pieces (raw_lines MAX_LINE text)) :
    log_ok (file ++ text) := by
  have hraw : raw_lines MAX_LINE (file ++ text) =
      raw_lines MAX_LINE file ++ raw_lines MAX_LINE text :=
    raw_lines_append MAX_LINE (by decide) text file.length file (le_refl _) (log_ok_end file h)
  refine ⟨?_, ?_, ?_⟩
  · simp only [List.mem_append, not_or]
    exact ⟨h.1, hnul⟩
  · intro l hl
    rw [hraw, List.mem_append] at hl
    rcases hl with hl | hl
    · exact h.2.1 l hl
    · exact hst l hl
  · rw [hraw]
    exact closed_pieces_append _ _ h.2.2 hcl (raw_lines_last file h.2.2)

/-- The status of a log of the shape `log_ok` with text appended: the last
status line of the text, or the status of the log when the text has none. -/
theorem status_of_append (file text : List Char) (h : log_ok file) (hnul : '\x00' ∉ text) :
    status_of (file ++ text) =
      match ((raw_lines MAX_LINE text).filterMap status_fields).getLast? with
      | some f => f.1
      | none => status_of file := by
  unfold status_of
  rw [read_lines_append MAX_LINE (by decide) text file.length file (le_refl _)
    (log_ok_end file h), List.filterMap_append, List.getLast?_append,
    read_lines_eq_raw text hnul]
  cases ((raw_lines MAX_LINE text).filterMap status_fields).getLast? with
  | none => rfl
  | some f => rfl

theorem filterMap_filter_keep_mem {α β : Type} (f : α → Option β) (keep : α → Bool) :
    ∀ l : List α, (∀ x ∈ l, keep x = false → f x = none) →
      (l.filter keep).filterMap f = l.filterMap f := by
  intro l
  induction l with
  | nil => intro _; rfl
  | cons x xs ih =>
    intro h
    have hxs : ∀ y ∈ xs, keep y = false → f y = none :=
      fun y hy => h y (List.mem_cons_of_mem _ hy)
    cases hk : keep x
    · rw [List.filter_cons_of_neg (by simp [hk]), List.filterMap_cons,
        h x (List.mem_cons_self _ _) hk]
      exact ih hxs
    · rw [List.filter_cons_of_pos hk, List.filterMap_cons, List.filterMap_cons, ih hxs]

theorem comment_fields_strstr (l : CStr) (f : CStr × CStr) (h : comment_fields l = some f) :
    strstr l "\tcomment\t".toList = true := by
  unfold comment_fields at h
  by_cases hs : strstr l "\tcomment\t".toList = true
  · exact hs
  · rw [if_neg hs] at h
    cases h

/-- The log that `delete_comment` writes for a log of the shape `log_ok` has
that shape and the same status. -/
theorem log_ok_delete (ts msg : CStr) (file : List Char) (h : log_ok file) :
    log_ok (delete_comment_loop ts msg (read_lines MAX_LINE file)) ∧
    status_of (delete_comment_loop ts msg (read_lines MAX_LINE file)) = status_of file := by
  have hkeep : ∀ p : List Char,
      (fun l => decide (comment_fields l ≠ some (ts, msg))) p = false →
        strstr p "\tcomment\t".toList = true := by
    intro p hp
    simp only [ne_eq, decide_not, Bool.not_eq_false', decide_eq_true_eq] at hp
    exact comment_fields_strstr p _ hp
  have hfile : delete_comment_loop ts msg (read_lines MAX_LINE file) =
      ((raw_lines MAX_LINE file).filter
        (fun l => decide (comment_fields l ≠ some (ts, msg)))).flatten := by
    rw [delete_comment_loop_eq, read_lines_eq_raw file h.1]
  have hok := pieces_ok_filter (MAX_LINE - 1)
    (fun l => decide (comment_fields l ≠ some (ts, msg))) _
    (raw_lines_pieces_ok MAX_LINE (by decide) file.length file (le_refl _))
  have hraw := raw_lines_flatten MAX_LINE (by decide) _ hok
  have hnul : '\x00' ∉ ((raw_lines MAX_LINE file).filter
      (fun l => decide (comment_fields l ≠ some (ts, msg)))).flatten := by
    rw [List.mem_flatten]
    rintro ⟨p, hp, hc⟩
    exact h.1 (mem_raw_lines file p _ (List.mem_of_mem_filter hp) hc)
  rw [hfile]
  refine ⟨⟨hnul, ?_, ?_⟩, ?_⟩
  · intro l hl
    rw [hraw] at hl
    exact h.2.1 l (List.mem_of_mem_filter hl)
  · rw [hraw]
    exact closed_pieces_filter _ hkeep _ h.2.2
  · unfold status_of
    rw [read_lines_eq_raw _ hnul, hraw, read_lines_eq_raw file h.1,
      filterMap_filter_keep_mem status_fields _ _
        (fun x hx hk => h.2.1 x hx (hkeep x hk))]

/-! ## Facts about the lines that `write_log` appends -/

/-- The status line that `write_log` appends is one piece, is read as a
status line and holds no `\tcomment\t`. -/
theorem status_line_facts (now : CStr) (k : Kind) (hk : k ≠ Kind.Comment)
    (hnow : is_now_iso now = true) :
    '\x00' ∉ log_line now k.token [] ∧
    raw_lines MAX_LINE (log_line now k.token []) = [log_line now k.token []] ∧
    status_fields (log_line now k.token []) = some (k.token, now) ∧
    strstr (log_line now k.token []) "\tcomment\t".toList = false := by
  obtain ⟨h1, h2, h3, h4, h5⟩ := is_now_iso_mem now hnow
  obtain ⟨_, k2, k3, k4⟩ := kind_token_mem k
  have hklen : k.token.length ≤ 8 := by cases k <;> decide
  have hshape : log_line now k.token [] = (now ++ '\t' :: (k.token ++ ['\t'])) ++ ['\n'] := by
    simp [log_line]
  have hline : (⟨now, k, []⟩ : Row).line = log_line now k.token [] := rfl
  have hwf : (⟨now, k, []⟩ : Row).well_formed := by
    refine ⟨h1, h3, h4, h5, by simp, by simp, ?_⟩
    rw [hline, hshape]
    simp only [List.length_append, List.length_cons, List.length_nil, MAX_LINE]
    omega
  refine ⟨?_, ?_, ?_, ?_⟩
  · rw [hshape]
    simp only [List.mem_append, List.mem_cons, List.mem_singleton, List.not_mem_nil, or_false,
      not_or]
    exact ⟨⟨h5, by decide, k4, by decide⟩, by decide⟩
  · rw [hshape]
    apply raw_lines_single MAX_LINE (by decide)
    · simp only [List.mem_append, List.mem_cons, List.mem_singleton, List.not_mem_nil,
        or_false, not_or]
      exact ⟨h4, by decide, k3, by decide⟩
    · simp only [List.length_append, List.length_cons, List.length_nil, MAX_LINE]
      omega
  · have := (status_fields_row ⟨now, k, []⟩ hwf).1
    rw [hline] at this
    rw [this]
    simp [hk]
  · have hs : log_line now k.token [] = now ++ '\t' :: (k.token ++ ['\t', '\n']) := by
      simp [log_line]
    rw [hs]
    have := strstr_skip "comment\t".toList (k.token ++ ['\t', '\n']) now h3
    have h6 : strstr (now ++ '\t' :: (k.token ++ ['\t', '\n'])) "\tcomment\t".toList =
        strstr ('\t' :: (k.token ++ ['\t', '\n'])) "\tcomment\t".toList := by
      have h7 := strstr_skip "comment\t".toList ('\t' :: (k.token ++ ['\t', '\n'])) now h3
      exact h7
    rw [h6]
    exact strstr_kind_line k hk

/-- A log of the shape `log_ok` with a status line appended has that shape,
and its status is the kind of the line. -/
theorem log_ok_status_line (file now : CStr) (k : Kind) (hk : k ≠ Kind.Comment)
    (hnow : is_now_iso now = true) (h : log_ok file) :
    log_ok (file ++ log_line now k.token []) ∧
    status_of (file ++ log_line now k.token []) = k.token := by
  obtain ⟨h1, h2, h3, h4⟩ := status_line_facts now k hk hnow
  refine ⟨?_, ?_⟩
  · apply log_ok_append file _ h h1
    · intro l hl hs
      rw [h2, List.mem_singleton] at hl
      rw [hl, h4] at hs
      cases hs
    · rw [h2]
      exact ⟨Or.inl (List.getLast?_concat _), trivial⟩
  · rw [status_of_append file _ h h1, h2]
    simp [h3]

/-- The comment line that `write_log` appends for a message without tab and
newline of at most `MAX_LINE - 1` bytes: none of its pieces is a status line,
and its pieces are closed. -/
theorem comment_line_facts (now msg : CStr) (hnow : is_now_iso now = true)
    (htab : '\t' ∉ msg) (hnl : '\n' ∉ msg) (hnul : '\x00' ∉ msg)
    (hlen : msg.length ≤ MAX_LINE - 1) :
    '\x00' ∉ log_line now "comment".toList msg ∧
    (∀ p ∈ raw_lines MAX_LINE (log_line now "comment".toList msg), status_fields p = none) ∧
    closed_pieces (raw_lines MAX_LINE (log_line now "comment".toList msg)) := by
  obtain ⟨h1, h2, h3, h4, h5⟩ := is_now_iso_mem now hnow
  have hshape : log_line now "comment".toList msg =
      ((now ++ '\t' :: ("comment".toList ++ ['\t'])) ++ msg) ++ ['\n'] := by
    simp [log_line]
  have hpre : '\n' ∉ now ++ '\t' :: ("comment".toList ++ ['\t']) := by
    simp only [List.mem_append, List.mem_cons, not_or]
    exact ⟨h4, by decide, by decide⟩
  have hbody : '\n' ∉ (now ++ '\t' :: ("comment".toList ++ ['\t'])) ++ msg := by
    rw [List.mem_append, not_or]
    exact ⟨hpre, hnl⟩
  have hprelen : (now ++ '\t' :: ("comment".toList ++ ['\t'])).length = now.length + 9 := by
    simp
  have hlen2 : msg.length ≤ 1023 := hlen
  refine ⟨?_, ?_⟩
  · rw [hshape]
    simp only [List.mem_append, List.mem_cons, List.mem_singleton, List.not_mem_nil, or_false,
      not_or]
    exact ⟨⟨⟨h5, by decide, by decide⟩, hnul⟩, by decide⟩
  · rcases Nat.lt_or_ge (((now ++ '\t' :: ("comment".toList ++ ['\t'])) ++ msg).length + 1)
      MAX_LINE with hshort | hlong
    · have hraw := raw_lines_single MAX_LINE (by decide) _ hbody hshort
      rw [hshape, hraw]
      refine ⟨?_, Or.inl (List.getLast?_concat _), trivial⟩
      intro p hp
      rw [List.mem_singleton] at hp
      rw [hp]
      have := status_fields_comment now (msg ++ ['\n']) h1 h3
      simpa using this
    · have hraw := raw_lines_long MAX_LINE (by decide) _ hbody
        (by simp only [MAX_LINE] at hlong ⊢; omega)
        (by rw [List.length_append, hprelen]; simp only [MAX_LINE]; omega)
      have htake : ((now ++ '\t' :: ("comment".toList ++ ['\t'])) ++ msg).take (MAX_LINE - 1) =
          now ++ '\t' :: ("comment".toList ++
            '\t' :: msg.take (MAX_LINE - 1 - (now.length + 9))) := by
        rw [List.take_append_eq_append_take, hprelen,
          List.take_of_length_le (by rw [hprelen]; simp only [MAX_LINE]; omega)]
        simp
      have hdrop : ((now ++ '\t' :: ("comment".toList ++ ['\t'])) ++ msg).drop (MAX_LINE - 1) =
          msg.drop (MAX_LINE - 1 - (now.length + 9)) := by
        rw [List.drop_append_eq_append_drop, hprelen,
          List.drop_of_length_le (by rw [hprelen]; simp only [MAX_LINE]; omega)]
        simp
      have htab2 : '\t' ∉ msg.drop (MAX_LINE - 1 - (now.length + 9)) ++ ['\n'] := by
        simp only [List.mem_append, List.mem_singleton, not_or]
        exact ⟨fun h => htab (List.mem_of_mem_drop h), by decide⟩
      rw [hshape, hraw, htake, hdrop]
      refine ⟨?_, ⟨Or.inr ⟨_, [], rfl, strstr_no_tab _ _ htab2⟩,
        Or.inl (List.getLast?_concat _), trivial⟩⟩
      intro p hp
      simp only [List.mem_cons, List.mem_singleton, List.not_mem_nil, or_false] at hp
      rcases hp with hp | hp
      · rw [hp]
        exact status_fields_comment now _ h1 h3
      · rw [hp]
        exact status_fields_no_tab _ htab2

/-- A log of the shape `log_ok` with such a comment line appended has that
shape and the same status. -/
theorem log_ok_comment_line (file now msg : CStr) (hnow : is_now_iso now = true)
    (htab : '\t' ∉ msg) (hnl : '\n' ∉ msg) (hnul : '\x00' ∉ msg)
    (hlen : msg.length ≤ MAX_LINE - 1) (h : log_ok file) :
    log_ok (file ++ log_line now "comment".toList msg) ∧
    status_of (file ++ log_line now "comment".toList msg) = status_of file := by
  obtain ⟨h1, h2, h3⟩ := comment_line_facts now msg hnow htab hnl hnul hlen
  refine ⟨log_ok_append file _ h h1 (fun l hl _ => h2 l hl) h3, ?_⟩
  rw [status_of_append file _ h h1, List.filterMap_eq_nil_iff.2 h2]
  rfl

/-! ## Facts about the invariant `Good` -/

theorem good_id_mem (id : CStr) (h : good_id id) : id ≠ [] ∧ '\n' ∉ id ∧ '\x00' ∉ id :=
  valid_id_mem id h.1

/-- What `lock_read` returns for a lock file that holds a good id. -/
theorem lock_read_good (id : CStr) (w : State) (hg : good_id id)
    (hw : w.lock = some (id ++ ['\n'])) : lock_read 128 w = id := by
  obtain ⟨hne, hnl, hnul⟩ := good_id_mem id hg
  cases hx : id.getLast? with
  | none =>
    rw [List.getLast?_eq_none_iff] at hx
    exact absurd hx hne
  | some x => exact lock_read_after_write id x w hnl hnul hg.2.1 hx (hg.2.2 x hx) hw

theorem lock_read_none (w : State) (h : w.lock = none) : lock_read 128 w = [] := by
  unfold lock_read
  rw [h]

/-- The invariant depends on the logs, the lock file and `active_id` only. -/
theorem good_of_eq (w w2 : State) (hd : w2.data = w.data) (hl : w2.lock = w.lock)
    (ha : w2.active_id = w.active_id) (h : Good w) : Good w2 := by
  unfold Good
  rw [hd, hl, ha]
  exact h

/-- The lock of a state with the invariant: no lock file, or the lock file
of a project with a good id whose log has the status `checkin`. -/
theorem good_lock (w : State) (h : Good w) :
    (w.lock = none ∧ lock_read 128 w = []) ∨
    (∃ x file, w.lock = some (x ++ ['\n']) ∧ good_id x ∧ lock_read 128 w = x ∧
      w.data x = some file ∧ status_of file = "checkin".toList) := by
  cases hl : w.lock with
  | none => exact Or.inl ⟨rfl, lock_read_none w hl⟩
  | some l =>
    right
    obtain ⟨x, file, hx, hdata, hst⟩ := h.2.2.1 l hl
    have hgood := (h.1 x file hdata).1
    subst hx
    exact ⟨x, file, rfl, hgood, lock_read_good x w hgood hl, hdata, hst⟩

/-- The invariant after the log of the project `a` is replaced: the lock file
is the same and the status of the log is the same, or the lock file is written
for `a` and the log has the status `checkin`, or the lock file is removed and
the log has another status. -/
theorem good_update (w w2 : State) (a : CStr) (text : List Char) (h : Good w)
    (ha : good_id a) (htext : log_ok text)
    (hdata : ∀ k, w2.data k = if k = a then some text else w.data k)
    (hact : w2.active_id = [] ∨ good_id w2.active_id)
    (hlock :
      (w2.lock = w.lock ∧ ∃ file, w.data a = some file ∧ status_of text = status_of file) ∨
      (w2.lock = some (a ++ ['\n']) ∧ status_of text = "checkin".toList ∧ w.lock = none) ∨
      (w2.lock = none ∧ status_of text ≠ "checkin".toList ∧
        (w.lock = none ∨ w.lock = some (a ++ ['\n'])))) :
    Good w2 := by
  obtain ⟨h1, _, h3, h4⟩ := h
  refine ⟨?_, hact, ?_, ?_⟩
  · intro id file hf
    rw [hdata] at hf
    by_cases hk : id = a
    · rw [if_pos hk] at hf
      cases hf
      rw [hk]
      exact ⟨ha, htext⟩
    · rw [if_neg hk] at hf
      exact h1 id file hf
  · intro l hl
    rcases hlock with ⟨hl2, file, hfile, hst⟩ | ⟨hl2, hst, _⟩ | ⟨hl2, _, _⟩
    · rw [hl2] at hl
      obtain ⟨x, file0, hx, hd0, hs0⟩ := h3 l hl
      by_cases hk : x = a
      · refine ⟨x, text, hx, ?_, ?_⟩
        · rw [hdata, if_pos hk]
        · rw [hk, hfile] at hd0
          cases hd0
          rw [hst]
          exact hs0
      · refine ⟨x, file0, hx, ?_, hs0⟩
        rw [hdata, if_neg hk]
        exact hd0
    · rw [hl2] at hl
      cases hl
      refine ⟨a, text, rfl, ?_, hst⟩
      rw [hdata, if_pos rfl]
    · rw [hl2] at hl
      cases hl
  · intro id file hf hs
    rw [hdata] at hf
    by_cases hk : id = a
    · rw [if_pos hk] at hf
      cases hf
      rcases hlock with ⟨hl2, file, hfile, hst⟩ | ⟨hl2, _, _⟩ | ⟨_, hst, _⟩
      · rw [hl2, hk]
        apply h4 a file hfile
        rw [← hst]
        exact hs
      · rw [hl2, hk]
      · exact absurd hs hst
    · rw [if_neg hk] at hf
      have hold := h4 id file hf hs
      rcases hlock with ⟨hl2, _⟩ | ⟨_, _, hnone⟩ | ⟨_, _, hnone | hsome⟩
      · rw [hl2]
        exact hold
      · rw [hnone] at hold
        cases hold
      · rw [hnone] at hold
        cases hold
      · rw [hsome] at hold
        exfalso
        apply hk
        have := Option.some.inj hold
        exact (List.append_cancel_right this).symm

/-- The invariant after the log of the project `a` is taken away and the
lock file is removed if `lock_read` gave `a`. -/
theorem good_remove (w w2 : State) (a : CStr) (h : Good w)
    (hdata : w2.data = fun k => if k = a then none else w.data k)
    (hlock : w2.lock = if lock_read 128 w = a then none else w.lock)
    (hact : w2.active_id = w.active_id) :
    Good w2 := by
  have hlk := good_lock w h
  obtain ⟨h1, h2, h3, h4⟩ := h
  refine ⟨?_, ?_, ?_, ?_⟩
  · intro id file hf
    rw [hdata] at hf
    simp only at hf
    by_cases hk : id = a
    · rw [if_pos hk] at hf
      cases hf
    · rw [if_neg hk] at hf
      exact h1 id file hf
  · rw [hact]
    exact h2
  · intro l hl
    rw [hlock] at hl
    by_cases hr : lock_read 128 w = a
    · rw [if_pos hr] at hl
      cases hl
    · rw [if_neg hr] at hl
      rcases hlk with ⟨hnone, _⟩ | ⟨x, file, hx, _, hxr, hxd, hxs⟩
      · rw [hnone] at hl
        cases hl
      · rw [hx] at hl
        cases hl
        refine ⟨x, file, rfl, ?_, hxs⟩
        rw [hdata]
        simp only
        rw [if_neg (by rw [← hxr]; exact hr)]
        exact hxd
  · intro id file hf hs
    rw [hdata] at hf
    simp only at hf
    by_cases hk : id = a
    · rw [if_pos hk] at hf
      cases hf
    · rw [if_neg hk] at hf
      have hold := h4 id file hf hs
      have hr : lock_read 128 w = id := lock_read_good id w (h1 id file hf).1 hold
      rw [hlock, if_neg (by rw [hr]; exact hk)]
      exact hold

/-! ## The invariant is kept by every key -/

theorem trim_length_le (s : CStr) : (trim s).length ≤ s.length := by
  unfold trim
  have h1 := (List.rdropWhile_prefix isspace (s.dropWhile isspace)).length_le
  have h2 := congrArg List.length (List.takeWhile_append_dropWhile isspace s)
  rw [List.length_append] at h2 ⊢
  omega

theorem getnstr_length_le (n : Nat) (typed : List Char) : (getnstr n typed).length ≤ n := by
  unfold getnstr cstr
  have h1 := (List.takeWhile_sublist (l := typed.take n) (fun c => c != '\x00')).length_le
  have h2 := List.length_take_le n typed
  omega

theorem getnstr_no_nul (n : Nat) (typed : List Char) : '\x00' ∉ trim (getnstr n typed) := by
  intro h
  exact (mem_cstr _ _ (mem_trim _ _ h)).2 rfl

theorem lock_write_fields (id : Option CStr) (w : State) :
    (lock_write id w).data = w.data ∧ (lock_write id w).active_id = w.active_id := by
  unfold lock_write
  split
  · exact ⟨rfl, rfl⟩
  · split <;> exact ⟨rfl, rfl⟩

theorem log_content_lock_write (id : Option CStr) (w : State) (k : CStr) :
    log_content (lock_write id w) k = log_content w k := by
  unfold log_content
  rw [(lock_write_fields id w).1]

theorem open_append_data (a k : CStr) (w : State) :
    (open_append a w).data k = if k = a then some (log_content w a) else w.data k := rfl

theorem append_log_data (a k : CStr) (text : List Char) (w : State) :
    (append_log a text w).data k =
      if k = a then some (log_content w a ++ text) else w.data k := rfl

/-- The log of a state with the invariant, an absent log read as empty, has
the shape `log_ok`. -/
theorem log_ok_content (w : State) (h : Good w) (id : CStr) : log_ok (log_content w id) := by
  unfold log_content
  cases hd : w.data id with
  | none => exact log_ok_nil
  | some file => exact (h.1 id file hd).2

theorem has_checkin_false_lock (w : State) (h : Good w) (hc : has_checkin w = false) :
    w.lock = none := by
  have hr : lock_read 128 w = [] := by
    unfold has_checkin at hc
    simpa using hc
  rcases good_lock w h with ⟨hnone, _⟩ | ⟨x, _, _, hx, hxr, _, _⟩
  · exact hnone
  · rw [hr] at hxr
    exact absurd hxr.symm (good_id_mem x hx).1

/-- What `write_log` does for an action without a lock rule. -/
theorem write_log_other (now action : CStr) (w : State) (hid : w.active_id ≠ [])
    (h1 : action ≠ "checkin".toList)
    (h2 : ¬(action = "checkout".toList ∨ action = "finish".toList ∨ action = "cancel".toList))
    (h3 : action ≠ "comment".toList) :
    write_log now action none w =
      append_log w.active_id (log_line now action []) (open_append w.active_id w) := by
  unfold write_log
  rw [if_neg hid]
  simp only [if_neg h1, if_neg h2, if_neg h3, Option.getD_none]

/-- The key `n`: `create_new_project` keeps the invariant. -/
theorem good_create_new_project (env : Env) (w : State) (h : Good w)
    (hnow : is_now_iso env.now = true) (hid : typed_id_ok env) :
    Good (create_new_project env w) := by
  unfold create_new_project
  by_cases hc : has_checkin w = true
  · rw [if_pos hc]; exact h
  · rw [if_neg hc]
    simp only
    by_cases he : trim (getnstr 127 env.typed) = []
    · rw [if_pos he]; exact h
    · rw [if_neg he]
      by_cases hv : (!valid_id (trim (getnstr 127 env.typed))) = true
      · rw [if_pos hv]; exact h
      · rw [if_neg hv]
        have hvalid : valid_id (trim (getnstr 127 env.typed)) = true := by
          simpa using hv
        have hlen : (trim (getnstr 127 env.typed)).length ≤ 127 :=
          le_trans (trim_length_le _) (getnstr_length_le 127 env.typed)
        have hgood : good_id (trim (getnstr 127 env.typed)) := ⟨hvalid, hlen, hid.2⟩
        have hcpy : strncpy (trim (getnstr 127 env.typed)) 127 = trim (getnstr 127 env.typed) :=
          List.take_of_length_le hlen
        have hnone : w.lock = none := has_checkin_false_lock w h (by simpa using hc)
        rw [hcpy]
        have hact : (save_active_project (some (trim (getnstr 127 env.typed)))
            { w with active_id := trim (getnstr 127 env.typed) }).active_id =
            trim (getnstr 127 env.typed) := by
          rw [(save_active_project_fields _ _).2.2.2]
        have hwl := write_log_other env.now "created".toList
          (save_active_project (some (trim (getnstr 127 env.typed)))
            { w with active_id := trim (getnstr 127 env.typed) })
          (by rw [hact]; exact he) (by decide) (by decide) (by decide)
        rw [hact] at hwl
        have hst := log_ok_status_line (log_content w (trim (getnstr 127 env.typed))) env.now
          Kind.Created (by decide) hnow (log_ok_content w h _)
        apply good_update w _ (trim (getnstr 127 env.typed)) _ h hgood hst.1
        · intro k
          show (load_comments _).data k = _
          rw [load_comments_data, hwl, append_log_data]
          by_cases hk : k = trim (getnstr 127 env.typed)
          · rw [if_pos hk, if_pos hk, log_content_open_append]
            unfold log_content
            rw [(save_active_project_fields _ _).1]
            rfl
          · rw [if_neg hk, if_neg hk, open_append_data, if_neg hk,
              (save_active_project_fields _ _).1]
        · right
          show good_id (load_comments _).active_id
          rw [load_comments_active_id, hwl]
          show good_id (save_active_project _ _).active_id
          rw [hact]
          exact hgood
        · right
          right
          refine ⟨?_, ?_, Or.inl hnone⟩
          · show (load_comments _).lock = none
            rw [load_comments_lock, hwl]
            show (save_active_project _ _).lock = none
            rw [(save_active_project_fields _ _).2.2.1]
            exact hnone
          · rw [hst.2]
            decide

theorem good_active (w : State) (h : Good w) (hid : w.active_id ≠ []) : good_id w.active_id := by
  rcases h.2.1 with h0 | h0
  · exact absurd h0 hid
  · exact h0

/-- A state with the invariant in which the open project holds the lock: its
log exists, has the status `checkin`, and the lock file holds its id. -/
theorem good_checked_in (w : State) (h : Good w) (hc : is_the_checked_in_project w = true) :
    w.active_id ≠ [] ∧ lock_read 128 w = w.active_id ∧
    w.lock = some (w.active_id ++ ['\n']) ∧
    ∃ file, w.data w.active_id = some file ∧ status_of file = "checkin".toList := by
  obtain ⟨hid, hr⟩ := (is_checked_in_iff w).1 hc
  rcases good_lock w h with ⟨_, hnone⟩ | ⟨x, file, hx, _, hxr, hxd, hxs⟩
  · rw [hnone] at hr
    exact absurd hr.symm hid
  · rw [hr] at hxr
    subst hxr
    exact ⟨hid, hr, hx, file, hxd, hxs⟩

/-- The key `i`: a check-in while no project is checked in keeps the
invariant. -/
theorem good_write_log_checkin (now : CStr) (w : State) (h : Good w)
    (hnow : is_now_iso now = true) (hc : has_checkin w = false) :
    Good (write_log now "checkin".toList none w) := by
  by_cases hid : w.active_id = []
  · unfold write_log
    rw [if_pos hid]
    exact h
  · have hnone := has_checkin_false_lock w h hc
    have hga := good_active w h hid
    rw [write_log_checkin_granted now w hid (Or.inl (lock_read_none w hnone))]
    have hst := log_ok_status_line (log_content w w.active_id) now Kind.CheckIn (by decide) hnow
      (log_ok_content w h _)
    apply good_update w _ w.active_id _ h hga hst.1
    · intro k
      rw [append_log_data, log_content_lock_write, log_content_open_append,
        (lock_write_fields _ _).1, open_append_data]
      by_cases hk : k = w.active_id
      · rw [if_pos hk, if_pos hk]
        rfl
      · rw [if_neg hk, if_neg hk, if_neg hk]
    · right
      show good_id (lock_write _ _).active_id
      rw [(lock_write_fields _ _).2]
      exact hga
    · right
      left
      refine ⟨?_, hst.2, hnone⟩
      show (lock_write (some w.active_id) (open_append w.active_id w)).lock = _
      unfold lock_write
      simp only [if_neg hid]

/-- The keys `o`, `f` and `x`: a check-out, finish or cancel of the project
that holds the lock keeps the invariant. -/
theorem good_write_log_release (now : CStr) (k : Kind) (w : State) (h : Good w)
    (hnow : is_now_iso now = true)
    (hk : k = Kind.CheckOut ∨ k = Kind.Finish ∨ k = Kind.Cancel)
    (hc : is_the_checked_in_project w = true) :
    Good (write_log now k.token none w) := by
  obtain ⟨hid, _, hlock, _⟩ := good_checked_in w h hc
  have hga := good_active w h hid
  have hkc : k ≠ Kind.Comment := by
    rcases hk with e | e | e <;> rw [e] <;> decide
  have hact : k.token = "checkout".toList ∨ k.token = "finish".toList ∨
      k.token = "cancel".toList := by
    rcases hk with e | e | e <;> rw [e]
    · exact Or.inl rfl
    · exact Or.inr (Or.inl rfl)
    · exact Or.inr (Or.inr rfl)
  rw [write_log_release now k.token w hid hact]
  have hst := log_ok_status_line (log_content w w.active_id) now k hkc hnow
    (log_ok_content w h _)
  apply good_update w _ w.active_id _ h hga hst.1
  · intro j
    rw [append_log_data, log_content_lock_write, log_content_open_append,
      (lock_write_fields _ _).1, open_append_data]
    by_cases hj : j = w.active_id
    · rw [if_pos hj, if_pos hj]
    · rw [if_neg hj, if_neg hj, if_neg hj]
  · right
    show good_id (lock_write _ _).active_id
    rw [(lock_write_fields _ _).2]
    exact hga
  · right
    right
    refine ⟨rfl, ?_, Or.inr hlock⟩
    rw [hst.2]
    rcases hk with e | e | e <;> rw [e] <;> decide

/-- The key `c`: a comment without tab and newline appended by the project
that holds the lock keeps the invariant. -/
theorem good_write_log_comment (now msg : CStr) (w : State) (h : Good w)
    (hnow : is_now_iso now = true) (hc : is_the_checked_in_project w = true)
    (htab : '\t' ∉ msg) (hnl : '\n' ∉ msg) (hnul : '\x00' ∉ msg)
    (hlen : msg.length ≤ MAX_LINE - 1) :
    Good (write_log now "comment".toList (some msg) w) := by
  obtain ⟨hid, hr, _, file, hfile, _⟩ := good_checked_in w h hc
  have hga := good_active w h hid
  rw [write_log_comment_granted now msg w hid hr]
  have hst := log_ok_comment_line (log_content w w.active_id) now msg hnow htab hnl hnul hlen
    (log_ok_content w h _)
  apply good_update w _ w.active_id _ h hga hst.1
  · intro j
    rw [append_log_data, log_content_open_append, open_append_data]
    by_cases hj : j = w.active_id
    · rw [if_pos hj, if_pos hj]
    · rw [if_neg hj, if_neg hj, if_neg hj]
  · right
    exact hga
  · left
    refine ⟨rfl, file, hfile, ?_⟩
    rw [hst.2]
    unfold log_content
    rw [hfile]
    rfl

/-- The function `delete_comment` keeps the invariant. -/
theorem good_delete_comment (w : State) (h : Good w) : Good (delete_comment w) := by
  unfold delete_comment
  split
  · exact h
  · rename_i hcond
    have hid : w.active_id ≠ [] := fun e => hcond (Or.inl e)
    split
    · exact h
    · rename_i c _
      split
      · exact h
      · rename_i file hfile
        have hdel := log_ok_delete c.timestamp c.message file (h.1 _ file hfile).2
        apply good_update w _ w.active_id _ h (good_active w h hid) hdel.1
        · intro k
          rfl
        · exact h.2.1
        · left
          exact ⟨rfl, file, hfile, hdel.2⟩

theorem good_load_comments (w : State) (h : Good w) : Good (load_comments w) :=
  good_of_eq w _ (load_comments_data w) (load_comments_lock w) (load_comments_active_id w) h

theorem good_save_active_project (id : Option CStr) (w : State) (h : Good w) :
    Good (save_active_project id w) :=
  good_of_eq w _ (save_active_project_fields id w).1 (save_active_project_fields id w).2.2.1
    (save_active_project_fields id w).2.2.2 h

theorem is_checked_in_load_comments (w : State) :
    is_the_checked_in_project (load_comments w) = is_the_checked_in_project w := by
  unfold is_the_checked_in_project
  rw [lock_read_load_comments, load_comments_active_id]

/-- The function `add_comment` keeps the invariant when the open project
holds the lock and the typed comment has no tab and no newline. -/
theorem good_add_comment (env : Env) (w : State) (h : Good w)
    (hnow : is_now_iso env.now = true) (hc : is_the_checked_in_project w = true)
    (hmsg : typed_comment_ok env) : Good (add_comment env w) := by
  unfold add_comment
  apply good_load_comments
  split
  · exact h
  · exact good_write_log_comment env.now _ w h hnow hc hmsg.1 hmsg.2
      (getnstr_no_nul _ _)
      (le_trans (trim_length_le _) (getnstr_length_le _ _))

/-- Every key of the data view keeps the invariant. -/
theorem good_data_view_handle (env : Env) (key : Char) (w : State) (h : Good w)
    (hnow : is_now_iso env.now = true) (hmsg : key = 'c' → typed_comment_ok env) :
    Good (data_view_handle env key w) := by
  unfold data_view_handle
  by_cases k1 : key = 'j'
  · rw [if_pos k1]
    by_cases c1 : w.index_pos < (w.comments.length : Int) - 1
    · rw [if_pos c1]; exact good_of_eq w _ rfl rfl rfl h
    · rw [if_neg c1]; exact h
  rw [if_neg k1]
  by_cases k2 : key = 'k'
  · rw [if_pos k2]
    by_cases c2 : w.index_pos > 0
    · rw [if_pos c2]; exact good_of_eq w _ rfl rfl rfl h
    · rw [if_neg c2]; exact h
  rw [if_neg k2]
  by_cases k3 : key = 'c'
  · rw [if_pos k3]
    by_cases c3 : is_the_checked_in_project w = true
    · rw [if_pos c3]
      exact good_load_comments _ (good_add_comment env w h hnow c3 (hmsg k3))
    · rw [if_neg c3]; exact h
  rw [if_neg k3]
  by_cases k4 : key = 'i'
  · rw [if_pos k4]
    by_cases c4 : has_checkin w = true
    · rw [if_pos c4]; exact h
    · rw [if_neg c4]
      exact good_load_comments _ (good_write_log_checkin env.now w h hnow (by simpa using c4))
  rw [if_neg k4]
  by_cases k5 : key = 'o'
  · rw [if_pos k5]
    by_cases c5 : is_the_checked_in_project w = true
    · rw [if_pos c5]
      exact good_load_comments _
        (good_write_log_release env.now Kind.CheckOut w h hnow (Or.inl rfl) c5)
    · rw [if_neg c5]; exact h
  rw [if_neg k5]
  by_cases k6 : key = 'f'
  · rw [if_pos k6]
    by_cases c6 : is_the_checked_in_project w = true
    · rw [if_pos c6]
      exact good_load_comments _
        (good_write_log_release env.now Kind.Finish w h hnow (Or.inr (Or.inl rfl)) c6)
    · rw [if_neg c6]; exact h
  rw [if_neg k6]
  by_cases k7 : key = 'x'
  · rw [if_pos k7]
    by_cases c7 : is_the_checked_in_project w = true
    · rw [if_pos c7]
      exact good_load_comments _
        (good_write_log_release env.now Kind.Cancel w h hnow (Or.inr (Or.inr rfl)) c7)
    · rw [if_neg c7]; exact h
  rw [if_neg k7]
  by_cases k8 : key = 'd'
  · rw [if_pos k8]
    by_cases c8 : is_the_checked_in_project w = true
    · rw [if_pos c8]
      by_cases c9 : w.active_id ≠ [] ∧ w.comments.length ≠ 0
      · rw [if_pos c9]
        by_cases c10 : env.ans = 'y' ∨ env.ans = 'Y'
        · rw [if_pos c10]
          apply good_load_comments
          by_cases c11 : (delete_comment w).index_pos > 0
          · simp only [if_pos c11]
            exact good_of_eq (delete_comment w) _ rfl rfl rfl (good_delete_comment w h)
          · simp only [if_neg c11]
            exact good_delete_comment w h
        · rw [if_neg c10]; exact h
      · rw [if_neg c9]; exact h
    · rw [if_neg c8]; exact h
  rw [if_neg k8]
  by_cases k9 : key = 'l'
  · rw [if_pos k9]; exact h
  rw [if_neg k9]
  by_cases k10 : key = 'p' ∨ key = KEY_BACKSPACE ∨ key = Char.ofNat 127 ∨ key = Char.ofNat 8
  · rw [if_pos k10]
    exact good_of_eq (save_active_project none w) _ rfl rfl rfl
      (good_save_active_project none w h)
  · rw [if_neg k10]; exact h

theorem strrchr_offset_none (c : Char) :
    ∀ s : CStr, c ∉ s → strrchr_offset c s = none := by
  intro s
  induction s with
  | nil => intro _; rfl
  | cons x xs ih =>
    intro h
    have hx : x ≠ c := fun e => h (by simp [e])
    have hxs : c ∉ xs := fun e => h (by simp [e])
    simp only [strrchr_offset, ih hxs, if_neg hx]

theorem strrchr_offset_append (c : Char) (b : CStr) (hb : c ∉ b) :
    ∀ a : CStr, strrchr_offset c (a ++ c :: b) = some a.length := by
  intro a
  induction a with
  | nil => simp only [List.nil_append, strrchr_offset, strrchr_offset_none c b hb, if_pos,
      List.length_nil]
  | cons x xs ih =>
    have hstep : strrchr_offset c (x :: (xs ++ c :: b)) =
        match strrchr_offset c (xs ++ c :: b) with
        | some i => some (i + 1)
        | none => if x = c then some 0 else none := rfl
    rw [List.cons_append, hstep, ih]
    rfl

/-- The entry of the log of a good id in `DATA_DIR` gives the id back. -/
theorem entry_id_log (id : CStr) (h : good_id id) :
    entry_id (id ++ ".log".toList) = some id := by
  have hs : strstr (id ++ ".log".toList) ".log".toList = true := by
    have := strstr_append ".log".toList [] id
    simpa using this
  have ho : strrchr_offset '.' (id ++ ".log".toList) = some id.length :=
    strrchr_offset_append '.' "log".toList (by decide) id
  have hlt : ¬ id.length ≥ 128 := by
    have := h.2.1
    omega
  unfold entry_id
  rw [hs, ho]
  simp only [Bool.not_true, Bool.false_eq_true, if_false, if_neg hlt]
  rw [List.take_left' rfl, if_pos h.1]

/-- In a state with the invariant the entry that the list view acts on
belongs to a project with a good id. -/
theorem selected_project_good
    (qsort : (ProjectInfo → ProjectInfo → Int) → List ProjectInfo → List ProjectInfo)
    (hperm : ∀ cmp l, (qsort cmp l).Perm l) (junk : Nat → Junk)
    (dirents : List CStr) (sel_filter sel : Nat) (w : State) (p : ProjectInfo)
    (h : Good w) (hdir : dir_listing w dirents)
    (hsel : selected_project qsort junk dirents sel_filter sel w = some p) :
    good_id p.id := by
  obtain ⟨⟨d, hd, he⟩, _, _⟩ := selected_project_listed qsort hperm junk dirents sel_filter sel w p hsel
  rcases hdir d hd with h1 | h1 | ⟨id, hid, h1⟩
  · rw [h1] at he
    have hn : entry_id ".".toList = none := by decide
    rw [hn] at he
    cases he
  · rw [h1] at he
    have hn : entry_id "..".toList = none := by decide
    rw [hn] at he
    cases he
  · cases hf : w.data id with
    | none => exact absurd hf hid
    | some file =>
      have hg := (h.1 id file hf).1
      rw [h1, entry_id_log id hg] at he
      cases he
      exact hg

/-- Every key of the list view keeps the invariant. -/
theorem good_list_view_key
    (qsort : (ProjectInfo → ProjectInfo → Int) → List ProjectInfo → List ProjectInfo)
    (hperm : ∀ cmp l, (qsort cmp l).Perm l) (junk : Nat → Junk)
    (dirents : List CStr) (env : Env) (sel_filter sel : Nat) (key : Char) (w : State)
    (h : Good w) (hdir : dir_listing w dirents) (hnow : is_now_iso env.now = true)
    (hid : key = 'n' → typed_id_ok env) :
    Good (list_view_key qsort junk dirents env sel_filter sel key w) := by
  by_cases k1 : key = 'q'
  · unfold list_view_key
    rw [if_pos k1]
    exact good_of_eq w _ rfl rfl rfl h
  by_cases k2 : key = 'n'
  · unfold list_view_key
    rw [if_neg k1, if_pos k2]
    exact good_create_new_project env w h hnow (hid k2)
  by_cases k3 : key = 'A'
  · subst k3
    cases hsel : selected_project qsort junk dirents sel_filter sel w with
    | none =>
      unfold list_view_key
      rw [if_neg k1, if_neg k2, if_pos rfl, hsel]
      exact h
    | some p =>
      by_cases hans : env.ans = 'y' ∨ env.ans = 'Y'
      · obtain ⟨f1, f2, f3, _⟩ :=
          list_view_key_archive qsort junk dirents env sel_filter sel w p hsel hans
        exact good_remove w _ p.id h f1 f2 f3
      · unfold list_view_key
        rw [if_neg k1, if_neg k2, if_pos rfl, hsel]
        simp only [if_neg hans]
        exact h
  by_cases k4 : key = 'x'
  · subst k4
    cases hsel : selected_project qsort junk dirents sel_filter sel w with
    | none =>
      unfold list_view_key
      rw [if_neg k1, if_neg k2, if_neg k3, if_pos rfl, hsel]
      exact h
    | some p =>
      by_cases hans : env.ans = 'y' ∨ env.ans = 'Y'
      · obtain ⟨f1, f2, f3, _⟩ :=
          list_view_key_delete qsort junk dirents env sel_filter sel w p hsel hans
        exact good_remove w _ p.id h f1 f2 f3
      · unfold list_view_key
        rw [if_neg k1, if_neg k2, if_neg k3, if_pos rfl, hsel]
        simp only [if_neg hans]
        exact h
  by_cases k5 : key = '\n' ∨ key = KEY_ENTER
  · unfold list_view_key
    rw [if_neg k1, if_neg k2, if_neg k3, if_neg k4, if_pos k5]
    cases hsel : selected_project qsort junk dirents sel_filter sel w with
    | none => exact h
    | some p =>
      have hg := selected_project_good qsort hperm junk dirents sel_filter sel w p h hdir hsel
      have hcpy : strncpy p.id 127 = p.id := List.take_of_length_le hg.2.1
      simp only [hcpy]
      obtain ⟨h1, _, h3, h4⟩ := h
      refine ⟨?_, ?_, ?_, ?_⟩
      · intro id file hf
        apply h1 id file
        have hd : (load_comments (save_active_project (some p.id)
            { w with active_id := p.id })).data = w.data := by
          rw [load_comments_data, (save_active_project_fields _ _).1]
        exact hd ▸ hf
      · right
        show good_id (load_comments _).active_id
        rw [load_comments_active_id, (save_active_project_fields _ _).2.2.2]
        exact hg
      · intro l hl
        have hlk : (load_comments (save_active_project (some p.id)
            { w with active_id := p.id })).lock = w.lock := by
          rw [load_comments_lock, (save_active_project_fields _ _).2.2.1]
        have hd : (load_comments (save_active_project (some p.id)
            { w with active_id := p.id })).data = w.data := by
          rw [load_comments_data, (save_active_project_fields _ _).1]
        obtain ⟨x, file, hx, hxd, hxs⟩ := h3 l (hlk ▸ hl)
        exact ⟨x, file, hx, by rw [← hxd]; exact congrFun hd x, hxs⟩
      · intro id file hf hs
        have hlk : (load_comments (save_active_project (some p.id)
            { w with active_id := p.id })).lock = w.lock := by
          rw [load_comments_lock, (save_active_project_fields _ _).2.2.1]
        have hd : (load_comments (save_active_project (some p.id)
            { w with active_id := p.id })).data = w.data := by
          rw [load_comments_data, (save_active_project_fields _ _).1]
        have := h4 id file (by rw [← hf]; exact (congrFun hd id).symm) hs
        exact hlk.trans this
  · unfold list_view_key
    rw [if_neg k1, if_neg k2, if_neg k3, if_neg k4, if_neg k5]
    exact h

/-- Every key of the loop of `main` keeps the invariant. -/
theorem good_main_key (env : Env) (key : Char) (w : State) (h : Good w)
    (hnow : is_now_iso env.now = true) (hid : key = 'n' → typed_id_ok env)
    (hmsg : key = 'c' → typed_comment_ok env) : Good (main_key env key w) := by
  unfold main_key
  by_cases k1 : key = 'q'
  · rw [if_pos k1]; exact h
  rw [if_neg k1]
  by_cases hm : w.mode = Mode.MODE_DATA
  · rw [if_pos hm]
    by_cases k2 : key = 'n'
    · rw [if_pos k2]
      by_cases hc : has_checkin w = true
      · rw [if_pos hc]; exact h
      · rw [if_neg hc]; exact good_create_new_project env w h hnow (hid k2)
    rw [if_neg k2]
    by_cases k3 : key = 'p'
    · rw [if_pos k3]; exact good_of_eq w _ rfl rfl rfl h
    · rw [if_neg k3]; exact good_data_view_handle env key w h hnow hmsg
  · rw [if_neg hm]; exact h

/-- Every reachable state has the invariant. -/
theorem reachable_good
    (qsort : (ProjectInfo → ProjectInfo → Int) → List ProjectInfo → List ProjectInfo)
    (hperm : ∀ cmp l, (qsort cmp l).Perm l) (w : State) (hr : Reachable qsort w) : Good w := by
  induction hr with
  | start w hd hl ha =>
    refine ⟨?_, Or.inl ha, ?_, ?_⟩
    · intro id file hf
      rw [hd id] at hf
      cases hf
    · intro l h
      rw [hl] at h
      cases h
    · intro id file hf
      rw [hd id] at hf
      cases hf
  | list_enter w _ ih => exact good_save_active_project none w ih
  | list_key junk dirents env sel_filter sel key w _ hdir hnow hid ih =>
    exact good_list_view_key qsort hperm junk dirents env sel_filter sel key w ih hdir hnow hid
  | data_key env key w _ hnow hid hmsg ih => exact good_main_key env key w ih hnow hid hmsg

/-- A state with the invariant is consistent. -/
theorem good_consistent (w : State) (h : Good w) : consistent w := by
  have hstat : ∀ j id file, w.data id = some file →
      (project_entry j w id).last_action = status_of file :=
    fun j id file hf => (project_entry_status j w id file hf).1
  refine ⟨?_, ?_⟩
  · intro hne
    rcases good_lock w h with ⟨_, hnone⟩ | ⟨x, file, _, _, hxr, hxd, hxs⟩
    · exact absurd hnone hne
    · rw [hxr]
      refine ⟨by rw [hxd]; simp, ?_⟩
      intro j
      rw [hstat j x file hxd]
      exact hxs
  · intro j id hid hs
    cases hf : w.data id with
    | none => exact absurd hf hid
    | some file =>
      rw [hstat j id file hf] at hs
      have hlock := h.2.2.2 id file hf hs
      have hr := lock_read_good id w (h.1 id file hf).1 hlock
      rw [hr]
      exact ⟨(good_id_mem id (h.1 id file hf).1).1, rfl⟩

/-! ## C22: the lock and the derived statuses -/

/-- C22: in every state reachable from a state without logs and without a
lock by the keys of the user interface (create, open, check-in, check-out,
finish, cancel, add comment, delete comment, archive, delete, and the keys
that change no file), with typed project ids that have no white space at
either end and typed comments without tab and newline of any length that the
input accepts, the lock holder, if there is one, is a project with a log in
`DATA_DIR` whose derived status is `checkin`, and every project with a log in
`DATA_DIR` and the derived status `checkin` is the lock holder; so with an
empty lock no project has the status `checkin`.  The library `qsort` is
taken to return a permutation of its input. -/
theorem lock_status_consistent
    (qsort : (ProjectInfo → ProjectInfo → Int) → List ProjectInfo → List ProjectInfo)
    (hperm : ∀ cmp l, (qsort cmp l).Perm l) (w : State) (hr : Reachable qsort w) :
    consistent w :=
  good_consistent w (reachable_good qsort hperm w hr)

set_option maxRecDepth 100000 in
/-- C22 at a concrete input: from the empty state the key `n` of the list
view creates `proj1`, the Enter key opens it and the key `i` of the data view
checks it in; then `proj1` holds the lock and the state is consistent. -/
theorem lock_status_consistent_witness :
    lock_read 128 checked_in_state = "proj1".toList ∧ consistent checked_in_state :=
  ⟨by decide,
    lock_status_consistent sample_qsort (fun _ l => List.perm_insertionSort _ l) _
      (Reachable.data_key (typed_env []) 'i' _
        (Reachable.list_key sample_junk [".".toList, "..".toList, "proj1.log".toList]
          (typed_env []) 0 0 '\n' _
          (Reachable.list_key sample_junk [".".toList, "..".toList]
            (typed_env "proj1".toList) 0 0 'n' empty_state
            (Reachable.start empty_state (fun _ => rfl) rfl rfl)
            (by
              intro d hd
              simp only [List.mem_cons, List.mem_singleton, List.not_mem_nil, or_false] at hd
              rcases hd with h | h
              · exact Or.inl h
              · exact Or.inr (Or.inl h))
            (by decide)
            (fun _ => by
              have e : trim (getnstr 127 (typed_env "proj1".toList).typed) =
                  "proj1".toList := by
                decide
              unfold typed_id_ok
              rw [e]
              refine ⟨fun c hc => ?_, fun c hc => ?_⟩
              · cases hc; decide
              · cases hc; decide))
          (by
            intro d hd
            simp only [List.mem_cons, List.mem_singleton, List.not_mem_nil, or_false] at hd
            rcases hd with h | h | h
            · exact Or.inl h
            · exact Or.inr (Or.inl h)
            · exact Or.inr (Or.inr ⟨"proj1".toList, by decide, h⟩))
          (by decide) (fun h => absurd h (by decide)))
        (by decide) (fun h => absurd h (by decide)) (fun h => absurd h (by decide)))⟩

end Adash
